import Mathlib

/-!
# CVATRegister (Task_2) : a registry of companies kept in two sorted vectors

Shallow embedding of `src/Task_2/main.cpp`.

* A `std::string` is the list of its characters, a `char` being the `Char`
  with the same code; `operator<` on strings is the lexicographic comparison
  of the character codes as unsigned values (`strLt`), `!=` is list
  disequality, and `::tolower` changes the letters `A` to `Z` only.
* `unsigned int` values are natural numbers, arithmetic on them is reduced
  modulo `2 ^ 32` (`UINT_RANGE`).
* A `std::vector` is a list; an iterator is an index into it, `end()` being the
  length.  Dereferencing or erasing at `end()` is undefined in C++ and is the
  result `none` here, so the operations that do it return an `Option`.
* `std::lower_bound`, `std::upper_bound` and `std::binary_search` are embedded
  as the halving loop of the standard library, not as their contract; that
  they meet the contract on the sorted vectors is proved below.
* A `const` method is a function of the registry that returns no new registry.
-/

namespace CVATRegister

/-! ## Strings -/

/-- Contents of a `std::string`. -/
abbrev Str := List Char

/-- Comparison `s < t` of two `std::string`s: the first differing character
decides, a proper initial segment is smaller. -/
def strLt : Str → Str → Bool
  | [], [] => false
  | [], _ :: _ => true
  | _ :: _, [] => false
  | a :: as, b :: bs =>
    if a < b then true else if b < a then false else strLt as bs

/-- Model of `toLowerCase`: every character is replaced by `::tolower` of it
(in the "C" locale only the letters `A` to `Z` change). -/
def toLowerCase (text : Str) : Str := text.map Char.toLower

/-! ## Companies and the two comparators -/

/-- The struct `Company`; `income` is the `unsigned int` field. -/
structure Company where
  name : Str
  address : Str
  id : Str
  income : Nat
  deriving DecidableEq

/-- Number of values of an `unsigned int`. -/
def UINT_RANGE : Nat := 4294967296

/-- Model of `compareFunction`: both names and both addresses are lowered, the
names decide unless they are equal, then the addresses decide. -/
def compareFunction (company1 company2 : Company) : Bool :=
  let name1 := toLowerCase company1.name
  let name2 := toLowerCase company2.name
  let address1 := toLowerCase company1.address
  let address2 := toLowerCase company2.address
  if name1 != name2 then strLt name1 name2 else strLt address1 address2

/-- The lambda `company1.id < company2.id` used for the vector sorted by id. -/
def idLess (company1 company2 : Company) : Bool :=
  strLt company1.id company2.id

/-! ## Binary searches of the standard library -/

/-- Halving loop shared by `std::lower_bound` and `std::upper_bound`:
`first` and `len` are the loop variables, `p middle` is the test that moves
`first` past `middle`.  The first argument bounds the number of iterations;
the loop needs at most `len` of them. -/
def searchLoop {α : Type} (p : α → Bool) (v : List α) : Nat → Nat → Nat → Nat
  | 0, first, _ => first
  | fuel + 1, first, len =>
    if len = 0 then first
    else
      match v[first + len / 2]? with
      | none => first
      | some middle =>
        if p middle then searchLoop p v fuel (first + len / 2 + 1) (len - len / 2 - 1)
        else searchLoop p v fuel first (len / 2)

/-- Model of `std::lower_bound (v.begin(), v.end(), val, comp)` as an index. -/
def lower_bound {α : Type} (v : List α) (val : α) (comp : α → α → Bool) : Nat :=
  searchLoop (fun middle => comp middle val) v v.length 0 v.length

/-- Model of `std::upper_bound (v.begin(), v.end(), val, comp)` as an index. -/
def upper_bound {α : Type} (v : List α) (val : α) (comp : α → α → Bool) : Nat :=
  searchLoop (fun middle => !comp val middle) v v.length 0 v.length

/-- Model of `std::binary_search`: the lower bound is not `end()` and `val` is
not smaller than the element there. -/
def binary_search {α : Type} (v : List α) (val : α) (comp : α → α → Bool) : Bool :=
  match v[lower_bound v val comp]? with
  | none => false
  | some found => !comp val found

/-! ## Vector primitives -/

/-- Model of `v.insert (pos, c)`. -/
def vecInsert (v : List Company) (pos : Nat) (c : Company) : List Company :=
  v.take pos ++ c :: v.drop pos

/-- Model of `v.erase (pos)`; `pos` has to point at an element. -/
def vecErase (v : List Company) (pos : Nat) : Option (List Company) :=
  if pos < v.length then some (v.eraseIdx pos) else none

/-- Model of `pos->income += amount` on an `unsigned int` field; `pos` has to
point at an element. -/
def vecCredit (v : List Company) (pos : Nat) (amount : Nat) : Option (List Company) :=
  match v[pos]? with
  | none => none
  | some c => some (v.set pos { c with income := (c.income + amount) % UINT_RANGE })

end CVATRegister

/-- The class `CVATRegister`: its three member vectors. -/
structure CVATRegister where
  sortedById : List CVATRegister.Company
  sortedByName : List CVATRegister.Company
  invoices : List Nat
  deriving DecidableEq

namespace CVATRegister

/-- The default constructor: all three vectors are empty. -/
def empty : CVATRegister := { sortedById := [], sortedByName := [], invoices := [] }

/-- Model of `isIncluded (id)`. -/
def isIncludedId (r : CVATRegister) (id : Str) : Bool :=
  let toSearch : Company := { name := [], address := [], id := id, income := 0 }
  binary_search r.sortedById toSearch idLess

/-- Model of `isIncluded (name, address)`. -/
def isIncludedName (r : CVATRegister) (name address : Str) : Bool :=
  let toSearch : Company := { name := name, address := address, id := [], income := 0 }
  binary_search r.sortedByName toSearch compareFunction

/-- Model of `newCompany (name, addr, taxID)`: the returned flag and the
registry afterwards. -/
def newCompany (r : CVATRegister) (name addr taxID : Str) : Bool × CVATRegister :=
  let newCompanyToInsert : Company := { name := name, address := addr, id := taxID, income := 0 }
  if r.isIncludedId taxID || r.isIncludedName name addr then (false, r)
  else
    let positionByName := lower_bound r.sortedByName newCompanyToInsert compareFunction
    let positionById := lower_bound r.sortedById newCompanyToInsert idLess
    (true, { sortedById := vecInsert r.sortedById positionById newCompanyToInsert,
             sortedByName := vecInsert r.sortedByName positionByName newCompanyToInsert,
             invoices := r.invoices })

/-- Model of `cancelCompany (name, addr)`. -/
def cancelCompanyByName (r : CVATRegister) (name addr : Str) : Option (Bool × CVATRegister) :=
  if !r.isIncludedName name addr then some (false, r)
  else do
    let tmpByName : Company := { name := name, address := addr, id := [], income := 0 }
    let posByName := lower_bound r.sortedByName tmpByName compareFunction
    let found ← r.sortedByName[posByName]?
    let posById := lower_bound r.sortedById found idLess
    let byName ← vecErase r.sortedByName posByName
    let byId ← vecErase r.sortedById posById
    some (true, { sortedById := byId, sortedByName := byName, invoices := r.invoices })

/-- Model of `cancelCompany (taxID)`. -/
def cancelCompanyById (r : CVATRegister) (taxID : Str) : Option (Bool × CVATRegister) :=
  if !r.isIncludedId taxID then some (false, r)
  else do
    let tmpById : Company := { name := [], address := [], id := taxID, income := 0 }
    let posById := lower_bound r.sortedById tmpById idLess
    let found ← r.sortedById[posById]?
    let posByName := lower_bound r.sortedByName found compareFunction
    let byId ← vecErase r.sortedById posById
    let byName ← vecErase r.sortedByName posByName
    some (true, { sortedById := byId, sortedByName := byName, invoices := r.invoices })

/-- Model of `invoice (taxID, amount)`. -/
def invoiceById (r : CVATRegister) (taxID : Str) (amount : Nat) : Option (Bool × CVATRegister) :=
  if !r.isIncludedId taxID then some (false, r)
  else do
    let tmpById : Company := { name := [], address := [], id := taxID, income := 0 }
    let posById := lower_bound r.sortedById tmpById idLess
    let found ← r.sortedById[posById]?
    let posByName := lower_bound r.sortedByName found compareFunction
    let byId ← vecCredit r.sortedById posById amount
    let byName ← vecCredit r.sortedByName posByName amount
    some (true, { sortedById := byId, sortedByName := byName, invoices := r.invoices ++ [amount] })

/-- Model of `invoice (name, addr, amount)`. -/
def invoiceByName (r : CVATRegister) (name addr : Str) (amount : Nat) :
    Option (Bool × CVATRegister) :=
  if !r.isIncludedName name addr then some (false, r)
  else do
    let tmpByName : Company := { name := name, address := addr, id := [], income := 0 }
    let posByName := lower_bound r.sortedByName tmpByName compareFunction
    let found ← r.sortedByName[posByName]?
    let posById := lower_bound r.sortedById found idLess
    let byName ← vecCredit r.sortedByName posByName amount
    let byId ← vecCredit r.sortedById posById amount
    some (true, { sortedById := byId, sortedByName := byName, invoices := r.invoices ++ [amount] })

/-- Model of `audit (name, addr, sumIncome)`: the returned flag and the value
of `sumIncome` afterwards.  The method is `const`, the registry stays. -/
def auditByName (r : CVATRegister) (name addr : Str) (sumIncome : Nat) : Option (Bool × Nat) :=
  if !r.isIncludedName name addr then some (false, sumIncome)
  else do
    let tmpByName : Company := { name := name, address := addr, id := [], income := 0 }
    let posByName := lower_bound r.sortedByName tmpByName compareFunction
    let found ← r.sortedByName[posByName]?
    some (true, found.income)

/-- Model of `audit (taxID, sumIncome)`. -/
def auditById (r : CVATRegister) (taxID : Str) (sumIncome : Nat) : Option (Bool × Nat) :=
  if !r.isIncludedId taxID then some (false, sumIncome)
  else do
    let tmpById : Company := { name := [], address := [], id := taxID, income := 0 }
    let posById := lower_bound r.sortedById tmpById idLess
    let found ← r.sortedById[posById]?
    some (true, found.income)

/-- Model of `firstCompany (name, addr)`: the returned flag and the values of
`name` and `addr` afterwards. -/
def firstCompany (r : CVATRegister) (name addr : Str) : Bool × Str × Str :=
  match r.sortedByName with
  | [] => (false, name, addr)
  | first :: _ => (true, first.name, first.address)

/-- Model of `nextCompany (name, addr)`: the returned flag and the values of
`name` and `addr` afterwards. -/
def nextCompany (r : CVATRegister) (name addr : Str) : Bool × Str × Str :=
  if r.sortedByName.isEmpty then (false, name, addr)
  else
    let tmpCompany : Company := { name := name, address := addr, id := [], income := 0 }
    let pos := upper_bound r.sortedByName tmpCompany compareFunction
    match r.sortedByName[pos]? with
    | none => (false, name, addr)
    | some found => (true, found.name, found.address)

/-- Model of `std::sort` on a vector of `unsigned int`: the ascending
rearrangement. -/
def sort (v : List Nat) : List Nat := v.insertionSort (· ≤ ·)

/-- Model of `medianInvoice ()`; the method is `const`.  Both branches of the
parity test read the same index `size / 2` of the sorted copy. -/
def medianInvoice (r : CVATRegister) : Nat :=
  if r.invoices.isEmpty then 0
  else
    let tmpInvoices := sort r.invoices
    if r.invoices.length % 2 ≠ 0 then tmpInvoices.getD (r.invoices.length / 2) 0
    else tmpInvoices.getD (r.invoices.length / 2) 0

/-! ## Calls and reachable registries -/

/-- A call of one of the mutating methods. -/
inductive Call where
  | newCompany (name addr taxID : Str)
  | cancelCompanyByName (name addr : Str)
  | cancelCompanyById (taxID : Str)
  | invoiceById (taxID : Str) (amount : Nat)
  | invoiceByName (name addr : Str) (amount : Nat)
  deriving DecidableEq

/-- The arguments of a call fit their C++ types: an amount is an `unsigned int`. -/
def Call.valid : Call → Bool
  | .invoiceById _ amount => decide (amount < UINT_RANGE)
  | .invoiceByName _ _ amount => decide (amount < UINT_RANGE)
  | _ => true

/-- Effect of a call: the returned flag and the registry afterwards. -/
def call (r : CVATRegister) : Call → Option (Bool × CVATRegister)
  | .newCompany name addr taxID => some (r.newCompany name addr taxID)
  | .cancelCompanyByName name addr => r.cancelCompanyByName name addr
  | .cancelCompanyById taxID => r.cancelCompanyById taxID
  | .invoiceById taxID amount => r.invoiceById taxID amount
  | .invoiceByName name addr amount => r.invoiceByName name addr amount

/-- Registries obtained from the empty one by a sequence of calls, successful
or not. -/
inductive Reachable : CVATRegister → Prop where
  | empty : Reachable CVATRegister.empty
  | step {r r1 : CVATRegister} {flag : Bool} (c : Call) :
      Reachable r → c.valid = true → call r c = some (flag, r1) → Reachable r1

/-- Runs a list of calls, returning the flags and the final registry. -/
def run (r : CVATRegister) : List Call → Option (List Bool × CVATRegister)
  | [] => some ([], r)
  | c :: cs => do
    let (flag, r1) ← call r c
    let (flags, r2) ← run r1 cs
    some (flag :: flags, r2)

/-! ## Notions used to state the properties -/

/-- The key by which `compareFunction` orders: lowered name, lowered address. -/
def nameKey (c : Company) : Str × Str := (toLowerCase c.name, toLowerCase c.address)

/-- The record is addressed by the name and address given, letter case apart. -/
def sameNameAddr (c : Company) (name addr : Str) : Prop :=
  toLowerCase c.name = toLowerCase name ∧ toLowerCase c.address = toLowerCase addr

/-- A company after `income += amount`. -/
def credited (c : Company) (amount : Nat) : Company :=
  { c with income := (c.income + amount) % UINT_RANGE }

/-- The vector `v` with the record `c` credited and every other record kept. -/
def creditIn (v : List Company) (c : Company) (amount : Nat) : List Company :=
  v.map (fun d => if d = c then credited d amount else d)

/-- What the searches need of a comparator: it is a strict order that decides
by a key, and different keys are always ordered one way or the other. -/
structure KeyOrder {α κ : Type} (lt : α → α → Bool) (key : α → κ) : Prop where
  irrefl : ∀ a, lt a a = false
  trans : ∀ a b c, lt a b = true → lt b c = true → lt a c = true
  connex : ∀ a b, lt a b = false → lt b a = false → key a = key b
  congr : ∀ a b c d, key a = key c → key b = key d → lt a b = lt c d

/-- The invariant of the class: both vectors are sorted by their comparator
and hold the same records. -/
structure Inv (r : CVATRegister) : Prop where
  byId : r.sortedById.Pairwise (fun a b => idLess a b = true)
  byName : r.sortedByName.Pairwise (fun a b => compareFunction a b = true)
  perm : r.sortedById.Perm r.sortedByName

/-- The call names the company `(name, addr, taxID)`: by its id, or by its
name and address up to letter case. -/
def Call.addresses (name addr taxID : Str) : Call → Bool
  | .newCompany _ _ _ => false
  | .cancelCompanyByName n a =>
    decide (toLowerCase name = toLowerCase n ∧ toLowerCase addr = toLowerCase a)
  | .cancelCompanyById k => decide (taxID = k)
  | .invoiceById k _ => decide (taxID = k)
  | .invoiceByName n a _ =>
    decide (toLowerCase name = toLowerCase n ∧ toLowerCase addr = toLowerCase a)

/-- The call is one of the two `cancelCompany` overloads. -/
def Call.isCancel : Call → Bool
  | .cancelCompanyByName _ _ => true
  | .cancelCompanyById _ => true
  | _ => false

/-- The amount of an `invoice` call. -/
def Call.amount? : Call → Option Nat
  | .invoiceById _ amount => some amount
  | .invoiceByName _ _ amount => some amount
  | _ => none

/-- The amounts credited to the company `(name, addr, taxID)` by the calls of a
trace: those of the `invoice` calls that name it and returned true. -/
def creditsOf (name addr taxID : Str) : List Call → List Bool → List Nat
  | c :: cs, flag :: flags =>
    match c.amount? with
    | some amount =>
      if flag && c.addresses name addr taxID then amount :: creditsOf name addr taxID cs flags
      else creditsOf name addr taxID cs flags
    | none => creditsOf name addr taxID cs flags
  | _, _ => []

/-! ## Registries of `main` -/

/-- The first seven mutating calls of `main` on `b1`. -/
def b1Calls : List Call :=
  [ .newCompany "ACME".toList "Thakurova".toList "666/666".toList,
    .newCompany "ACME".toList "Kolejni".toList "666/666/666".toList,
    .newCompany "Dummy".toList "Thakurova".toList "123456".toList,
    .invoiceById "666/666".toList 2000,
    .invoiceById "666/666/666".toList 3000,
    .invoiceById "123456".toList 4000,
    .invoiceByName "aCmE".toList "Kolejni".toList 5000 ]

/-- The company ACME, Kolejni of `b1` after its two invoices. -/
def acmeKolejni : Company :=
  { name := "ACME".toList, address := "Kolejni".toList, id := "666/666/666".toList,
    income := 8000 }

/-- The company ACME, Thakurova of `b1` after its invoice. -/
def acmeThakurova : Company :=
  { name := "ACME".toList, address := "Thakurova".toList, id := "666/666".toList,
    income := 2000 }

/-- The company Dummy, Thakurova of `b1` after its invoice. -/
def dummyThakurova : Company :=
  { name := "Dummy".toList, address := "Thakurova".toList, id := "123456".toList,
    income := 4000 }

/-- The registry `b1` of `main` after `b1Calls`. -/
def b1Register : CVATRegister :=
  { sortedById := [dummyThakurova, acmeThakurova, acmeKolejni],
    sortedByName := [acmeKolejni, acmeThakurova, dummyThakurova],
    invoices := [2000, 3000, 4000, 5000] }

/-- A company whose income is the greatest `unsigned int`. -/
def fullCompany : Company :=
  { name := "ACME".toList, address := "Kolejni".toList, id := "1".toList,
    income := 4294967295 }

/-- The calls of `fullRegister`: one insertion, one invoice of the greatest
`unsigned int`. -/
def fullCalls : List Call :=
  [ .newCompany "ACME".toList "Kolejni".toList "1".toList,
    .invoiceById "1".toList 4294967295 ]

/-- The registry after `fullCalls`. -/
def fullRegister : CVATRegister :=
  { sortedById := [fullCompany], sortedByName := [fullCompany], invoices := [4294967295] }

/-- The company of `fullRegister` when it is inserted. -/
def freshCompany : Company :=
  { name := "ACME".toList, address := "Kolejni".toList, id := "1".toList, income := 0 }

/-- The registry after the insertion of `freshCompany` into the empty one. -/
def freshRegister : CVATRegister :=
  { sortedById := [freshCompany], sortedByName := [freshCompany], invoices := [] }

/-- Two invoices to `freshCompany` whose amounts add up to `2 ^ 32`. -/
def wrapCalls : List Call :=
  [ .invoiceById "1".toList 4294967295, .invoiceByName "acme".toList "KOLEJNI".toList 1 ]

/-- The registry after `wrapCalls` on `freshRegister`. -/
def wrappedRegister : CVATRegister :=
  { sortedById := [freshCompany], sortedByName := [freshCompany],
    invoices := [4294967295, 1] }

/-- The three companies `main` inserts into `b1`: name, address, id. -/
def b1Companies : List (Str × Str × Str) :=
  [ ("ACME".toList, "Thakurova".toList, "666/666".toList),
    ("ACME".toList, "Kolejni".toList, "666/666/666".toList),
    ("Dummy".toList, "Thakurova".toList, "123456".toList) ]

/-! ## Notions used for the traversal and the history -/

/-- The pair `(name1, addr1)` is below `(name2, addr2)` in the order of the
traversal: by lowered name, then by lowered address. -/
def pairLess (name1 addr1 name2 addr2 : Str) : Prop :=
  strLt (toLowerCase name1) (toLowerCase name2) = true ∨
  (toLowerCase name1 = toLowerCase name2 ∧
    strLt (toLowerCase addr1) (toLowerCase addr2) = true)

/-- The amounts a trace appends to the invoices: those of the `invoice` calls
that returned true, in the order of the calls. -/
def successfulAmounts : List Call → List Bool → List Nat
  | c :: cs, flag :: flags =>
    match c.amount?, flag with
    | some amount, true => amount :: successfulAmounts cs flags
    | _, _ => successfulAmounts cs flags
  | _, _ => []

/-- What one call appends to the invoices. -/
def Call.appended (c : Call) (flag : Bool) : List Nat :=
  match c.amount?, flag with
  | some amount, true => [amount]
  | _, _ => []

/-- The loop of a traversal: `nextCompany` is called with the pair returned
last until it returns false; the pairs returned with true are collected.  The
first argument bounds the number of calls. -/
def nextLoop (r : CVATRegister) : Nat → Str → Str → List (Str × Str)
  | 0, _, _ => []
  | fuel + 1, name, addr =>
    match r.nextCompany name addr with
    | (true, name1, addr1) => (name1, addr1) :: nextLoop r fuel name1 addr1
    | (false, _, _) => []

/-- A traversal: `firstCompany`, then `nextLoop` from the pair it returned. -/
def traverse (r : CVATRegister) (fuel : Nat) : List (Str × Str) :=
  match r.firstCompany [] [] with
  | (true, name, addr) => (name, addr) :: nextLoop r fuel name addr
  | (false, _, _) => []

end CVATRegister

/-!
# CDate (Task_3) : a calendar date

Shallow embedding of `src/Task_3/main.cpp`.

* An `int` is an integer; `%` on `int` is the truncating remainder `Int.tmod`.
  Overflow of `int` is undefined in C++ and is not modelled: the properties
  below are about arguments for which no intermediate value leaves `int`.
* A constructor call that throws `InvalidDateException` is the result `none`.
* The `while` loop of `operator +` is a recursion over a bound on the number
  of its iterations; that the bound used is never reached is proved below.
-/

/-- The class `CDate`: its three `int` members. -/
structure CDate where
  year : Int
  month : Int
  day : Int
  deriving DecidableEq

namespace CDate

/-- Model of `isLeapYear (year)`. -/
def isLeapYear (year : Int) : Bool :=
  if year.tmod 4 ≠ 0 then false
  else if year.tmod 100 ≠ 0 then true
  else if year.tmod 400 ≠ 0 then false
  else true

/-- Model of `daysInMonth (month, year)`: the `switch` over the month. -/
def daysInMonth (month year : Int) : Int :=
  if month = 1 ∨ month = 3 ∨ month = 5 ∨ month = 7 ∨ month = 8 ∨ month = 10 ∨ month = 12
  then 31
  else if month = 4 ∨ month = 6 ∨ month = 9 ∨ month = 11 then 30
  else if month = 2 then (if isLeapYear year then 29 else 28)
  else 0

/-- Model of `validDate (date)`; the year is not looked at. -/
def validDate (date : CDate) : Bool :=
  decide (date.month ≥ 1) && decide (date.month ≤ 12) && decide (date.day ≥ 1) &&
    decide (date.day ≤ daysInMonth date.month date.year)

/-- Model of the constructor `CDate (year, month, day)`; `none` stands for the
exception `InvalidDateException`. -/
def new (year month day : Int) : Option CDate :=
  if !(decide (month ≥ 1) && decide (month ≤ 12) &&
       decide (day ≥ 1) && decide (day ≤ daysInMonth month year) &&
       decide (year ≥ 2000) && decide (year ≤ 2030))
  then none
  else some { year := year, month := month, day := day }

/-- One pass through the body of the `while` loop of `operator +`: the first
`if` moves to the month before, the second to the month after. -/
def loopBody (newDate : CDate) : CDate :=
  let afterFirst : CDate :=
    if newDate.day < 1 then
      let month := newDate.month - 1
      let monthYear : Int × Int := if month = 0 then (12, newDate.year - 1) else (month, newDate.year)
      { year := monthYear.2, month := monthYear.1,
        day := newDate.day + daysInMonth monthYear.1 monthYear.2 }
    else newDate
  if afterFirst.day > daysInMonth afterFirst.month afterFirst.year then
    let day := afterFirst.day - daysInMonth afterFirst.month afterFirst.year
    let month := afterFirst.month + 1
    if month = 13 then { year := afterFirst.year + 1, month := 1, day := day }
    else { year := afterFirst.year, month := month, day := day }
  else afterFirst

/-- The `while (! validDate (newDate))` loop of `operator +`; the first
argument bounds the number of passes. -/
def whileLoop : Nat → CDate → CDate
  | 0, newDate => newDate
  | fuel + 1, newDate =>
    if validDate newDate then newDate else whileLoop fuel (loopBody newDate)

/-- Model of `operator + (int rhs)`.  The copy `newDate` is made by the
constructor, which throws for a year outside 2000 to 2030. -/
def plus (self : CDate) (rhs : Int) : Option CDate := do
  let newDate ← CDate.new self.year self.month self.day
  some (whileLoop ((newDate.day + rhs).natAbs + 1) { newDate with day := newDate.day + rhs })

/-- Model of `operator - (int rhs)`. -/
def minus (self : CDate) (rhs : Int) : Option CDate :=
  self.plus (-rhs)

/-- A counting `for` loop `for (i = start; ...; ++i) result += f (i)` with the
given number of passes. -/
def forLoop (f : Int → Int) : Nat → Int → Int → Int
  | 0, _, result => result
  | passes + 1, i, result => forLoop f passes (i + 1) (result + f i)

/-- Model of `daysFromStart (date)`: the loop over the years from 2000 up to
the year of the date runs no pass for a year before 2000. -/
def daysFromStart (date : CDate) : Int :=
  let result := forLoop (fun i => if isLeapYear i then 366 else 365)
    (date.year - 2000).toNat 2000 0
  let result := forLoop (fun i => daysInMonth i date.year) (date.month - 1).toNat 1 result
  result + date.day

/-- Model of `operator - (CDate other)`: `abs (order1 - order2)`. -/
def minusDate (self other : CDate) : Int :=
  let order1 := daysFromStart self
  let order2 := daysFromStart other
  if order1 - order2 < 0 then -(order1 - order2) else order1 - order2

/-- Model of `operator ==`. -/
def eq (self other : CDate) : Bool :=
  decide (self.year = other.year) && decide (self.month = other.month) &&
    decide (self.day = other.day)

/-- Model of prefix `operator ++`: the date afterwards and the returned
reference, which is the date afterwards. -/
def preIncrement (self : CDate) : Option (CDate × CDate) := do
  let updated ← self.plus 1
  some (updated, updated)

/-- Model of prefix `operator --`: the date afterwards and the returned
reference. -/
def preDecrement (self : CDate) : Option (CDate × CDate) := do
  let updated ← self.minus 1
  some (updated, updated)

/-- Model of `operator !=`. -/
def ne (self other : CDate) : Bool :=
  !(self.eq other)

/-- Model of `operator >`. -/
def gt (self other : CDate) : Bool :=
  decide (self.year > other.year) ||
    (decide (self.year = other.year) && decide (self.month > other.month)) ||
    (decide (self.year = other.year) && decide (self.month = other.month) &&
      decide (self.day > other.day))

/-- Model of `operator <`. -/
def lt (self other : CDate) : Bool :=
  !(self.gt other) && !(self.eq other)

/-- Model of `operator <=`. -/
def le (self other : CDate) : Bool :=
  !(self.gt other)

/-- Model of `operator >=`. -/
def ge (self other : CDate) : Bool :=
  !(self.lt other)

/-- Model of postfix `operator ++`: the date afterwards and the returned copy
of the date before. -/
def postIncrement (self : CDate) : Option (CDate × CDate) := do
  let old := self
  let updated ← self.plus 1
  some (updated, old)

/-- Model of postfix `operator --`: the date afterwards and the returned copy
of the date before. -/
def postDecrement (self : CDate) : Option (CDate × CDate) := do
  let old := self
  let updated ← self.minus 1
  some (updated, old)

/-- Model of `operator >>`.  The five formatted extractions
`iss >> tmp.year >> delim1 >> tmp.month >> delim2 >> tmp.day` of the standard
library are given by their outcome: the values read, or `none` when the stream
fails on one of them.  Returned are the state of the stream afterwards (false
when `failbit` is set) and the value of `self` afterwards. -/
def extract (read : Option (Int × Char × Int × Char × Int)) (self : CDate) : Bool × CDate :=
  match read with
  | none => (false, self)
  | some (year, delim1, month, delim2, day) =>
    let tmp : CDate := { year := year, month := month, day := day }
    if delim1 != '-' || delim2 != '-' || !validDate tmp then (false, self)
    else (true, tmp)

/-! ## Notions used to state and prove the properties -/

/-- The number of days of a month of the calendar: February has 29 days when
the year is divisible by 4 and not by 100, or divisible by 400. -/
def calendarDays (month year : Int) : Int :=
  if month = 2 then (if (4 ∣ year ∧ ¬ 100 ∣ year) ∨ 400 ∣ year then 29 else 28)
  else if month = 4 ∨ month = 6 ∨ month = 9 ∨ month = 11 then 30
  else 31

/-- Days before the first of January of a year, counted from a fixed day. -/
def yearStart (year : Int) : Int :=
  365 * year + (year - 1) / 4 - (year - 1) / 100 + (year - 1) / 400

/-- Days of a year before the first of a month (13 for the whole year). -/
def monthStart (month year : Int) : Int :=
  if month ≤ 1 then 0
  else if month = 2 then 31
  else (if isLeapYear year then 1 else 0) +
    (if month = 3 then 59 else if month = 4 then 90 else if month = 5 then 120
     else if month = 6 then 151 else if month = 7 then 181 else if month = 8 then 212
     else if month = 9 then 243 else if month = 10 then 273 else if month = 11 then 304
     else if month = 12 then 334 else 365)

/-- The position of a date on the line of days. -/
def dayNumber (date : CDate) : Int :=
  yearStart date.year + monthStart date.month date.year + date.day

end CDate

namespace CVATRegister

/-! ## Order properties of the comparators -/

theorem strLt_irrefl (s : Str) : strLt s s = false := by
  induction s with
  | nil => rfl
  | cons a as ih => simp [strLt, ih]

theorem strLt_trans (s t u : Str) (h1 : strLt s t = true) (h2 : strLt t u = true) :
    strLt s u = true := by
  induction s generalizing t u with
  | nil =>
    cases t with
    | nil => simp [strLt] at h1
    | cons b bs =>
      cases u with
      | nil => simp [strLt] at h2
      | cons c cs => simp [strLt]
  | cons a as ih =>
    cases t with
    | nil => simp [strLt] at h1
    | cons b bs =>
      cases u with
      | nil => simp [strLt] at h2
      | cons c cs =>
        simp only [strLt] at h1 h2 ⊢
        rcases lt_trichotomy a b with hab | hab | hab
        · rcases lt_trichotomy b c with hbc | hbc | hbc
          · simp [lt_trans hab hbc]
          · subst hbc; simp [hab]
          · simp [hbc, lt_asymm hbc] at h2
        · subst hab
          rcases lt_trichotomy a c with hbc | hbc | hbc
          · simp [hbc]
          · subst hbc
            simp only [lt_irrefl, if_false] at h1 h2 ⊢
            exact ih _ _ h1 h2
          · simp [hbc, lt_asymm hbc] at h2
        · simp [hab, lt_asymm hab] at h1

theorem strLt_connex (s t : Str) (h1 : strLt s t = false) (h2 : strLt t s = false) : s = t := by
  induction s generalizing t with
  | nil =>
    cases t with
    | nil => rfl
    | cons b bs => simp [strLt] at h1
  | cons a as ih =>
    cases t with
    | nil => simp [strLt] at h2
    | cons b bs =>
      simp only [strLt] at h1 h2
      rcases lt_trichotomy a b with hab | hab | hab
      · simp [hab] at h1
      · subst hab
        simp only [lt_irrefl, if_false] at h1 h2
        rw [ih _ h1 h2]
      · simp [hab] at h2

theorem idLess_keyOrder : KeyOrder idLess Company.id where
  irrefl a := strLt_irrefl a.id
  trans a b c := strLt_trans a.id b.id c.id
  connex a b := strLt_connex a.id b.id
  congr a b c d h1 h2 := by simp [idLess, h1, h2]

theorem compareFunction_eq (a b : Company) :
    compareFunction a b =
      if (nameKey a).1 = (nameKey b).1 then strLt (nameKey a).2 (nameKey b).2
      else strLt (nameKey a).1 (nameKey b).1 := by
  simp only [compareFunction, nameKey, bne_iff_ne, ne_eq, ite_not]

theorem compareFunction_keyOrder : KeyOrder compareFunction nameKey where
  irrefl a := by simp [compareFunction_eq, strLt_irrefl]
  trans a b c h1 h2 := by
    rw [compareFunction_eq] at h1 h2 ⊢
    by_cases hab : (nameKey a).1 = (nameKey b).1
    · by_cases hbc : (nameKey b).1 = (nameKey c).1
      · rw [if_pos hab] at h1
        rw [if_pos hbc] at h2
        rw [if_pos (hab.trans hbc)]
        exact strLt_trans _ _ _ h1 h2
      · rw [if_neg hbc] at h2
        rw [if_neg (by rw [hab]; exact hbc), hab]
        exact h2
    · rw [if_neg hab] at h1
      by_cases hbc : (nameKey b).1 = (nameKey c).1
      · rw [if_neg (by rw [← hbc]; exact hab), ← hbc]
        exact h1
      · rw [if_neg hbc] at h2
        have h3 := strLt_trans _ _ _ h1 h2
        by_cases hac : (nameKey a).1 = (nameKey c).1
        · rw [hac] at h1
          have h4 := strLt_trans _ _ _ h1 h2
          rw [strLt_irrefl] at h4
          exact absurd h4 (by simp)
        · rw [if_neg hac]
          exact h3
  connex a b h1 h2 := by
    rw [compareFunction_eq] at h1 h2
    by_cases hab : (nameKey a).1 = (nameKey b).1
    · rw [if_pos hab] at h1
      rw [if_pos hab.symm] at h2
      exact Prod.ext hab (strLt_connex _ _ h1 h2)
    · rw [if_neg hab] at h1
      rw [if_neg (fun h => hab h.symm)] at h2
      exact absurd (strLt_connex _ _ h1 h2) hab
  congr a b c d h1 h2 := by
    rw [compareFunction_eq, compareFunction_eq, h1, h2]

namespace KeyOrder

variable {α κ : Type} {lt : α → α → Bool} {key : α → κ}

theorem of_key_eq (ko : KeyOrder lt key) {a b : α} (h : key a = key b) : lt a b = false := by
  rw [ko.congr a b b b h rfl]
  exact ko.irrefl b

theorem key_ne (ko : KeyOrder lt key) {a b : α} (h : lt a b = true) : key a ≠ key b := by
  intro hk
  rw [ko.of_key_eq hk] at h
  exact absurd h (by simp)

theorem asymm (ko : KeyOrder lt key) {a b : α} (h : lt a b = true) : lt b a = false := by
  cases hba : lt b a with
  | false => rfl
  | true =>
    have := ko.trans a b a h hba
    rw [ko.irrefl] at this
    exact absurd this (by simp)

theorem lt_or_lt (ko : KeyOrder lt key) {a b : α} (h : key a ≠ key b) :
    lt a b = true ∨ lt b a = true := by
  cases hab : lt a b with
  | true => exact Or.inl rfl
  | false =>
    cases hba : lt b a with
    | true => exact Or.inr rfl
    | false => exact absurd (ko.connex a b hab hba) h

end KeyOrder

/-! ## The halving loop finds the partition point -/

theorem searchLoop_split {α : Type} (p : α → Bool) (l1 l2 : List α)
    (h1 : ∀ a ∈ l1, p a = true) (h2 : ∀ b ∈ l2, p b = false) :
    ∀ fuel first len, len ≤ fuel → first ≤ l1.length → l1.length ≤ first + len →
      first + len ≤ (l1 ++ l2).length →
      searchLoop p (l1 ++ l2) fuel first len = l1.length := by
  intro fuel
  induction fuel with
  | zero =>
    intro first len hf hlo hhi _
    simp only [searchLoop]
    omega
  | succ fuel ih =>
    intro first len hf hlo hhi hlen
    simp only [searchLoop]
    by_cases h0 : len = 0
    · rw [if_pos h0]
      omega
    · rw [if_neg h0]
      have hm : first + len / 2 < (l1 ++ l2).length := by omega
      rw [List.getElem?_eq_getElem hm]
      simp only
      by_cases hp : p ((l1 ++ l2)[first + len / 2]) = true
      · rw [if_pos hp]
        have hlt : first + len / 2 < l1.length := by
          by_contra hge
          have hge : l1.length ≤ first + len / 2 := by omega
          have hmem : (l1 ++ l2)[first + len / 2] ∈ l2 := by
            rw [List.getElem_append_right hge]
            exact List.getElem_mem _
          rw [h2 _ hmem] at hp
          exact absurd hp (by simp)
        exact ih _ _ (by omega) (by omega) (by omega) (by omega)
      · rw [if_neg hp]
        have hge : l1.length ≤ first + len / 2 := by
          by_contra hlt
          have hlt : first + len / 2 < l1.length := by omega
          have hmem : (l1 ++ l2)[first + len / 2] ∈ l1 := by
            rw [List.getElem_append_left hlt]
            exact List.getElem_mem _
          exact hp (h1 _ hmem)
        exact ih _ _ (by omega) (by omega) (by omega) (by omega)

/-- The bound on the iterations is never reached: every bound from `len` on
gives the same result. -/
theorem searchLoop_fuel {α : Type} (p : α → Bool) (v : List α) :
    ∀ fuel1 fuel2 first len, len ≤ fuel1 → len ≤ fuel2 →
      searchLoop p v fuel1 first len = searchLoop p v fuel2 first len := by
  intro fuel1
  induction fuel1 with
  | zero =>
    intro fuel2 first len h1 _
    have h0 : len = 0 := by omega
    subst h0
    cases fuel2 with
    | zero => rfl
    | succ fuel2 => simp [searchLoop]
  | succ fuel1 ih =>
    intro fuel2 first len h1 h2
    cases fuel2 with
    | zero =>
      have h0 : len = 0 := by omega
      subst h0
      simp [searchLoop]
    | succ fuel2 =>
      simp only [searchLoop]
      by_cases h0 : len = 0
      · rw [if_pos h0, if_pos h0]
      · rw [if_neg h0, if_neg h0]
        cases v[first + len / 2]? with
        | none => rfl
        | some middle =>
          simp only
          rw [ih fuel2 (first + len / 2 + 1) (len - len / 2 - 1) (by omega) (by omega),
            ih fuel2 first (len / 2) (by omega) (by omega)]

theorem searchLoop_eq {α : Type} (p : α → Bool) (l1 l2 : List α)
    (h1 : ∀ a ∈ l1, p a = true) (h2 : ∀ b ∈ l2, p b = false) :
    searchLoop p (l1 ++ l2) (l1 ++ l2).length 0 (l1 ++ l2).length = l1.length :=
  searchLoop_split p l1 l2 h1 h2 _ _ _ (Nat.le_refl _) (Nat.zero_le _)
    (by simp) (by simp)

/-- The loop never leaves the vector, sorted or not. -/
theorem searchLoop_le {α : Type} (p : α → Bool) (v : List α) :
    ∀ fuel first len, first + len ≤ v.length → searchLoop p v fuel first len ≤ v.length := by
  intro fuel
  induction fuel with
  | zero =>
    intro first len h
    simp only [searchLoop]
    omega
  | succ fuel ih =>
    intro first len h
    simp only [searchLoop]
    split_ifs with h0
    · omega
    · split
      · omega
      · split_ifs
        · exact ih _ _ (by omega)
        · exact ih _ _ (by omega)

section Search

variable {α κ : Type} {lt : α → α → Bool} {key : α → κ}

/-- A sorted vector splits into the elements below `x` and the others. -/
theorem split_below (ko : KeyOrder lt key) (x : α) :
    ∀ v : List α, v.Pairwise (fun a b => lt a b = true) →
      ∃ l1 l2, v = l1 ++ l2 ∧ (∀ a ∈ l1, lt a x = true) ∧ (∀ b ∈ l2, lt b x = false) := by
  intro v
  induction v with
  | nil => intro _; exact ⟨[], [], rfl, by simp, by simp⟩
  | cons a v ih =>
    intro hs
    rw [List.pairwise_cons] at hs
    cases hax : lt a x with
    | true =>
      obtain ⟨l1, l2, hv, h1, h2⟩ := ih hs.2
      refine ⟨a :: l1, l2, by rw [hv]; rfl, ?_, h2⟩
      intro c hc
      rcases List.mem_cons.1 hc with rfl | hc
      · exact hax
      · exact h1 c hc
    | false =>
      refine ⟨[], a :: v, rfl, by simp, ?_⟩
      intro c hc
      rcases List.mem_cons.1 hc with rfl | hc
      · exact hax
      · cases hcx : lt c x with
        | false => rfl
        | true =>
          have := ko.trans a c x (hs.1 c hc) hcx
          rw [hax] at this
          exact absurd this (by simp)

/-- A sorted vector splits into the elements not above `x` and the others. -/
theorem split_not_above (ko : KeyOrder lt key) (x : α) :
    ∀ v : List α, v.Pairwise (fun a b => lt a b = true) →
      ∃ l1 l2, v = l1 ++ l2 ∧ (∀ a ∈ l1, lt x a = false) ∧ (∀ b ∈ l2, lt x b = true) := by
  intro v
  induction v with
  | nil => intro _; exact ⟨[], [], rfl, by simp, by simp⟩
  | cons a v ih =>
    intro hs
    rw [List.pairwise_cons] at hs
    cases hxa : lt x a with
    | false =>
      obtain ⟨l1, l2, hv, h1, h2⟩ := ih hs.2
      refine ⟨a :: l1, l2, by rw [hv]; rfl, ?_, h2⟩
      intro c hc
      rcases List.mem_cons.1 hc with rfl | hc
      · exact hxa
      · exact h1 c hc
    | true =>
      refine ⟨[], a :: v, rfl, by simp, ?_⟩
      intro c hc
      rcases List.mem_cons.1 hc with rfl | hc
      · exact hxa
      · exact ko.trans x a c hxa (hs.1 c hc)

/-- On a sorted vector `lower_bound` is the number of elements below `x`. -/
theorem lower_bound_split (ko : KeyOrder lt key) (x : α) (v : List α)
    (hs : v.Pairwise (fun a b => lt a b = true)) :
    ∃ l1 l2, v = l1 ++ l2 ∧ (∀ a ∈ l1, lt a x = true) ∧ (∀ b ∈ l2, lt b x = false) ∧
      lower_bound v x lt = l1.length := by
  obtain ⟨l1, l2, hv, h1, h2⟩ := split_below ko x v hs
  refine ⟨l1, l2, hv, h1, h2, ?_⟩
  subst hv
  exact searchLoop_eq (fun middle => lt middle x) l1 l2 h1 h2

/-- On a sorted vector `upper_bound` is the number of elements not above `x`. -/
theorem upper_bound_split (ko : KeyOrder lt key) (x : α) (v : List α)
    (hs : v.Pairwise (fun a b => lt a b = true)) :
    ∃ l1 l2, v = l1 ++ l2 ∧ (∀ a ∈ l1, lt x a = false) ∧ (∀ b ∈ l2, lt x b = true) ∧
      upper_bound v x lt = l1.length := by
  obtain ⟨l1, l2, hv, h1, h2⟩ := split_not_above ko x v hs
  refine ⟨l1, l2, hv, h1, h2, ?_⟩
  subst hv
  exact searchLoop_eq (fun middle => !lt x middle) l1 l2 (by simpa using h1) (by simpa using h2)

theorem lower_bound_le (x : α) (v : List α) : lower_bound v x lt ≤ v.length :=
  searchLoop_le _ v _ _ _ (by simp)

/-- Searching a key that is in the sorted vector: `lower_bound` points at its
element. -/
theorem lower_bound_found (ko : KeyOrder lt key) (x c : α) (v : List α)
    (hs : v.Pairwise (fun a b => lt a b = true)) (hc : c ∈ v) (hk : key c = key x) :
    ∃ l1 l2, v = l1 ++ c :: l2 ∧ lower_bound v x lt = l1.length := by
  obtain ⟨l1, l2, hv, h1, h2, hlb⟩ := lower_bound_split ko x v hs
  have hc2 : c ∈ l2 := by
    rw [hv] at hc
    rcases List.mem_append.1 hc with hc | hc
    · have := h1 c hc
      rw [ko.of_key_eq hk] at this
      exact absurd this (by simp)
    · exact hc
  cases l2 with
  | nil => simp at hc2
  | cons d l2 =>
    rcases List.mem_cons.1 hc2 with rfl | hc3
    · exact ⟨l1, l2, hv, hlb⟩
    · exfalso
      rw [hv] at hs
      have hdc : lt d c = true := by
        have := (List.pairwise_append.1 hs).2.1
        rw [List.pairwise_cons] at this
        exact this.1 c hc3
      have hdx : lt d x = false := h2 d (List.mem_cons_self _ _)
      rw [ko.congr d c d x rfl hk, hdx] at hdc
      exact absurd hdc (by simp)

/-- Searching a key that is not in the sorted vector: inserting at
`lower_bound` keeps the vector sorted. -/
theorem lower_bound_absent (ko : KeyOrder lt key) (x : α) (v : List α)
    (hs : v.Pairwise (fun a b => lt a b = true)) (hx : ∀ c ∈ v, key c ≠ key x) :
    ∃ l1 l2, v = l1 ++ l2 ∧ lower_bound v x lt = l1.length ∧
      (∀ b ∈ l2, lt x b = true) ∧
      (l1 ++ x :: l2).Pairwise (fun a b => lt a b = true) := by
  obtain ⟨l1, l2, hv, h1, h2, hlb⟩ := lower_bound_split ko x v hs
  have h3 : ∀ b ∈ l2, lt x b = true := by
    intro b hb
    have hbv : b ∈ v := by rw [hv]; exact List.mem_append_right _ hb
    rcases ko.lt_or_lt (hx b hbv) with h | h
    · rw [h2 b hb] at h
      exact absurd h (by simp)
    · exact h
  refine ⟨l1, l2, hv, hlb, h3, ?_⟩
  rw [hv] at hs
  rw [List.pairwise_append] at hs ⊢
  refine ⟨hs.1, ?_, ?_⟩
  · rw [List.pairwise_cons]
    exact ⟨h3, hs.2.1⟩
  · intro a ha b hb
    rcases List.mem_cons.1 hb with rfl | hb
    · exact h1 a ha
    · exact hs.2.2 a ha b hb

/-- On a sorted vector `binary_search` answers whether the key occurs. -/
theorem binary_search_iff (ko : KeyOrder lt key) (x : α) (v : List α)
    (hs : v.Pairwise (fun a b => lt a b = true)) :
    binary_search v x lt = true ↔ ∃ c ∈ v, key c = key x := by
  constructor
  · intro h
    obtain ⟨l1, l2, hv, _, h2, hlb⟩ := lower_bound_split ko x v hs
    simp only [binary_search, hlb] at h
    cases l2 with
    | nil =>
      rw [hv] at h
      simp at h
    | cons d l2 =>
      rw [hv] at h
      simp only [List.getElem?_append_right (Nat.le_refl _), Nat.sub_self,
        List.getElem?_cons_zero, Bool.not_eq_true'] at h
      refine ⟨d, by rw [hv]; simp, ko.connex d x (h2 d (List.mem_cons_self _ _)) h⟩
  · rintro ⟨c, hc, hk⟩
    obtain ⟨l1, l2, hv, hlb⟩ := lower_bound_found ko x c v hs hc hk
    simp only [binary_search, hlb]
    rw [hv]
    simp only [List.getElem?_append_right (Nat.le_refl _), Nat.sub_self,
      List.getElem?_cons_zero, Bool.not_eq_true']
    exact ko.of_key_eq hk.symm

theorem sorted_keys_nodup (ko : KeyOrder lt key) (v : List α)
    (hs : v.Pairwise (fun a b => lt a b = true)) : (v.map key).Nodup := by
  rw [List.Nodup, List.pairwise_map]
  exact hs.imp (fun h => ko.key_ne h)

theorem sorted_nodup (ko : KeyOrder lt key) (v : List α)
    (hs : v.Pairwise (fun a b => lt a b = true)) : v.Nodup :=
  (sorted_keys_nodup ko v hs).of_map key

/-- In a sorted vector an element is determined by its key. -/
theorem key_inj (ko : KeyOrder lt key) (v : List α)
    (hs : v.Pairwise (fun a b => lt a b = true)) {a b : α} (ha : a ∈ v) (hb : b ∈ v)
    (hk : key a = key b) : a = b :=
  List.inj_on_of_nodup_map (sorted_keys_nodup ko v hs) ha hb hk

end Search

theorem lower_bound_congr {α κ : Type} {lt : α → α → Bool} {key : α → κ}
    (ko : KeyOrder lt key) (v : List α) {x y : α} (h : key x = key y) :
    lower_bound v x lt = lower_bound v y lt := by
  have : (fun middle => lt middle x) = (fun middle => lt middle y) := by
    funext m
    exact ko.congr m x m y rfl h
  simp only [lower_bound, this]

theorem getElem?_split (l1 l2 : List Company) (c : Company) :
    (l1 ++ c :: l2)[l1.length]? = some c := by
  rw [List.getElem?_append_right (Nat.le_refl _)]
  simp

theorem vecInsert_split (l1 l2 : List Company) (c : Company) :
    vecInsert (l1 ++ l2) l1.length c = l1 ++ c :: l2 := by
  simp [vecInsert]

theorem erase_split (l1 l2 : List Company) (c : Company) (h : c ∉ l1) :
    (l1 ++ c :: l2).erase c = l1 ++ l2 := by
  rw [List.erase_append_right _ h]
  simp

theorem vecErase_split (l1 l2 : List Company) (c : Company) (h : c ∉ l1) :
    vecErase (l1 ++ c :: l2) l1.length = some ((l1 ++ c :: l2).erase c) := by
  have hlt : l1.length < (l1 ++ c :: l2).length := by simp
  rw [vecErase, if_pos hlt, erase_split l1 l2 c h,
    List.eraseIdx_append_of_length_le (Nat.le_refl _)]
  simp

theorem creditIn_split (l1 l2 : List Company) (c : Company) (amount : Nat)
    (h1 : c ∉ l1) (h2 : c ∉ l2) :
    creditIn (l1 ++ c :: l2) c amount = l1 ++ credited c amount :: l2 := by
  have hid : ∀ l : List Company, c ∉ l →
      l.map (fun d => if d = c then credited d amount else d) = l := by
    intro l hl
    conv_rhs => rw [← List.map_id l]
    apply List.map_congr_left
    intro d hd
    have : d ≠ c := fun h => hl (h ▸ hd)
    simp [this]
  simp [creditIn, hid l1 h1, hid l2 h2]

theorem vecCredit_split (l1 l2 : List Company) (c : Company) (amount : Nat)
    (h1 : c ∉ l1) (h2 : c ∉ l2) :
    vecCredit (l1 ++ c :: l2) l1.length amount = some (creditIn (l1 ++ c :: l2) c amount) := by
  rw [vecCredit, getElem?_split, creditIn_split l1 l2 c amount h1 h2]
  simp [credited]

/-- What the three accesses through a search result give when the searched key
is in the sorted vector. -/
theorem at_found {κ : Type} {lt : Company → Company → Bool} {key : Company → κ}
    (ko : KeyOrder lt key) (v : List Company) (x c : Company)
    (hs : v.Pairwise (fun a b => lt a b = true)) (hc : c ∈ v) (hk : key c = key x) :
    v[lower_bound v x lt]? = some c ∧
    vecErase v (lower_bound v x lt) = some (v.erase c) ∧
    ∀ amount, vecCredit v (lower_bound v x lt) amount = some (creditIn v c amount) := by
  obtain ⟨l1, l2, hv, hlb⟩ := lower_bound_found ko x c v hs hc hk
  have hnd := sorted_nodup ko v hs
  rw [hv] at hnd
  have h1 : c ∉ l1 := by
    intro h
    have := (List.nodup_append.1 hnd).2.2
    exact this h (List.mem_cons_self _ _)
  have h2 : c ∉ l2 := by
    have := (List.nodup_append.1 hnd).2.1
    exact (List.nodup_cons.1 this).1
  rw [hlb, hv]
  exact ⟨getElem?_split l1 l2 c, vecErase_split l1 l2 c h1,
    fun amount => vecCredit_split l1 l2 c amount h1 h2⟩

theorem isIncludedId_iff {r : CVATRegister} (hr : Inv r) (k : Str) :
    r.isIncludedId k = true ↔ ∃ c ∈ r.sortedById, c.id = k :=
  binary_search_iff idLess_keyOrder _ _ hr.byId

theorem isIncludedName_iff {r : CVATRegister} (hr : Inv r) (n a : Str) :
    r.isIncludedName n a = true ↔
      ∃ c ∈ r.sortedById, nameKey c = (toLowerCase n, toLowerCase a) := by
  rw [isIncludedName, binary_search_iff compareFunction_keyOrder _ _ hr.byName]
  constructor
  · rintro ⟨c, hc, hk⟩
    exact ⟨c, hr.perm.mem_iff.2 hc, hk⟩
  · rintro ⟨c, hc, hk⟩
    exact ⟨c, hr.perm.mem_iff.1 hc, hk⟩

theorem sameNameAddr_iff (c : Company) (name addr : Str) :
    sameNameAddr c name addr ↔ nameKey c = (toLowerCase name, toLowerCase addr) := by
  simp [sameNameAddr, nameKey, Prod.ext_iff]

theorem cancelCompanyById_found {r : CVATRegister} (hr : Inv r) {c : Company}
    (hc : c ∈ r.sortedById) :
    r.cancelCompanyById c.id = some (true,
      { sortedById := r.sortedById.erase c, sortedByName := r.sortedByName.erase c,
        invoices := r.invoices }) := by
  have hin : r.isIncludedId c.id = true := (isIncludedId_iff hr _).2 ⟨c, hc, rfl⟩
  obtain ⟨h1, h2, _⟩ := at_found idLess_keyOrder r.sortedById
    { name := [], address := [], id := c.id, income := 0 } c hr.byId hc rfl
  obtain ⟨_, h4, _⟩ := at_found compareFunction_keyOrder r.sortedByName c c hr.byName
    (hr.perm.mem_iff.1 hc) rfl
  simp [cancelCompanyById, hin, h1, h2, h4]

theorem cancelCompanyByName_found {r : CVATRegister} (hr : Inv r) {c : Company}
    (hc : c ∈ r.sortedById) {name addr : Str} (hn : sameNameAddr c name addr) :
    r.cancelCompanyByName name addr = some (true,
      { sortedById := r.sortedById.erase c, sortedByName := r.sortedByName.erase c,
        invoices := r.invoices }) := by
  have hk := (sameNameAddr_iff c name addr).1 hn
  have hin : r.isIncludedName name addr = true := (isIncludedName_iff hr _ _).2 ⟨c, hc, hk⟩
  obtain ⟨h1, h2, _⟩ := at_found compareFunction_keyOrder r.sortedByName
    { name := name, address := addr, id := [], income := 0 } c hr.byName
    (hr.perm.mem_iff.1 hc) hk
  obtain ⟨_, h4, _⟩ := at_found idLess_keyOrder r.sortedById c c hr.byId hc rfl
  simp [cancelCompanyByName, hin, h1, h2, h4]

theorem invoiceById_found {r : CVATRegister} (hr : Inv r) {c : Company}
    (hc : c ∈ r.sortedById) (amount : Nat) :
    r.invoiceById c.id amount = some (true,
      { sortedById := creditIn r.sortedById c amount,
        sortedByName := creditIn r.sortedByName c amount,
        invoices := r.invoices ++ [amount] }) := by
  have hin : r.isIncludedId c.id = true := (isIncludedId_iff hr _).2 ⟨c, hc, rfl⟩
  obtain ⟨h1, _, h3⟩ := at_found idLess_keyOrder r.sortedById
    { name := [], address := [], id := c.id, income := 0 } c hr.byId hc rfl
  obtain ⟨_, _, h5⟩ := at_found compareFunction_keyOrder r.sortedByName c c hr.byName
    (hr.perm.mem_iff.1 hc) rfl
  simp [invoiceById, hin, h1, h3, h5]

theorem invoiceByName_found {r : CVATRegister} (hr : Inv r) {c : Company}
    (hc : c ∈ r.sortedById) {name addr : Str} (hn : sameNameAddr c name addr) (amount : Nat) :
    r.invoiceByName name addr amount = some (true,
      { sortedById := creditIn r.sortedById c amount,
        sortedByName := creditIn r.sortedByName c amount,
        invoices := r.invoices ++ [amount] }) := by
  have hk := (sameNameAddr_iff c name addr).1 hn
  have hin : r.isIncludedName name addr = true := (isIncludedName_iff hr _ _).2 ⟨c, hc, hk⟩
  obtain ⟨h1, _, h3⟩ := at_found compareFunction_keyOrder r.sortedByName
    { name := name, address := addr, id := [], income := 0 } c hr.byName
    (hr.perm.mem_iff.1 hc) hk
  obtain ⟨_, _, h5⟩ := at_found idLess_keyOrder r.sortedById c c hr.byId hc rfl
  simp [invoiceByName, hin, h1, h3, h5]

theorem auditById_found {r : CVATRegister} (hr : Inv r) {c : Company}
    (hc : c ∈ r.sortedById) (sumIncome : Nat) :
    r.auditById c.id sumIncome = some (true, c.income) := by
  have hin : r.isIncludedId c.id = true := (isIncludedId_iff hr _).2 ⟨c, hc, rfl⟩
  obtain ⟨h1, _, _⟩ := at_found idLess_keyOrder r.sortedById
    { name := [], address := [], id := c.id, income := 0 } c hr.byId hc rfl
  simp [auditById, hin, h1]

theorem auditByName_found {r : CVATRegister} (hr : Inv r) {c : Company}
    (hc : c ∈ r.sortedById) {name addr : Str} (hn : sameNameAddr c name addr)
    (sumIncome : Nat) :
    r.auditByName name addr sumIncome = some (true, c.income) := by
  have hk := (sameNameAddr_iff c name addr).1 hn
  have hin : r.isIncludedName name addr = true := (isIncludedName_iff hr _ _).2 ⟨c, hc, hk⟩
  obtain ⟨h1, _, _⟩ := at_found compareFunction_keyOrder r.sortedByName
    { name := name, address := addr, id := [], income := 0 } c hr.byName
    (hr.perm.mem_iff.1 hc) hk
  simp [auditByName, hin, h1]

/-! Calls that address no record. -/

theorem isIncludedId_false {r : CVATRegister} (hr : Inv r) {k : Str}
    (h : ¬ ∃ c ∈ r.sortedById, c.id = k) : r.isIncludedId k = false := by
  cases hin : r.isIncludedId k with
  | false => rfl
  | true => exact absurd ((isIncludedId_iff hr k).1 hin) h

theorem isIncludedName_false {r : CVATRegister} (hr : Inv r) {n a : Str}
    (h : ¬ ∃ c ∈ r.sortedById, sameNameAddr c n a) : r.isIncludedName n a = false := by
  cases hin : r.isIncludedName n a with
  | false => rfl
  | true =>
    obtain ⟨c, hc, hk⟩ := (isIncludedName_iff hr n a).1 hin
    exact absurd ⟨c, hc, (sameNameAddr_iff c n a).2 hk⟩ h

/-! Preservation of the invariant. -/

theorem inv_erase {r : CVATRegister} (hr : Inv r) (c : Company) (inv : List Nat) :
    Inv { sortedById := r.sortedById.erase c, sortedByName := r.sortedByName.erase c,
          invoices := inv } where
  byId := hr.byId.sublist (List.erase_sublist _ _)
  byName := hr.byName.sublist (List.erase_sublist _ _)
  perm := hr.perm.erase c

theorem creditIn_sorted {κ : Type} {lt : Company → Company → Bool} {key : Company → κ}
    (ko : KeyOrder lt key) (hkey : ∀ d amount, key (credited d amount) = key d)
    (v : List Company) (c : Company) (amount : Nat)
    (hs : v.Pairwise (fun a b => lt a b = true)) :
    (creditIn v c amount).Pairwise (fun a b => lt a b = true) := by
  rw [creditIn, List.pairwise_map]
  refine hs.imp ?_
  intro a b hab
  have ha : key (if a = c then credited a amount else a) = key a := by
    split_ifs
    · exact hkey _ _
    · rfl
  have hb : key (if b = c then credited b amount else b) = key b := by
    split_ifs
    · exact hkey _ _
    · rfl
  rw [ko.congr _ _ a b ha hb]
  exact hab

theorem inv_credit {r : CVATRegister} (hr : Inv r) (c : Company) (amount : Nat)
    (inv : List Nat) :
    Inv { sortedById := creditIn r.sortedById c amount,
          sortedByName := creditIn r.sortedByName c amount, invoices := inv } where
  byId := creditIn_sorted idLess_keyOrder (fun _ _ => rfl) _ c amount hr.byId
  byName := creditIn_sorted compareFunction_keyOrder (fun _ _ => rfl) _ c amount hr.byName
  perm := hr.perm.map _

theorem newCompany_dup {r : CVATRegister} (hr : Inv r) {n a k : Str}
    (h : (∃ c ∈ r.sortedById, c.id = k) ∨ (∃ c ∈ r.sortedById, sameNameAddr c n a)) :
    r.newCompany n a k = (false, r) := by
  have : (r.isIncludedId k || r.isIncludedName n a) = true := by
    rcases h with h | ⟨c, hc, hn⟩
    · rw [(isIncludedId_iff hr k).2 h]
      rfl
    · rw [(isIncludedName_iff hr n a).2 ⟨c, hc, (sameNameAddr_iff c n a).1 hn⟩]
      simp
  simp [newCompany, this]

theorem newCompany_fresh {r : CVATRegister} (hr : Inv r) {n a k : Str}
    (h1 : ¬ ∃ c ∈ r.sortedById, c.id = k) (h2 : ¬ ∃ c ∈ r.sortedById, sameNameAddr c n a) :
    ∃ i1 i2 n1 n2, r.sortedById = i1 ++ i2 ∧ r.sortedByName = n1 ++ n2 ∧
      r.newCompany n a k = (true,
        { sortedById := i1 ++ { name := n, address := a, id := k, income := 0 } :: i2,
          sortedByName := n1 ++ { name := n, address := a, id := k, income := 0 } :: n2,
          invoices := r.invoices }) ∧
      Inv { sortedById := i1 ++ { name := n, address := a, id := k, income := 0 } :: i2,
            sortedByName := n1 ++ { name := n, address := a, id := k, income := 0 } :: n2,
            invoices := r.invoices } := by
  have hx1 : ∀ c ∈ r.sortedById,
      c.id ≠ (({ name := n, address := a, id := k, income := 0 } : Company)).id :=
    fun c hc hk => h1 ⟨c, hc, hk⟩
  have hx2 : ∀ c ∈ r.sortedByName,
      nameKey c ≠ nameKey { name := n, address := a, id := k, income := 0 } :=
    fun c hc hk => h2 ⟨c, hr.perm.mem_iff.2 hc, (sameNameAddr_iff c n a).2 hk⟩
  obtain ⟨i1, i2, hi, hlbi, _, hsi⟩ := lower_bound_absent idLess_keyOrder _ _ hr.byId hx1
  obtain ⟨n1, n2, hn, hlbn, _, hsn⟩ :=
    lower_bound_absent compareFunction_keyOrder _ _ hr.byName hx2
  refine ⟨i1, i2, n1, n2, hi, hn, ?_, ⟨hsi, hsn, ?_⟩⟩
  · have hin : (r.isIncludedId k || r.isIncludedName n a) = false := by
      rw [isIncludedId_false hr h1, isIncludedName_false hr h2]
      rfl
    simp only [newCompany, hin, hlbi, hlbn]
    rw [hi, hn, vecInsert_split, vecInsert_split]
    simp
  · have := hr.perm
    rw [hi, hn] at this
    exact (List.perm_middle.trans (this.cons _)).trans List.perm_middle.symm

/-- Every call on a registry with the invariant returns, and the invariant
holds afterwards. -/
theorem call_inv {r : CVATRegister} (hr : Inv r) (c : Call) :
    ∃ flag r1, call r c = some (flag, r1) ∧ Inv r1 := by
  cases c with
  | newCompany n a k =>
    by_cases h1 : ∃ c ∈ r.sortedById, c.id = k
    · exact ⟨false, r, by simp [call, newCompany_dup hr (Or.inl h1)], hr⟩
    · by_cases h2 : ∃ c ∈ r.sortedById, sameNameAddr c n a
      · exact ⟨false, r, by simp [call, newCompany_dup hr (Or.inr h2)], hr⟩
      · obtain ⟨i1, i2, n1, n2, _, _, he, hinv⟩ := newCompany_fresh hr h1 h2
        exact ⟨true, _, by simp only [call, he], hinv⟩
  | cancelCompanyByName n a =>
    by_cases h : ∃ c ∈ r.sortedById, sameNameAddr c n a
    · obtain ⟨c, hc, hn⟩ := h
      exact ⟨true, _, cancelCompanyByName_found hr hc hn, inv_erase hr c _⟩
    · exact ⟨false, r, by simp [call, cancelCompanyByName, isIncludedName_false hr h], hr⟩
  | cancelCompanyById k =>
    by_cases h : ∃ c ∈ r.sortedById, c.id = k
    · obtain ⟨c, hc, rfl⟩ := h
      exact ⟨true, _, cancelCompanyById_found hr hc, inv_erase hr c _⟩
    · exact ⟨false, r, by simp [call, cancelCompanyById, isIncludedId_false hr h], hr⟩
  | invoiceById k amount =>
    by_cases h : ∃ c ∈ r.sortedById, c.id = k
    · obtain ⟨c, hc, rfl⟩ := h
      exact ⟨true, _, invoiceById_found hr hc amount, inv_credit hr c amount _⟩
    · exact ⟨false, r, by simp [call, invoiceById, isIncludedId_false hr h], hr⟩
  | invoiceByName n a amount =>
    by_cases h : ∃ c ∈ r.sortedById, sameNameAddr c n a
    · obtain ⟨c, hc, hn⟩ := h
      exact ⟨true, _, invoiceByName_found hr hc hn amount, inv_credit hr c amount _⟩
    · exact ⟨false, r, by simp [call, invoiceByName, isIncludedName_false hr h], hr⟩

theorem inv_empty : Inv CVATRegister.empty :=
  ⟨List.Pairwise.nil, List.Pairwise.nil, List.Perm.refl _⟩

theorem reachable_inv {r : CVATRegister} (h : Reachable r) : Inv r := by
  induction h with
  | empty => exact inv_empty
  | step c _ _ hcall ih =>
    obtain ⟨flag, r1, he, hinv⟩ := call_inv ih c
    rw [he] at hcall
    cases hcall
    exact hinv

theorem run_reachable {r : CVATRegister} (hr : Reachable r) :
    ∀ (cs : List Call) (flags : List Bool) (r2 : CVATRegister),
      (∀ c ∈ cs, c.valid = true) → run r cs = some (flags, r2) → Reachable r2 := by
  intro cs
  induction cs generalizing r with
  | nil =>
    intro flags r2 _ h
    simp only [run, Option.some.injEq, Prod.mk.injEq] at h
    rw [← h.2]
    exact hr
  | cons c cs ih =>
    intro flags r2 hv h
    obtain ⟨flag, r1, he, _⟩ := call_inv (reachable_inv hr) c
    have hstep : Reachable r1 := Reachable.step c hr (hv c (List.mem_cons_self _ _)) he
    simp only [run, he, Option.bind_eq_bind, Option.some_bind] at h
    cases hrun : run r1 cs with
    | none => simp [hrun] at h
    | some p =>
      obtain ⟨flags1, r3⟩ := p
      simp only [hrun, Option.some_bind, Option.some.injEq, Prod.mk.injEq] at h
      rw [← h.2]
      exact ih hstep flags1 r3 (fun c hc => hv c (List.mem_cons_of_mem _ hc)) hrun

theorem b1_run : run empty b1Calls = some ([true, true, true, true, true, true, true], b1Register) := by
  decide

theorem b1_reachable : Reachable b1Register :=
  run_reachable Reachable.empty b1Calls _ _ (by decide) b1_run

theorem full_run : run empty fullCalls = some ([true, true], fullRegister) := by
  decide

theorem full_reachable : Reachable fullRegister :=
  run_reachable Reachable.empty fullCalls _ _ (by decide) full_run

/-! Lookups that fail. -/

theorem cancelCompanyById_absent {r : CVATRegister} (hr : Inv r) {k : Str}
    (h : ¬ ∃ c ∈ r.sortedById, c.id = k) : r.cancelCompanyById k = some (false, r) := by
  simp [cancelCompanyById, isIncludedId_false hr h]

theorem cancelCompanyByName_absent {r : CVATRegister} (hr : Inv r) {n a : Str}
    (h : ¬ ∃ c ∈ r.sortedById, sameNameAddr c n a) :
    r.cancelCompanyByName n a = some (false, r) := by
  simp [cancelCompanyByName, isIncludedName_false hr h]

theorem invoiceById_absent {r : CVATRegister} (hr : Inv r) {k : Str} (amount : Nat)
    (h : ¬ ∃ c ∈ r.sortedById, c.id = k) : r.invoiceById k amount = some (false, r) := by
  simp [invoiceById, isIncludedId_false hr h]

theorem invoiceByName_absent {r : CVATRegister} (hr : Inv r) {n a : Str} (amount : Nat)
    (h : ¬ ∃ c ∈ r.sortedById, sameNameAddr c n a) :
    r.invoiceByName n a amount = some (false, r) := by
  simp [invoiceByName, isIncludedName_false hr h]

theorem auditById_absent {r : CVATRegister} (hr : Inv r) {k : Str} (sumIncome : Nat)
    (h : ¬ ∃ c ∈ r.sortedById, c.id = k) : r.auditById k sumIncome = some (false, sumIncome) := by
  simp [auditById, isIncludedId_false hr h]

theorem auditByName_absent {r : CVATRegister} (hr : Inv r) {n a : Str} (sumIncome : Nat)
    (h : ¬ ∃ c ∈ r.sortedById, sameNameAddr c n a) :
    r.auditByName n a sumIncome = some (false, sumIncome) := by
  simp [auditByName, isIncludedName_false hr h]

/-- Once the record `c` is erased nothing with its id is left. -/
theorem erase_no_id {r : CVATRegister} (hr : Inv r) {c : Company} (hc : c ∈ r.sortedById) :
    ¬ ∃ d ∈ r.sortedById.erase c, d.id = c.id := by
  rintro ⟨d, hd, hk⟩
  have hmem := ((sorted_nodup idLess_keyOrder _ hr.byId).mem_erase_iff).1 hd
  exact hmem.1 (key_inj idLess_keyOrder _ hr.byId hmem.2 hc hk)

/-- Once the record `c` is erased nothing with its name and address is left. -/
theorem erase_no_name {r : CVATRegister} (hr : Inv r) {c : Company} (hc : c ∈ r.sortedById)
    {n a : Str} (hn : sameNameAddr c n a) :
    ¬ ∃ d ∈ r.sortedById.erase c, sameNameAddr d n a := by
  rintro ⟨d, hd, hk⟩
  have hmem := ((sorted_nodup idLess_keyOrder _ hr.byId).mem_erase_iff).1 hd
  have hkey : nameKey d = nameKey c := by
    rw [(sameNameAddr_iff d n a).1 hk, (sameNameAddr_iff c n a).1 hn]
  exact hmem.1 (key_inj compareFunction_keyOrder _ hr.byName
    (hr.perm.mem_iff.1 hmem.2) (hr.perm.mem_iff.1 hc) hkey)

/-! Traces: what a call does to a record it does not cancel. -/

theorem mem_creditIn_self {v : List Company} {c : Company} (hc : c ∈ v) (amount : Nat) :
    credited c amount ∈ creditIn v c amount :=
  List.mem_map.2 ⟨c, hc, by simp⟩

theorem mem_creditIn_other {v : List Company} {c d : Company} (hc : c ∈ v) (hne : c ≠ d)
    (amount : Nat) : c ∈ creditIn v d amount :=
  List.mem_map.2 ⟨c, hc, by simp [hne]⟩

theorem income_mod {c : Company} (hb : c.income < UINT_RANGE) :
    c.income = (c.income + ([] : List Nat).sum) % UINT_RANGE := by
  simp [Nat.mod_eq_of_lt hb]

theorem call_credit {r : CVATRegister} (hr : Inv r) {c : Company} (hc : c ∈ r.sortedById)
    (hb : c.income < UINT_RANGE) (cl : Call) {flag : Bool} {r1 : CVATRegister}
    (hcall : call r cl = some (flag, r1))
    (hcancel : cl.isCancel = true → cl.addresses c.name c.address c.id = false) :
    ∃ c1 ∈ r1.sortedById, c1.name = c.name ∧ c1.address = c.address ∧ c1.id = c.id ∧
      c1.income = (c.income + (creditsOf c.name c.address c.id [cl] [flag]).sum) % UINT_RANGE := by
  cases cl with
  | newCompany n a k =>
    have hmem : c ∈ r1.sortedById := by
      simp only [call, Option.some.injEq] at hcall
      by_cases h1 : ∃ c ∈ r.sortedById, c.id = k
      · rw [newCompany_dup hr (Or.inl h1)] at hcall
        rw [← (Prod.mk.inj hcall).2]
        exact hc
      · by_cases h2 : ∃ c ∈ r.sortedById, sameNameAddr c n a
        · rw [newCompany_dup hr (Or.inr h2)] at hcall
          rw [← (Prod.mk.inj hcall).2]
          exact hc
        · obtain ⟨i1, i2, n1, n2, hi, _, he, _⟩ := newCompany_fresh hr h1 h2
          rw [he] at hcall
          rw [← (Prod.mk.inj hcall).2]
          rw [hi] at hc
          rcases List.mem_append.1 hc with hc | hc
          · exact List.mem_append_left _ hc
          · exact List.mem_append_right _ (List.mem_cons_of_mem _ hc)
    exact ⟨c, hmem, rfl, rfl, rfl, by simpa [creditsOf, Call.amount?] using income_mod hb⟩
  | cancelCompanyByName n a =>
    have hna : ¬ sameNameAddr c n a := by
      have := hcancel rfl
      simpa [Call.addresses, sameNameAddr] using this
    have hmem : c ∈ r1.sortedById := by
      simp only [call] at hcall
      by_cases hx : ∃ d ∈ r.sortedById, sameNameAddr d n a
      · obtain ⟨d, hd, hdn⟩ := hx
        rw [cancelCompanyByName_found hr hd hdn] at hcall
        simp only [Option.some.injEq, Prod.mk.injEq] at hcall
        rw [← hcall.2]
        exact (List.mem_erase_of_ne (fun (h : c = d) => hna (h ▸ hdn))).2 hc
      · rw [cancelCompanyByName_absent hr hx] at hcall
        simp only [Option.some.injEq, Prod.mk.injEq] at hcall
        rw [← hcall.2]
        exact hc
    exact ⟨c, hmem, rfl, rfl, rfl, by simpa [creditsOf, Call.amount?] using income_mod hb⟩
  | cancelCompanyById k =>
    have hk : c.id ≠ k := by
      have := hcancel rfl
      simpa [Call.addresses] using this
    have hmem : c ∈ r1.sortedById := by
      simp only [call] at hcall
      by_cases hx : ∃ d ∈ r.sortedById, d.id = k
      · obtain ⟨d, hd, hdk⟩ := hx
        subst hdk
        rw [cancelCompanyById_found hr hd] at hcall
        simp only [Option.some.injEq, Prod.mk.injEq] at hcall
        rw [← hcall.2]
        exact (List.mem_erase_of_ne (fun (h : c = d) => hk (h ▸ rfl))).2 hc
      · rw [cancelCompanyById_absent hr hx] at hcall
        simp only [Option.some.injEq, Prod.mk.injEq] at hcall
        rw [← hcall.2]
        exact hc
    exact ⟨c, hmem, rfl, rfl, rfl, by simpa [creditsOf, Call.amount?] using income_mod hb⟩
  | invoiceById k amount =>
    simp only [call] at hcall
    by_cases hk : c.id = k
    · subst hk
      rw [invoiceById_found hr hc amount] at hcall
      simp only [Option.some.injEq, Prod.mk.injEq] at hcall
      rw [← hcall.2, ← hcall.1]
      exact ⟨credited c amount, mem_creditIn_self hc amount, rfl, rfl, rfl,
        by simp [creditsOf, Call.amount?, Call.addresses, credited]⟩
    · have hmem : c ∈ r1.sortedById := by
        by_cases hx : ∃ d ∈ r.sortedById, d.id = k
        · obtain ⟨d, hd, hdk⟩ := hx
          subst hdk
          rw [invoiceById_found hr hd amount] at hcall
          simp only [Option.some.injEq, Prod.mk.injEq] at hcall
          rw [← hcall.2]
          exact mem_creditIn_other hc (fun h => hk (h ▸ rfl)) amount
        · rw [invoiceById_absent hr amount hx] at hcall
          simp only [Option.some.injEq, Prod.mk.injEq] at hcall
          rw [← hcall.2]
          exact hc
      exact ⟨c, hmem, rfl, rfl, rfl,
        by simpa [creditsOf, Call.amount?, Call.addresses, hk] using income_mod hb⟩
  | invoiceByName n a amount =>
    simp only [call] at hcall
    by_cases hn : sameNameAddr c n a
    · rw [invoiceByName_found hr hc hn amount] at hcall
      simp only [Option.some.injEq, Prod.mk.injEq] at hcall
      rw [← hcall.2, ← hcall.1]
      refine ⟨credited c amount, mem_creditIn_self hc amount, rfl, rfl, rfl, ?_⟩
      have : (decide (toLowerCase c.name = toLowerCase n ∧
          toLowerCase c.address = toLowerCase a)) = true := by
        simpa [sameNameAddr] using hn
      simp [creditsOf, Call.amount?, Call.addresses, credited, this]
    · have hmem : c ∈ r1.sortedById := by
        by_cases hx : ∃ d ∈ r.sortedById, sameNameAddr d n a
        · obtain ⟨d, hd, hdn⟩ := hx
          rw [invoiceByName_found hr hd hdn amount] at hcall
          simp only [Option.some.injEq, Prod.mk.injEq] at hcall
          rw [← hcall.2]
          exact mem_creditIn_other hc (fun h => hn (h ▸ hdn)) amount
        · rw [invoiceByName_absent hr amount hx] at hcall
          simp only [Option.some.injEq, Prod.mk.injEq] at hcall
          rw [← hcall.2]
          exact hc
      have : (decide (toLowerCase c.name = toLowerCase n ∧
          toLowerCase c.address = toLowerCase a)) = false := by
        simpa [sameNameAddr] using hn
      exact ⟨c, hmem, rfl, rfl, rfl,
        by simpa [creditsOf, Call.amount?, Call.addresses, this] using income_mod hb⟩

theorem creditsOf_cons (n a k : Str) (cl : Call) (cls : List Call) (flag : Bool)
    (flags : List Bool) :
    creditsOf n a k (cl :: cls) (flag :: flags) =
      creditsOf n a k [cl] [flag] ++ creditsOf n a k cls flags := by
  simp only [creditsOf]
  cases cl.amount? with
  | none => rfl
  | some amount =>
    simp only
    split_ifs <;> rfl

theorem run_cons {r : CVATRegister} {cl : Call} {cls : List Call} {flags : List Bool}
    {r2 : CVATRegister} (h : run r (cl :: cls) = some (flags, r2)) :
    ∃ flag r1 flags1, call r cl = some (flag, r1) ∧ run r1 cls = some (flags1, r2) ∧
      flags = flag :: flags1 := by
  simp only [run, Option.bind_eq_bind] at h
  cases hcall : call r cl with
  | none => simp [hcall] at h
  | some p =>
    obtain ⟨flag, r1⟩ := p
    simp only [hcall, Option.some_bind] at h
    cases hrun : run r1 cls with
    | none => simp [hrun] at h
    | some q =>
      obtain ⟨flags1, r3⟩ := q
      simp only [hrun, Option.some_bind, Option.some.injEq, Prod.mk.injEq] at h
      exact ⟨flag, r1, flags1, rfl, h.2 ▸ hrun, h.1.symm⟩

/-- A record that is never cancelled along a trace ends with its income
increased, modulo `2 ^ 32`, by the amounts credited to it. -/
theorem run_credit (cls : List Call) :
    ∀ {r : CVATRegister}, Inv r → ∀ {c : Company}, c ∈ r.sortedById →
      c.income < UINT_RANGE →
      (∀ cl ∈ cls, cl.isCancel = true → cl.addresses c.name c.address c.id = false) →
      ∀ {flags : List Bool} {r2 : CVATRegister}, run r cls = some (flags, r2) →
      ∃ c2 ∈ r2.sortedById, c2.name = c.name ∧ c2.address = c.address ∧ c2.id = c.id ∧
        c2.income = (c.income + (creditsOf c.name c.address c.id cls flags).sum) % UINT_RANGE ∧
        Inv r2 := by
  induction cls with
  | nil =>
    intro r hr c hc hb _ flags r2 hrun
    simp only [run, Option.some.injEq, Prod.mk.injEq] at hrun
    rw [← hrun.1, ← hrun.2]
    exact ⟨c, hc, rfl, rfl, rfl, by simpa [creditsOf] using income_mod hb, hr⟩
  | cons cl cls ih =>
    intro r hr c hc hb hlive flags r2 hrun
    obtain ⟨flag, r1, flags1, hcall, hrest, hflags⟩ := run_cons hrun
    obtain ⟨_, _, he, hr1⟩ := call_inv hr cl
    rw [hcall] at he
    cases he
    obtain ⟨c1, hc1, hn1, ha1, hk1, hi1⟩ :=
      call_credit hr hc hb cl hcall (hlive cl (List.mem_cons_self _ _))
    have hb1 : c1.income < UINT_RANGE := by
      rw [hi1]
      exact Nat.mod_lt _ (by decide)
    have hlive1 : ∀ cl ∈ cls, cl.isCancel = true →
        cl.addresses c1.name c1.address c1.id = false := by
      rw [hn1, ha1, hk1]
      exact fun cl hcl => hlive cl (List.mem_cons_of_mem _ hcl)
    obtain ⟨c2, hc2, hn2, ha2, hk2, hi2, hr2⟩ := ih hr1 hc1 hb1 hlive1 hrest
    refine ⟨c2, hc2, hn2.trans hn1, ha2.trans ha1, hk2.trans hk1, ?_, hr2⟩
    rw [hn1, ha1, hk1] at hi2
    rw [hflags, creditsOf_cons, List.sum_append, hi2, hi1]
    simp only [UINT_RANGE]
    omega

/-- A successful `newCompany` puts the new record, with income 0, into the
registry and keeps the invariant. -/
theorem newCompany_true {r : CVATRegister} (hr : Inv r) {n a k : Str} {r1 : CVATRegister}
    (h : r.newCompany n a k = (true, r1)) :
    Inv r1 ∧ ({ name := n, address := a, id := k, income := 0 } : Company) ∈ r1.sortedById ∧
      (¬ ∃ c ∈ r.sortedById, c.id = k) ∧ (¬ ∃ c ∈ r.sortedById, sameNameAddr c n a) ∧
      ∀ c, c ∈ r1.sortedById ↔
        c = { name := n, address := a, id := k, income := 0 } ∨ c ∈ r.sortedById := by
  have h1 : ¬ ∃ c ∈ r.sortedById, c.id = k := by
    intro hx
    rw [newCompany_dup hr (Or.inl hx)] at h
    exact absurd (Prod.mk.inj h).1 (by simp)
  have h2 : ¬ ∃ c ∈ r.sortedById, sameNameAddr c n a := by
    intro hx
    rw [newCompany_dup hr (Or.inr hx)] at h
    exact absurd (Prod.mk.inj h).1 (by simp)
  obtain ⟨i1, i2, n1, n2, hi, _, he, hinv⟩ := newCompany_fresh hr h1 h2
  rw [he] at h
  rw [← (Prod.mk.inj h).2]
  refine ⟨hinv, by simp, h1, h2, ?_⟩
  intro c
  rw [hi]
  simp only [List.mem_append, List.mem_cons]
  tauto

/-- Inserting companies with new, pairwise different ids and lowered
(name, address) pairs: every call returns true, and the inserted records are
in the registry with income 0. -/
theorem run_inserts (cs : List (Str × Str × Str)) :
    ∀ {r : CVATRegister}, Inv r →
      (∀ t ∈ cs, ∀ c ∈ r.sortedById, c.id ≠ t.2.2 ∧ ¬ sameNameAddr c t.1 t.2.1) →
      (cs.map (fun t => t.2.2)).Nodup →
      (cs.map (fun t => (toLowerCase t.1, toLowerCase t.2.1))).Nodup →
      ∃ r2, run r (cs.map (fun t => Call.newCompany t.1 t.2.1 t.2.2)) =
          some (List.replicate cs.length true, r2) ∧ Inv r2 ∧
        (∀ c ∈ r.sortedById, c ∈ r2.sortedById) ∧
        ∀ t ∈ cs, ({ name := t.1, address := t.2.1, id := t.2.2, income := 0 } : Company) ∈
          r2.sortedById := by
  induction cs with
  | nil =>
    intro r hr _ _ _
    exact ⟨r, rfl, hr, fun _ hc => hc, by simp⟩
  | cons t cs ih =>
    intro r hr hnew hid hname
    have h1 : ¬ ∃ c ∈ r.sortedById, c.id = t.2.2 :=
      fun ⟨c, hc, hk⟩ => (hnew t (List.mem_cons_self _ _) c hc).1 hk
    have h2 : ¬ ∃ c ∈ r.sortedById, sameNameAddr c t.1 t.2.1 :=
      fun ⟨c, hc, hk⟩ => (hnew t (List.mem_cons_self _ _) c hc).2 hk
    obtain ⟨r1, he⟩ : ∃ r1, r.newCompany t.1 t.2.1 t.2.2 = (true, r1) := by
      obtain ⟨i1, i2, n1, n2, _, _, he, _⟩ := newCompany_fresh hr h1 h2
      exact ⟨_, he⟩
    obtain ⟨hr1, hx, _, _, hmem⟩ := newCompany_true hr he
    rw [List.map_cons, List.nodup_cons] at hid hname
    have hnew1 : ∀ u ∈ cs, ∀ c ∈ r1.sortedById,
        c.id ≠ u.2.2 ∧ ¬ sameNameAddr c u.1 u.2.1 := by
      intro u hu c hc
      rcases (hmem c).1 hc with rfl | hc
      · constructor
        · intro hk
          exact hid.1 (List.mem_map.2 ⟨u, hu, hk.symm⟩)
        · intro hk
          exact hname.1 (List.mem_map.2 ⟨u, hu, (Prod.ext hk.1 hk.2).symm⟩)
      · exact hnew u (List.mem_cons_of_mem _ hu) c hc
    obtain ⟨r2, hrun, hr2, hkeep, hall⟩ := ih hr1 hnew1 hid.2 hname.2
    refine ⟨r2, ?_, hr2, ?_, ?_⟩
    · simp only [List.map_cons, run, call, he, Option.bind_eq_bind, Option.some_bind, hrun,
        List.length_cons, List.replicate_succ]
    · intro c hc
      exact hkeep c ((hmem c).2 (Or.inr hc))
    · intro u hu
      rcases List.mem_cons.1 hu with rfl | hu
      · exact hkeep _ hx
      · exact hall u hu

/-! ## The two orderings -/

/-- C1: in every registry reachable from the empty one by calls of
`newCompany`, `cancelCompany` and `invoice` (either overload, successful or
not), `sortedById` and `sortedByName` hold the same company records: each is a
permutation of the other. -/
theorem sortedById_perm_sortedByName (r : CVATRegister) (h : Reachable r) :
    r.sortedById.Perm r.sortedByName :=
  (reachable_inv h).perm

theorem sortedById_perm_sortedByName_witness :
    Reachable b1Register ∧ b1Register.sortedById.Perm b1Register.sortedByName :=
  ⟨b1_reachable, sortedById_perm_sortedByName b1Register b1_reachable⟩

/-- C2: in every reachable registry `sortedById` is strictly ascending by the
exact comparison of the ids and `sortedByName` is strictly ascending by the
lowered name, then the lowered address; hence in either vector no two records
share an id and no two share a lowered (name, address) pair. -/
theorem reachable_strictly_ascending (r : CVATRegister) (h : Reachable r) :
    r.sortedById.Pairwise (fun a b => strLt a.id b.id = true) ∧
    r.sortedByName.Pairwise (fun a b =>
      strLt (toLowerCase a.name) (toLowerCase b.name) = true ∨
      (toLowerCase a.name = toLowerCase b.name ∧
        strLt (toLowerCase a.address) (toLowerCase b.address) = true)) ∧
    (r.sortedById.map (fun c => c.id)).Nodup ∧
    (r.sortedByName.map (fun c => c.id)).Nodup ∧
    (r.sortedById.map (fun c => (toLowerCase c.name, toLowerCase c.address))).Nodup ∧
    (r.sortedByName.map (fun c => (toLowerCase c.name, toLowerCase c.address))).Nodup := by
  have hr := reachable_inv h
  have hid := sorted_keys_nodup idLess_keyOrder _ hr.byId
  have hname := sorted_keys_nodup compareFunction_keyOrder _ hr.byName
  refine ⟨hr.byId, ?_, hid, ?_, ?_, hname⟩
  · refine hr.byName.imp ?_
    intro a b hab
    rw [compareFunction_eq] at hab
    by_cases hn : (nameKey a).1 = (nameKey b).1
    · rw [if_pos hn] at hab
      exact Or.inr ⟨hn, hab⟩
    · rw [if_neg hn] at hab
      exact Or.inl hab
  · exact ((hr.perm.map _).nodup_iff).1 hid
  · exact ((hr.perm.map _).nodup_iff).2 hname

theorem reachable_strictly_ascending_witness :
    Reachable b1Register ∧
    b1Register.sortedById.Pairwise (fun a b => strLt a.id b.id = true) ∧
    b1Register.sortedByName.Pairwise (fun a b =>
      strLt (toLowerCase a.name) (toLowerCase b.name) = true ∨
      (toLowerCase a.name = toLowerCase b.name ∧
        strLt (toLowerCase a.address) (toLowerCase b.address) = true)) :=
  ⟨b1_reachable, (reachable_strictly_ascending b1Register b1_reachable).1,
    (reachable_strictly_ascending b1Register b1_reachable).2.1⟩

/-! ## Insertion -/

/-- C3: on a reachable registry `newCompany` returns false exactly when some
live company has the very same id, or some live company has the same name and
the same address up to letter case; and when it returns false the registry
(both vectors with all incomes, and the invoices) is the one before. -/
theorem newCompany_false_iff (r : CVATRegister) (h : Reachable r) (name addr taxID : Str) :
    ((r.newCompany name addr taxID).1 = false ↔
      (∃ c ∈ r.sortedById, c.id = taxID) ∨
      (∃ c ∈ r.sortedById, toLowerCase c.name = toLowerCase name ∧
        toLowerCase c.address = toLowerCase addr)) ∧
    ((r.newCompany name addr taxID).1 = false → (r.newCompany name addr taxID).2 = r) := by
  have hr := reachable_inv h
  by_cases h1 : ∃ c ∈ r.sortedById, c.id = taxID
  · rw [newCompany_dup hr (Or.inl h1)]
    exact ⟨⟨fun _ => Or.inl h1, fun _ => rfl⟩, fun _ => rfl⟩
  · by_cases h2 : ∃ c ∈ r.sortedById, sameNameAddr c name addr
    · rw [newCompany_dup hr (Or.inr h2)]
      exact ⟨⟨fun _ => Or.inr h2, fun _ => rfl⟩, fun _ => rfl⟩
    · obtain ⟨i1, i2, n1, n2, _, _, he, _⟩ := newCompany_fresh hr h1 h2
      rw [he]
      refine ⟨⟨fun hf => absurd hf (by simp), ?_⟩, fun hf => absurd hf (by simp)⟩
      rintro (h3 | h3)
      · exact absurd h3 h1
      · exact absurd h3 h2

/-- In `b1` the pair AcMe, kOlEjNi is refused although its id is new, the
id 666/666 is refused although the name is new, and the registry stays. -/
theorem newCompany_false_iff_witness :
    Reachable b1Register ∧
    (b1Register.newCompany "AcMe".toList "kOlEjNi".toList "1234".toList).1 = false ∧
    (b1Register.newCompany "Other".toList "Kolejni".toList "666/666".toList).1 = false ∧
    (b1Register.newCompany "AcMe".toList "kOlEjNi".toList "1234".toList).2 = b1Register :=
  ⟨b1_reachable,
    (newCompany_false_iff b1Register b1_reachable _ _ _).1.2
      (Or.inr ⟨acmeKolejni, by decide, by decide, by decide⟩),
    (newCompany_false_iff b1Register b1_reachable _ _ _).1.2
      (Or.inl ⟨acmeThakurova, by decide, by decide⟩),
    (newCompany_false_iff b1Register b1_reachable _ _ _).2
      ((newCompany_false_iff b1Register b1_reachable _ _ _).1.2
        (Or.inr ⟨acmeKolejni, by decide, by decide, by decide⟩))⟩

/-- C4: for every list of `newCompany` calls on the empty registry whose ids
are pairwise different and whose (name, address) pairs are pairwise different
up to letter case, every call returns true, and afterwards `audit` by the id
and `audit` by the name and address return true with the sum 0 for each
inserted company. -/
theorem distinct_inserts_succeed (cs : List (Str × Str × Str))
    (hid : (cs.map (fun t => t.2.2)).Nodup)
    (hname : (cs.map (fun t => (toLowerCase t.1, toLowerCase t.2.1))).Nodup) :
    ∃ r, run empty (cs.map (fun t => Call.newCompany t.1 t.2.1 t.2.2)) =
        some (List.replicate cs.length true, r) ∧
      ∀ t ∈ cs, ∀ sumIncome : Nat,
        r.auditById t.2.2 sumIncome = some (true, 0) ∧
        r.auditByName t.1 t.2.1 sumIncome = some (true, 0) := by
  obtain ⟨r, hrun, hr, _, hall⟩ :=
    run_inserts cs inv_empty (fun _ _ c hc => absurd hc (by simp [empty])) hid hname
  refine ⟨r, hrun, ?_⟩
  intro t ht sumIncome
  exact ⟨auditById_found hr (hall t ht) sumIncome,
    auditByName_found hr (hall t ht) ⟨rfl, rfl⟩ sumIncome⟩

theorem distinct_inserts_succeed_witness :
    (b1Companies.map (fun t => t.2.2)).Nodup ∧
    (b1Companies.map (fun t => (toLowerCase t.1, toLowerCase t.2.1))).Nodup ∧
    ∃ r, run empty (b1Companies.map (fun t => Call.newCompany t.1 t.2.1 t.2.2)) =
        some (List.replicate b1Companies.length true, r) ∧
      ∀ t ∈ b1Companies, ∀ sumIncome : Nat,
        r.auditById t.2.2 sumIncome = some (true, 0) ∧
        r.auditByName t.1 t.2.1 sumIncome = some (true, 0) :=
  ⟨by decide, by decide, distinct_inserts_succeed b1Companies (by decide) (by decide)⟩

/-! ## Invoices -/

/-- C5, as amended: on a reachable registry, for a live company `c` and any
amount, `invoice` by the id of `c` returns true, and the registry afterwards is
the old one with one change to the companies, the income of `c` being
`(income + amount) mod 2 ^ 32` in both vectors, and with the amount appended to
the invoices; every other record, and the name, address, id and position of
every record, are as before.  When `income + amount` is below `2 ^ 32` the
income of `c` has increased by exactly the amount. -/
theorem invoiceById_credits (r : CVATRegister) (h : Reachable r) (c : Company)
    (hc : c ∈ r.sortedById) (amount : Nat) :
    r.invoiceById c.id amount = some (true,
      { sortedById := r.sortedById.map (fun d =>
          if d = c then { d with income := (d.income + amount) % UINT_RANGE } else d),
        sortedByName := r.sortedByName.map (fun d =>
          if d = c then { d with income := (d.income + amount) % UINT_RANGE } else d),
        invoices := r.invoices ++ [amount] }) ∧
    (c.income + amount < UINT_RANGE →
      r.invoiceById c.id amount = some (true,
        { sortedById := r.sortedById.map (fun d =>
            if d = c then { d with income := d.income + amount } else d),
          sortedByName := r.sortedByName.map (fun d =>
            if d = c then { d with income := d.income + amount } else d),
          invoices := r.invoices ++ [amount] })) := by
  have hfound := invoiceById_found (reachable_inv h) hc amount
  refine ⟨hfound, ?_⟩
  intro hlt
  have hfun : (fun d : Company => if d = c then credited d amount else d) =
      (fun d : Company => if d = c then { d with income := d.income + amount } else d) := by
    funext d
    by_cases hd : d = c
    · subst hd
      simp [credited, Nat.mod_eq_of_lt hlt]
    · simp [hd]
  rw [hfound, creditIn, creditIn, hfun]

theorem invoiceById_credits_witness :
    Reachable b1Register ∧ acmeKolejni ∈ b1Register.sortedById ∧
    b1Register.invoiceById acmeKolejni.id 100 = some (true,
      { sortedById := [dummyThakurova, acmeThakurova, { acmeKolejni with income := 8100 }],
        sortedByName := [{ acmeKolejni with income := 8100 }, acmeThakurova, dummyThakurova],
        invoices := [2000, 3000, 4000, 5000, 100] }) :=
  ⟨b1_reachable, by decide,
    ((invoiceById_credits b1Register b1_reachable acmeKolejni (by decide) 100).1).trans
      (by decide)⟩

/-- The claim C5 as it is written fails: the company of `fullRegister` has the
income `2 ^ 32 - 1`, and after `invoice` of the amount 1 its income is not
`2 ^ 32` (it is 0). -/
theorem invoiceById_not_exact :
    Reachable fullRegister ∧ fullCompany ∈ fullRegister.sortedById ∧ 1 < UINT_RANGE ∧
    fullRegister.invoiceById fullCompany.id 1 ≠ some (true,
      { sortedById := fullRegister.sortedById.map (fun d =>
          if d = fullCompany then { d with income := d.income + 1 } else d),
        sortedByName := fullRegister.sortedByName.map (fun d =>
          if d = fullCompany then { d with income := d.income + 1 } else d),
        invoices := fullRegister.invoices ++ [1] }) ∧
    fullRegister.invoiceById fullCompany.id 1 = some (true,
      { sortedById := [{ fullCompany with income := 0 }],
        sortedByName := [{ fullCompany with income := 0 }],
        invoices := [4294967295, 1] }) :=
  ⟨full_reachable, by decide, by decide, by decide, by decide⟩

/-- C6, as amended: let a company be inserted by a successful `newCompany` on
a reachable registry, and let any calls follow that do not cancel it.  Then
`audit` by its id and `audit` by its name and address return true with the sum
`(a1 + ... + aN) mod 2 ^ 32`, where `a1 .. aN` are the amounts of the
successful `invoice` calls (either overload) that named it; this is the
arithmetic sum itself whenever that is below `2 ^ 32`. -/
theorem audit_sum_mod (r0 : CVATRegister) (h : Reachable r0) (name addr taxID : Str)
    (r1 : CVATRegister) (hnew : r0.newCompany name addr taxID = (true, r1))
    (calls : List Call) (flags : List Bool) (r2 : CVATRegister)
    (hrun : run r1 calls = some (flags, r2))
    (hlive : ∀ cl ∈ calls, cl.isCancel = true → cl.addresses name addr taxID = false)
    (sumIncome : Nat) :
    r2.auditById taxID sumIncome =
      some (true, (creditsOf name addr taxID calls flags).sum % UINT_RANGE) ∧
    r2.auditByName name addr sumIncome =
      some (true, (creditsOf name addr taxID calls flags).sum % UINT_RANGE) ∧
    ((creditsOf name addr taxID calls flags).sum < UINT_RANGE →
      r2.auditById taxID sumIncome = some (true, (creditsOf name addr taxID calls flags).sum) ∧
      r2.auditByName name addr sumIncome =
        some (true, (creditsOf name addr taxID calls flags).sum)) := by
  obtain ⟨hr1, hx, _, _, _⟩ := newCompany_true (reachable_inv h) hnew
  obtain ⟨c2, hc2, hn2, ha2, hk2, hi2, hr2⟩ :=
    run_credit calls hr1 hx (show 0 < UINT_RANGE by decide) hlive hrun
  simp only [Nat.zero_add] at hi2
  have hid := auditById_found hr2 hc2 sumIncome
  have hna := auditByName_found hr2 hc2
    (⟨by rw [hn2], by rw [ha2]⟩ : sameNameAddr c2 name addr) sumIncome
  rw [hk2, hi2] at hid
  rw [hi2] at hna
  refine ⟨hid, hna, ?_⟩
  intro hlt
  rw [Nat.mod_eq_of_lt hlt] at hid hna
  exact ⟨hid, hna⟩

theorem audit_sum_mod_witness :
    Reachable empty ∧
    b1Register.auditById "666/666/666".toList 0 = some (true, 8000) ∧
    b1Register.auditByName "ACME".toList "Kolejni".toList 0 = some (true, 8000) := by
  have hw := audit_sum_mod empty Reachable.empty "ACME".toList "Kolejni".toList
    "666/666/666".toList
    { sortedById := [{ acmeKolejni with income := 0 }],
      sortedByName := [{ acmeKolejni with income := 0 }], invoices := [] }
    (by decide)
    [ .newCompany "ACME".toList "Thakurova".toList "666/666".toList,
      .newCompany "Dummy".toList "Thakurova".toList "123456".toList,
      .invoiceById "666/666".toList 2000,
      .invoiceById "666/666/666".toList 3000,
      .invoiceById "123456".toList 4000,
      .invoiceByName "aCmE".toList "Kolejni".toList 5000 ]
    [true, true, true, true, true, true] b1Register (by decide) (by decide) 0
  exact ⟨Reachable.empty, hw.1.trans (by decide), hw.2.1.trans (by decide)⟩

/-- The claim C6 as it is written fails: the company ACME, Kolejni is inserted
and credited with `2 ^ 32 - 1` and with 1 by two successful `invoice` calls;
`audit` then reports 0, not the arithmetic sum `2 ^ 32`. -/
theorem audit_sum_not_arithmetic :
    Reachable empty ∧
    empty.newCompany "ACME".toList "Kolejni".toList "1".toList = (true, freshRegister) ∧
    run freshRegister wrapCalls = some ([true, true], wrappedRegister) ∧
    creditsOf "ACME".toList "Kolejni".toList "1".toList wrapCalls [true, true] =
      [4294967295, 1] ∧
    wrappedRegister.auditById "1".toList 0 = some (true, 0) ∧
    wrappedRegister.auditByName "ACME".toList "Kolejni".toList 0 = some (true, 0) ∧
    wrappedRegister.auditById "1".toList 0 ≠ some (true,
      (creditsOf "ACME".toList "Kolejni".toList "1".toList wrapCalls [true, true]).sum) ∧
    wrappedRegister.auditByName "ACME".toList "Kolejni".toList 0 ≠ some (true,
      (creditsOf "ACME".toList "Kolejni".toList "1".toList wrapCalls [true, true]).sum) :=
  ⟨Reachable.empty, by decide, by decide, by decide, by decide, by decide, by decide,
    by decide⟩

/-! ## Cancellation, failures, and the two key forms -/

/-- C7: on a reachable registry, for a live company `c`, `cancelCompany` by
the id of `c` returns true; afterwards both vectors are the old ones without
the record `c` (every other record is kept as it was, in place), the invoices
are kept, and `audit`, `invoice` and `cancelCompany` addressed to `c` by its id
or by its name and address (in any letter case) all return false. -/
theorem cancelCompanyById_removes (r : CVATRegister) (h : Reachable r) (c : Company)
    (hc : c ∈ r.sortedById) :
    ∃ r1, r.cancelCompanyById c.id = some (true, r1) ∧
      r1.sortedById = r.sortedById.erase c ∧ r1.sortedByName = r.sortedByName.erase c ∧
      c ∉ r1.sortedById ∧ c ∉ r1.sortedByName ∧ r1.invoices = r.invoices ∧
      ∀ (name addr : Str) (amount sumIncome : Nat),
        toLowerCase c.name = toLowerCase name → toLowerCase c.address = toLowerCase addr →
        r1.auditById c.id sumIncome = some (false, sumIncome) ∧
        r1.auditByName name addr sumIncome = some (false, sumIncome) ∧
        r1.invoiceById c.id amount = some (false, r1) ∧
        r1.invoiceByName name addr amount = some (false, r1) ∧
        r1.cancelCompanyById c.id = some (false, r1) ∧
        r1.cancelCompanyByName name addr = some (false, r1) := by
  have hr := reachable_inv h
  have hr1 := inv_erase hr c r.invoices
  have hid := erase_no_id hr hc
  refine ⟨_, cancelCompanyById_found hr hc, rfl, rfl, ?_, ?_, rfl, ?_⟩
  · exact fun hm => (((sorted_nodup idLess_keyOrder _ hr.byId).mem_erase_iff).1 hm).1 rfl
  · exact fun hm =>
      (((sorted_nodup compareFunction_keyOrder _ hr.byName).mem_erase_iff).1 hm).1 rfl
  · intro name addr amount sumIncome hn ha
    have hname := erase_no_name hr hc (⟨hn, ha⟩ : sameNameAddr c name addr)
    exact ⟨auditById_absent hr1 _ hid, auditByName_absent hr1 _ hname,
      invoiceById_absent hr1 _ hid, invoiceByName_absent hr1 _ hname,
      cancelCompanyById_absent hr1 hid, cancelCompanyByName_absent hr1 hname⟩

theorem cancelCompanyById_removes_witness :
    Reachable b1Register ∧ acmeThakurova ∈ b1Register.sortedById ∧
    ∃ r1, b1Register.cancelCompanyById acmeThakurova.id = some (true, r1) ∧
      r1.sortedById = [dummyThakurova, acmeKolejni] ∧
      r1.sortedByName = [acmeKolejni, dummyThakurova] := by
  obtain ⟨r1, h1, h2, h3, _⟩ :=
    cancelCompanyById_removes b1Register b1_reachable acmeThakurova (by decide)
  exact ⟨b1_reachable, by decide, r1, h1, by rw [h2]; decide, by rw [h3]; decide⟩

/-- C8: on a reachable registry each of `cancelCompany`, `invoice` and `audit`,
in both overloads, returns, and returns false exactly when no live company has
the given id, respectively the given name and address up to letter case; when
it returns false the registry (and `sumIncome` of the caller) is as before. -/
theorem false_iff_no_match (r : CVATRegister) (h : Reachable r) (taxID name addr : Str)
    (amount sumIncome : Nat) :
    (∃ flag r1, r.cancelCompanyById taxID = some (flag, r1) ∧
      (flag = false ↔ ¬ ∃ c ∈ r.sortedById, c.id = taxID) ∧ (flag = false → r1 = r)) ∧
    (∃ flag r1, r.cancelCompanyByName name addr = some (flag, r1) ∧
      (flag = false ↔ ¬ ∃ c ∈ r.sortedById,
        toLowerCase c.name = toLowerCase name ∧ toLowerCase c.address = toLowerCase addr) ∧
      (flag = false → r1 = r)) ∧
    (∃ flag r1, r.invoiceById taxID amount = some (flag, r1) ∧
      (flag = false ↔ ¬ ∃ c ∈ r.sortedById, c.id = taxID) ∧ (flag = false → r1 = r)) ∧
    (∃ flag r1, r.invoiceByName name addr amount = some (flag, r1) ∧
      (flag = false ↔ ¬ ∃ c ∈ r.sortedById,
        toLowerCase c.name = toLowerCase name ∧ toLowerCase c.address = toLowerCase addr) ∧
      (flag = false → r1 = r)) ∧
    (∃ flag sum1, r.auditById taxID sumIncome = some (flag, sum1) ∧
      (flag = false ↔ ¬ ∃ c ∈ r.sortedById, c.id = taxID) ∧
      (flag = false → sum1 = sumIncome)) ∧
    (∃ flag sum1, r.auditByName name addr sumIncome = some (flag, sum1) ∧
      (flag = false ↔ ¬ ∃ c ∈ r.sortedById,
        toLowerCase c.name = toLowerCase name ∧ toLowerCase c.address = toLowerCase addr) ∧
      (flag = false → sum1 = sumIncome)) := by
  have hr := reachable_inv h
  have yes : ∀ {p : Prop}, p → ((true = false) ↔ ¬ p) :=
    fun hp => ⟨fun hf => absurd hf (by simp), fun hn => absurd hp hn⟩
  have no : ∀ {p : Prop}, ¬ p → ((false = false) ↔ ¬ p) := fun hp => ⟨fun _ => hp, fun _ => rfl⟩
  have tf : ∀ {q : Prop}, true = false → q := fun hf => absurd hf (by simp)
  refine ⟨?_, ?_, ?_, ?_, ?_, ?_⟩
  · by_cases hx : ∃ c ∈ r.sortedById, c.id = taxID
    · obtain ⟨c, hc, rfl⟩ := hx
      exact ⟨true, _, cancelCompanyById_found hr hc, yes ⟨c, hc, rfl⟩, tf⟩
    · exact ⟨false, r, cancelCompanyById_absent hr hx, no hx, fun _ => rfl⟩
  · by_cases hx : ∃ c ∈ r.sortedById, sameNameAddr c name addr
    · obtain ⟨c, hc, hn⟩ := hx
      exact ⟨true, _, cancelCompanyByName_found hr hc hn, yes ⟨c, hc, hn⟩, tf⟩
    · exact ⟨false, r, cancelCompanyByName_absent hr hx, no hx, fun _ => rfl⟩
  · by_cases hx : ∃ c ∈ r.sortedById, c.id = taxID
    · obtain ⟨c, hc, rfl⟩ := hx
      exact ⟨true, _, invoiceById_found hr hc amount, yes ⟨c, hc, rfl⟩, tf⟩
    · exact ⟨false, r, invoiceById_absent hr amount hx, no hx, fun _ => rfl⟩
  · by_cases hx : ∃ c ∈ r.sortedById, sameNameAddr c name addr
    · obtain ⟨c, hc, hn⟩ := hx
      exact ⟨true, _, invoiceByName_found hr hc hn amount, yes ⟨c, hc, hn⟩, tf⟩
    · exact ⟨false, r, invoiceByName_absent hr amount hx, no hx, fun _ => rfl⟩
  · by_cases hx : ∃ c ∈ r.sortedById, c.id = taxID
    · obtain ⟨c, hc, rfl⟩ := hx
      exact ⟨true, _, auditById_found hr hc sumIncome, yes ⟨c, hc, rfl⟩, tf⟩
    · exact ⟨false, sumIncome, auditById_absent hr sumIncome hx, no hx, fun _ => rfl⟩
  · by_cases hx : ∃ c ∈ r.sortedById, sameNameAddr c name addr
    · obtain ⟨c, hc, hn⟩ := hx
      exact ⟨true, _, auditByName_found hr hc hn sumIncome, yes ⟨c, hc, hn⟩, tf⟩
    · exact ⟨false, sumIncome, auditByName_absent hr sumIncome hx, no hx, fun _ => rfl⟩

theorem false_iff_no_match_witness :
    Reachable b1Register ∧
    ∃ flag r1, b1Register.invoiceById "1234567".toList 100 = some (flag, r1) ∧
      (flag = false ↔ ¬ ∃ c ∈ b1Register.sortedById, c.id = "1234567".toList) ∧
      (flag = false → r1 = b1Register) :=
  ⟨b1_reachable,
    (false_iff_no_match b1Register b1_reachable "1234567".toList [] [] 100 0).2.2.1⟩

/-- C9: on a reachable registry with a live company `c`, for every name and
address equal to those of `c` up to letter case, the name/address overloads of
`cancelCompany`, `invoice` and `audit` return the same flag, the same sum and
the same registry as the overloads taking the id of `c`. -/
theorem byName_eq_byId (r : CVATRegister) (h : Reachable r) (c : Company)
    (hc : c ∈ r.sortedById) (name addr : Str)
    (hn : toLowerCase c.name = toLowerCase name)
    (ha : toLowerCase c.address = toLowerCase addr) (amount sumIncome : Nat) :
    (∃ r1, r.cancelCompanyByName name addr = some (true, r1) ∧
      r.cancelCompanyById c.id = some (true, r1)) ∧
    (∃ r1, r.invoiceByName name addr amount = some (true, r1) ∧
      r.invoiceById c.id amount = some (true, r1)) ∧
    (∃ sum1, r.auditByName name addr sumIncome = some (true, sum1) ∧
      r.auditById c.id sumIncome = some (true, sum1)) := by
  have hr := reachable_inv h
  have hna : sameNameAddr c name addr := ⟨hn, ha⟩
  exact ⟨⟨_, cancelCompanyByName_found hr hc hna, cancelCompanyById_found hr hc⟩,
    ⟨_, invoiceByName_found hr hc hna amount, invoiceById_found hr hc amount⟩,
    ⟨_, auditByName_found hr hc hna sumIncome, auditById_found hr hc sumIncome⟩⟩

theorem byName_eq_byId_witness :
    Reachable b1Register ∧
    ∃ sum1, b1Register.auditByName "aCmE".toList "KoLeJnI".toList 0 = some (true, sum1) ∧
      b1Register.auditById "666/666/666".toList 0 = some (true, sum1) :=
  ⟨b1_reachable,
    (byName_eq_byId b1Register b1_reachable acmeKolejni (by decide)
      "aCmE".toList "KoLeJnI".toList (by decide) (by decide) 0 0).2.2⟩

/-! ## Median -/

/-- C10: `medianInvoice` is 0 on an empty history; on a history of `n > 0`
amounts it is the element at index `n / 2` (from zero) of the history in
ascending order, which for even `n` is the greater of the two middle elements.
The method is `const`: it is a function of the registry and changes nothing. -/
theorem medianInvoice_sorted_middle (r : CVATRegister) :
    (r.invoices = [] → r.medianInvoice = 0) ∧
    ∀ sorted : List Nat, sorted.Sorted (· ≤ ·) → sorted.Perm r.invoices → r.invoices ≠ [] →
      sorted[r.invoices.length / 2]? = some r.medianInvoice ∧
      (r.invoices.length % 2 = 0 → ∀ below : Nat,
        sorted[r.invoices.length / 2 - 1]? = some below →
        r.medianInvoice = max below r.medianInvoice) := by
  constructor
  · intro h
    simp [medianInvoice, h]
  · intro sorted hs hp hne
    have hsort : sort r.invoices = sorted :=
      List.eq_of_perm_of_sorted ((List.perm_insertionSort _ _).trans hp.symm)
        (List.sorted_insertionSort _ _) hs
    have hlen : sorted.length = r.invoices.length := hp.length_eq
    have hpos : 0 < r.invoices.length := List.length_pos.2 hne
    have hmid : r.invoices.length / 2 < sorted.length := by omega
    have hmed : r.medianInvoice = sorted[r.invoices.length / 2] := by
      have hemp : r.invoices.isEmpty = false := by
        cases hi : r.invoices with
        | nil => exact absurd hi hne
        | cons _ _ => rfl
      simp only [medianInvoice, hemp, hsort, ite_self, Bool.false_eq_true, if_false]
      exact List.getD_eq_getElem _ _ hmid
    refine ⟨by rw [hmed]; exact List.getElem?_eq_getElem hmid, ?_⟩
    intro heven below hbelow
    obtain ⟨hlt, hget⟩ := List.getElem?_eq_some.1 hbelow
    have hle : below ≤ sorted[r.invoices.length / 2] := by
      rw [← hget]
      exact (List.pairwise_iff_getElem.1 hs) _ _ hlt hmid (by omega)
    rw [hmed]
    exact (max_eq_right hle).symm

/-- The median of `b1` after its four invoices is 4000, as `main` asserts. -/
theorem medianInvoice_sorted_middle_witness :
    [2000, 3000, 4000, 5000][b1Register.invoices.length / 2]? =
      some b1Register.medianInvoice :=
  ((medianInvoice_sorted_middle b1Register).2 [2000, 3000, 4000, 5000] (by decide)
    (List.Perm.refl _) (by decide)).1

/-! ## Further lemmas on single calls -/

theorem medianInvoice_congr {r1 r2 : CVATRegister} (h : r1.invoices = r2.invoices) :
    r1.medianInvoice = r2.medianInvoice := by
  simp only [medianInvoice, h]

/-- Every call on a registry with the invariant returns, keeps the invariant
and appends to the invoices exactly the amount of a successful `invoice`. -/
theorem call_invoices {r : CVATRegister} (hr : Inv r) (c : Call) :
    ∃ flag r1, call r c = some (flag, r1) ∧ Inv r1 ∧
      r1.invoices = r.invoices ++ c.appended flag := by
  cases c with
  | newCompany n a k =>
    by_cases h1 : ∃ c ∈ r.sortedById, c.id = k
    · exact ⟨false, r, by simp [call, newCompany_dup hr (Or.inl h1)], hr,
        by simp [Call.appended, Call.amount?]⟩
    · by_cases h2 : ∃ c ∈ r.sortedById, sameNameAddr c n a
      · exact ⟨false, r, by simp [call, newCompany_dup hr (Or.inr h2)], hr,
          by simp [Call.appended, Call.amount?]⟩
      · obtain ⟨i1, i2, n1, n2, _, _, he, hinv⟩ := newCompany_fresh hr h1 h2
        exact ⟨true, _, by simp only [call, he], hinv, by simp [Call.appended, Call.amount?]⟩
  | cancelCompanyByName n a =>
    by_cases h : ∃ c ∈ r.sortedById, sameNameAddr c n a
    · obtain ⟨c, hc, hn⟩ := h
      exact ⟨true, _, cancelCompanyByName_found hr hc hn, inv_erase hr c _,
        by simp [Call.appended, Call.amount?]⟩
    · exact ⟨false, r, cancelCompanyByName_absent hr h, hr,
        by simp [Call.appended, Call.amount?]⟩
  | cancelCompanyById k =>
    by_cases h : ∃ c ∈ r.sortedById, c.id = k
    · obtain ⟨c, hc, rfl⟩ := h
      exact ⟨true, _, cancelCompanyById_found hr hc, inv_erase hr c _,
        by simp [Call.appended, Call.amount?]⟩
    · exact ⟨false, r, cancelCompanyById_absent hr h, hr,
        by simp [Call.appended, Call.amount?]⟩
  | invoiceById k amount =>
    by_cases h : ∃ c ∈ r.sortedById, c.id = k
    · obtain ⟨c, hc, rfl⟩ := h
      exact ⟨true, _, invoiceById_found hr hc amount, inv_credit hr c amount _,
        by simp [Call.appended, Call.amount?]⟩
    · exact ⟨false, r, invoiceById_absent hr amount h, hr,
        by simp [Call.appended, Call.amount?]⟩
  | invoiceByName n a amount =>
    by_cases h : ∃ c ∈ r.sortedById, sameNameAddr c n a
    · obtain ⟨c, hc, hn⟩ := h
      exact ⟨true, _, invoiceByName_found hr hc hn amount, inv_credit hr c amount _,
        by simp [Call.appended, Call.amount?]⟩
    · exact ⟨false, r, invoiceByName_absent hr amount h, hr,
        by simp [Call.appended, Call.amount?]⟩

theorem successfulAmounts_cons (c : Call) (cs : List Call) (flag : Bool) (flags : List Bool) :
    successfulAmounts (c :: cs) (flag :: flags) =
      c.appended flag ++ successfulAmounts cs flags := by
  simp only [successfulAmounts, Call.appended]
  cases c.amount? with
  | none => rfl
  | some amount => cases flag <;> rfl

/-- Every list of calls on a registry with the invariant runs to its end, and
the invoices grow by the amounts of the successful `invoice` calls. -/
theorem run_invoices (calls : List Call) :
    ∀ {r : CVATRegister}, Inv r →
      ∃ flags r2, run r calls = some (flags, r2) ∧ flags.length = calls.length ∧ Inv r2 ∧
        r2.invoices = r.invoices ++ successfulAmounts calls flags := by
  induction calls with
  | nil =>
    intro r hr
    exact ⟨[], r, rfl, rfl, hr, by simp [successfulAmounts]⟩
  | cons c cs ih =>
    intro r hr
    obtain ⟨flag, r1, hcall, hr1, hinv1⟩ := call_invoices hr c
    obtain ⟨flags, r2, hrun, hlen, hr2, hinv2⟩ := ih hr1
    refine ⟨flag :: flags, r2, ?_, by simp [hlen], hr2, ?_⟩
    · simp only [run, hcall, hrun, Option.bind_eq_bind, Option.some_bind]
    · rw [hinv2, hinv1, successfulAmounts_cons, List.append_assoc]

/-! ## Median and history -/

/-- C11: on a reachable registry every `cancelCompany` call, in either
overload and whether it succeeds or not, returns a registry on which
`medianInvoice` has the value it had before the call. -/
theorem medianInvoice_after_cancel (r : CVATRegister) (h : Reachable r)
    (taxID name addr : Str) :
    (∃ flag r1, r.cancelCompanyById taxID = some (flag, r1) ∧
      r1.medianInvoice = r.medianInvoice) ∧
    (∃ flag r1, r.cancelCompanyByName name addr = some (flag, r1) ∧
      r1.medianInvoice = r.medianInvoice) := by
  have hr := reachable_inv h
  constructor
  · obtain ⟨flag, r1, hcall, _, hinv⟩ := call_invoices hr (.cancelCompanyById taxID)
    exact ⟨flag, r1, hcall, medianInvoice_congr (by simpa [Call.appended, Call.amount?] using hinv)⟩
  · obtain ⟨flag, r1, hcall, _, hinv⟩ := call_invoices hr (.cancelCompanyByName name addr)
    exact ⟨flag, r1, hcall, medianInvoice_congr (by simpa [Call.appended, Call.amount?] using hinv)⟩

/-- The median of `b1` stays 4000 when ACME, Kolejni is cancelled, as `main`
asserts. -/
theorem medianInvoice_after_cancel_witness :
    Reachable b1Register ∧ b1Register.medianInvoice = 4000 ∧
    ∃ flag r1, b1Register.cancelCompanyByName "ACME".toList "KoLeJnI".toList =
        some (flag, r1) ∧ r1.medianInvoice = b1Register.medianInvoice :=
  ⟨b1_reachable, by decide,
    (medianInvoice_after_cancel b1Register b1_reachable [] "ACME".toList "KoLeJnI".toList).2⟩

/-- C12: every list of calls on the empty registry runs to its end, and the
invoices are then, in order, exactly the amounts of the `invoice` calls (either
overload) that returned true.  On a reachable registry a single call appends
the amount if it is a successful `invoice` and leaves the invoices as they
were otherwise (`newCompany`, `cancelCompany`, failed `invoice`), so their
length never decreases.  The `const` methods `audit`, `firstCompany`,
`nextCompany` and `medianInvoice` return no registry. -/
theorem invoices_are_successful_amounts (r : CVATRegister) (h : Reachable r) :
    (∀ calls : List Call, ∃ flags r2, run empty calls = some (flags, r2) ∧
      flags.length = calls.length ∧ r2.invoices = successfulAmounts calls flags) ∧
    (∀ c : Call, ∃ flag r1, call r c = some (flag, r1) ∧
      ((c.amount? = none ∨ flag = false) → r1.invoices = r.invoices) ∧
      (∀ amount, c.amount? = some amount → flag = true →
        r1.invoices = r.invoices ++ [amount]) ∧
      r.invoices.length ≤ r1.invoices.length) := by
  constructor
  · intro calls
    obtain ⟨flags, r2, hrun, hlen, _, hinv⟩ := run_invoices calls inv_empty
    exact ⟨flags, r2, hrun, hlen, by simpa [empty] using hinv⟩
  · intro c
    obtain ⟨flag, r1, hcall, _, hinv⟩ := call_invoices (reachable_inv h) c
    refine ⟨flag, r1, hcall, ?_, ?_, by simp [hinv]⟩
    · rintro (hc | hf)
      · simpa [Call.appended, hc] using hinv
      · subst hf
        cases hc : c.amount? <;> simpa [Call.appended, hc] using hinv
    · intro amount hc hf
      subst hf
      simpa [Call.appended, hc] using hinv

theorem invoices_are_successful_amounts_witness :
    Reachable b1Register ∧
    ∃ flag r1, call b1Register (.invoiceById "123456".toList 100) = some (flag, r1) ∧
      b1Register.invoices.length ≤ r1.invoices.length :=
  ⟨b1_reachable,
    (((invoices_are_successful_amounts b1Register b1_reachable).2
      (.invoiceById "123456".toList 100)).imp fun _ hx => hx.imp fun _ hy =>
        ⟨hy.1, hy.2.2.2⟩)⟩

/-! ## Income over time, and insertion after a cancellation -/

theorem mem_sortedByName {r : CVATRegister} (hr : Inv r) {c : Company} :
    c ∈ r.sortedByName ↔ c ∈ r.sortedById :=
  hr.perm.mem_iff.symm

/-- C16, as amended: on a reachable registry, for a live company `c` and any
amount, `audit` (by id or by name and address) reports `income` before a
successful `invoice` to `c` (by id or by name and address) and
`(income + amount) mod 2 ^ 32` after it; the sum reported after is at least the
sum reported before whenever `income + amount` is below `2 ^ 32`. -/
theorem audit_after_invoice (r : CVATRegister) (h : Reachable r) (c : Company)
    (hc : c ∈ r.sortedById) (amount sumIncome : Nat) :
    r.auditById c.id sumIncome = some (true, c.income) ∧
    r.auditByName c.name c.address sumIncome = some (true, c.income) ∧
    (∃ r1, r.invoiceById c.id amount = some (true, r1) ∧
      r.invoiceByName c.name c.address amount = some (true, r1) ∧
      r1.auditById c.id sumIncome = some (true, (c.income + amount) % UINT_RANGE) ∧
      r1.auditByName c.name c.address sumIncome =
        some (true, (c.income + amount) % UINT_RANGE)) ∧
    (c.income + amount < UINT_RANGE → c.income ≤ (c.income + amount) % UINT_RANGE) := by
  have hr := reachable_inv h
  have hr1 := inv_credit hr c amount (r.invoices ++ [amount])
  have hc1 : credited c amount ∈ creditIn r.sortedById c amount := mem_creditIn_self hc amount
  refine ⟨auditById_found hr hc sumIncome, auditByName_found hr hc ⟨rfl, rfl⟩ sumIncome,
    ⟨_, invoiceById_found hr hc amount, invoiceByName_found hr hc ⟨rfl, rfl⟩ amount,
      auditById_found hr1 hc1 sumIncome, auditByName_found hr1 hc1 ⟨rfl, rfl⟩ sumIncome⟩, ?_⟩
  intro hlt
  rw [Nat.mod_eq_of_lt hlt]
  exact Nat.le_add_right _ _

theorem audit_after_invoice_witness :
    Reachable b1Register ∧ acmeKolejni ∈ b1Register.sortedById ∧
    b1Register.auditById acmeKolejni.id 0 = some (true, 8000) ∧
    ∃ r1, b1Register.invoiceById acmeKolejni.id 100 = some (true, r1) ∧
      r1.auditById acmeKolejni.id 0 = some (true, 8100) := by
  obtain ⟨h1, _, ⟨r1, h2, _, h3, _⟩, _⟩ :=
    audit_after_invoice b1Register b1_reachable acmeKolejni (by decide) 100 0
  exact ⟨b1_reachable, by decide, h1, r1, h2, h3⟩

/-- The claim C16 as it is written fails: `audit` reports `2 ^ 32 - 1` for the
company of `fullRegister`, and after a successful `invoice` of 1 it reports 0,
which is less. -/
theorem audit_decreases :
    Reachable fullRegister ∧ fullCompany ∈ fullRegister.sortedById ∧ 1 < UINT_RANGE ∧
    fullRegister.auditById "1".toList 0 = some (true, 4294967295) ∧
    fullRegister.invoiceById "1".toList 1 = some (true, wrappedRegister) ∧
    wrappedRegister.auditById "1".toList 0 = some (true, 0) ∧
    wrappedRegister.auditByName "ACME".toList "Kolejni".toList 0 = some (true, 0) ∧
    ¬ (4294967295 ≤ 0) :=
  ⟨full_reachable, by decide, by decide, by decide, by decide, by decide, by decide,
    by decide⟩

/-- C17: on a reachable registry, for a live company with name `n`, address
`a` and id `k`, `cancelCompany` by the id, or by the name and address in any
letter case, returns true; on the registry it leaves `newCompany (n, a, k)`
returns true, and `audit` of the new company, by id or by name and address,
returns true with the sum 0, whatever the income of the cancelled one was. -/
theorem newCompany_after_cancel (r : CVATRegister) (h : Reachable r) (c : Company)
    (hc : c ∈ r.sortedById) (name addr : Str)
    (hn : toLowerCase c.name = toLowerCase name)
    (ha : toLowerCase c.address = toLowerCase addr) (sumIncome : Nat) :
    ∃ r1 r2, r.cancelCompanyById c.id = some (true, r1) ∧
      r.cancelCompanyByName name addr = some (true, r1) ∧
      r1.newCompany c.name c.address c.id = (true, r2) ∧
      r2.auditById c.id sumIncome = some (true, 0) ∧
      r2.auditByName c.name c.address sumIncome = some (true, 0) := by
  have hr := reachable_inv h
  have hr1 := inv_erase hr c r.invoices
  have hid := erase_no_id hr hc
  have hname := erase_no_name hr hc (⟨rfl, rfl⟩ : sameNameAddr c c.name c.address)
  obtain ⟨i1, i2, n1, n2, _, _, he, _⟩ := newCompany_fresh hr1 hid hname
  obtain ⟨hr2, hx, _, _, _⟩ := newCompany_true hr1 he
  exact ⟨_, _, cancelCompanyById_found hr hc, cancelCompanyByName_found hr hc ⟨hn, ha⟩, he,
    auditById_found hr2 hx sumIncome, auditByName_found hr2 hx ⟨rfl, rfl⟩ sumIncome⟩

theorem newCompany_after_cancel_witness :
    Reachable b1Register ∧ acmeKolejni ∈ b1Register.sortedById ∧
    ∃ r1 r2, b1Register.cancelCompanyById acmeKolejni.id = some (true, r1) ∧
      b1Register.cancelCompanyByName "acme".toList "KOLEJNI".toList = some (true, r1) ∧
      r1.newCompany acmeKolejni.name acmeKolejni.address acmeKolejni.id = (true, r2) ∧
      r2.auditById acmeKolejni.id 0 = some (true, 0) ∧
      r2.auditByName acmeKolejni.name acmeKolejni.address 0 = some (true, 0) :=
  ⟨b1_reachable, by decide,
    newCompany_after_cancel b1Register b1_reachable acmeKolejni (by decide)
      "acme".toList "KOLEJNI".toList (by decide) (by decide) 0⟩

/-! ## Traversal -/

theorem compareFunction_iff_pairLess (a b : Company) :
    compareFunction a b = true ↔ pairLess a.name a.address b.name b.address := by
  rw [compareFunction_eq]
  simp only [nameKey, pairLess]
  by_cases hn : toLowerCase a.name = toLowerCase b.name
  · rw [if_pos hn, hn, strLt_irrefl]
    simp
  · rw [if_neg hn]
    simp [hn]

theorem pairLess_irrefl (name addr : Str) : ¬ pairLess name addr name addr := by
  simp [pairLess, strLt_irrefl]

/-- What `nextCompany` returns on a sorted vector: the first record above the
given pair, if there is one. -/
theorem nextCompany_split {r : CVATRegister} (hr : Inv r) (name addr : Str) :
    ∃ l1 l2, r.sortedByName = l1 ++ l2 ∧
      (∀ a ∈ l1, ¬ pairLess name addr a.name a.address) ∧
      (∀ b ∈ l2, pairLess name addr b.name b.address) ∧
      r.nextCompany name addr =
        match l2 with
        | [] => (false, name, addr)
        | c :: _ => (true, c.name, c.address) := by
  obtain ⟨l1, l2, hv, h1, h2, hub⟩ := upper_bound_split compareFunction_keyOrder
    { name := name, address := addr, id := [], income := 0 } r.sortedByName hr.byName
  refine ⟨l1, l2, hv, ?_, ?_, ?_⟩
  · intro a ha hlt
    have := (compareFunction_iff_pairLess
      { name := name, address := addr, id := [], income := 0 } a).2 hlt
    rw [h1 a ha] at this
    exact absurd this (by simp)
  · intro b hb
    exact (compareFunction_iff_pairLess
      { name := name, address := addr, id := [], income := 0 } b).1 (h2 b hb)
  · simp only [nextCompany, hub]
    rw [hv]
    cases l2 with
    | nil =>
      cases l1 with
      | nil => rfl
      | cons a l1 => simp
    | cons c l2 =>
      have hne : (l1 ++ c :: l2).isEmpty = false := by
        cases l1 <;> rfl
      rw [if_neg (by simp [hne]), getElem?_split]

/-- Called with the pair of the record `c` of the vector, `nextCompany` returns
the record right after `c`, if there is one. -/
theorem nextCompany_at {r : CVATRegister} (hr : Inv r) {l1 l2 : List Company} {c : Company} :
    r.sortedByName = l1 ++ c :: l2 →
    r.nextCompany c.name c.address =
      match l2 with
      | [] => (false, c.name, c.address)
      | d :: _ => (true, d.name, d.address) := by
  intro hv
  have hs := hr.byName
  rw [hv, List.pairwise_append, List.pairwise_cons] at hs
  have hx : nameKey { name := c.name, address := c.address, id := [], income := 0 } =
      nameKey c := rfl
  have ko := compareFunction_keyOrder
  have hub : upper_bound r.sortedByName
      { name := c.name, address := c.address, id := [], income := 0 } compareFunction =
      (l1 ++ [c]).length := by
    rw [hv, show l1 ++ c :: l2 = (l1 ++ [c]) ++ l2 by simp]
    apply searchLoop_eq
    · intro a ha
      rcases List.mem_append.1 ha with ha | ha
      · have hac : compareFunction a c = true := hs.2.2 a ha c (List.mem_cons_self _ _)
        have := ko.asymm hac
        rw [ko.congr c a _ a hx.symm rfl] at this
        simp [this]
      · rw [List.mem_singleton] at ha
        subst ha
        simp [ko.of_key_eq hx]
    · intro b hb
      have hcb : compareFunction c b = true := hs.2.1.1 b hb
      rw [ko.congr c b _ b hx.symm rfl] at hcb
      simp [hcb]
  simp only [nextCompany, hub]
  have hne : r.sortedByName.isEmpty = false := by
    rw [hv]
    cases l1 <;> rfl
  rw [if_neg (by simp [hne]), hv, show l1 ++ c :: l2 = (l1 ++ [c]) ++ l2 by simp]
  cases l2 with
  | nil =>
    rw [List.append_nil, List.getElem?_eq_none (Nat.le_refl _)]
  | cons d l2 =>
    rw [List.getElem?_append_right (Nat.le_refl _)]
    simp

/-- From the pair of a record the loop collects the records after it. -/
theorem nextLoop_suffix {r : CVATRegister} (hr : Inv r) :
    ∀ (l2 l1 : List Company) (c : Company) (fuel : Nat),
      r.sortedByName = l1 ++ c :: l2 → l2.length ≤ fuel →
      nextLoop r fuel c.name c.address = l2.map (fun d => (d.name, d.address)) := by
  intro l2
  induction l2 with
  | nil =>
    intro l1 c fuel hv _
    cases fuel with
    | zero => rfl
    | succ fuel => simp [nextLoop, nextCompany_at hr hv]
  | cons d l2 ih =>
    intro l1 c fuel hv hf
    cases fuel with
    | zero => simp at hf
    | succ fuel =>
      simp only [nextLoop, nextCompany_at hr hv, List.map_cons]
      rw [ih (l1 ++ [c]) d fuel (by rw [hv]; simp) (by simpa using hf)]

theorem traverse_eq {r : CVATRegister} (hr : Inv r) (fuel : Nat)
    (hf : r.sortedById.length ≤ fuel) :
    traverse r fuel = r.sortedByName.map (fun c => (c.name, c.address)) := by
  have hlen : r.sortedByName.length ≤ fuel := by
    rw [← hr.perm.length_eq]
    exact hf
  cases hv : r.sortedByName with
  | nil => simp [traverse, firstCompany, hv]
  | cons c l2 =>
    simp only [traverse, firstCompany, hv, List.map_cons]
    rw [nextLoop_suffix hr l2 [] c fuel (by simpa using hv) (by
      rw [hv] at hlen
      exact Nat.le_of_succ_le (by simpa using hlen))]

/-- The two outcomes of `nextCompany` on a registry with the invariant. -/
theorem nextCompany_cases {r : CVATRegister} (hr : Inv r) (name addr : Str) :
    (r.nextCompany name addr = (false, name, addr) ∧
      ∀ c ∈ r.sortedById, ¬ pairLess name addr c.name c.address) ∨
    (∃ c ∈ r.sortedById, pairLess name addr c.name c.address ∧
      (∀ d ∈ r.sortedById, pairLess name addr d.name d.address →
        d = c ∨ pairLess c.name c.address d.name d.address) ∧
      r.nextCompany name addr = (true, c.name, c.address)) := by
  obtain ⟨l1, l2, hv, h1, h2, hnext⟩ := nextCompany_split hr name addr
  cases l2 with
  | nil =>
    left
    refine ⟨hnext, ?_⟩
    intro c hc
    rw [← mem_sortedByName hr, hv, List.append_nil] at hc
    exact h1 c hc
  | cons c l2 =>
    right
    have hs := hr.byName
    rw [hv, List.pairwise_append, List.pairwise_cons] at hs
    refine ⟨c, ?_, h2 c (List.mem_cons_self _ _), ?_, hnext⟩
    · rw [← mem_sortedByName hr, hv]
      exact List.mem_append_right _ (List.mem_cons_self _ _)
    · intro d hd hlt
      rw [← mem_sortedByName hr, hv] at hd
      rcases List.mem_append.1 hd with hd | hd
      · exact absurd hlt (h1 d hd)
      · rcases List.mem_cons.1 hd with rfl | hd
        · exact Or.inl rfl
        · exact Or.inr ((compareFunction_iff_pairLess c d).1 (hs.2.1.1 d hd))

/-- The records of the registry after a call are records it had before, up to
their income, or the record a successful `newCompany` has just inserted. -/
theorem call_origin {r : CVATRegister} (hr : Inv r) (cl : Call) {flag : Bool}
    {r1 : CVATRegister} (hcall : call r cl = some (flag, r1)) :
    ∀ c ∈ r1.sortedById,
      (∃ c0 ∈ r.sortedById, c0.name = c.name ∧ c0.address = c.address ∧ c0.id = c.id) ∨
      (cl = .newCompany c.name c.address c.id ∧ flag = true) := by
  intro c hc
  have keep : c ∈ r.sortedById →
      (∃ c0 ∈ r.sortedById, c0.name = c.name ∧ c0.address = c.address ∧ c0.id = c.id) ∨
      (cl = .newCompany c.name c.address c.id ∧ flag = true) :=
    fun h => Or.inl ⟨c, h, rfl, rfl, rfl⟩
  have credit : ∀ d amount, c ∈ creditIn r.sortedById d amount →
      (∃ c0 ∈ r.sortedById, c0.name = c.name ∧ c0.address = c.address ∧ c0.id = c.id) ∨
      (cl = .newCompany c.name c.address c.id ∧ flag = true) := by
    intro d amount h
    obtain ⟨c0, hc0, he⟩ := List.mem_map.1 h
    refine Or.inl ⟨c0, hc0, ?_⟩
    rw [← he]
    split_ifs <;> exact ⟨rfl, rfl, rfl⟩
  cases cl with
  | newCompany n a k =>
    simp only [call, Option.some.injEq] at hcall
    cases flag with
    | false =>
      by_cases h1 : ∃ c ∈ r.sortedById, c.id = k
      · rw [newCompany_dup hr (Or.inl h1)] at hcall
        rw [← (Prod.mk.inj hcall).2] at hc
        exact keep hc
      · by_cases h2 : ∃ c ∈ r.sortedById, sameNameAddr c n a
        · rw [newCompany_dup hr (Or.inr h2)] at hcall
          rw [← (Prod.mk.inj hcall).2] at hc
          exact keep hc
        · obtain ⟨i1, i2, n1, n2, _, _, he, _⟩ := newCompany_fresh hr h1 h2
          rw [he] at hcall
          exact absurd (Prod.mk.inj hcall).1 (by simp)
    | true =>
      obtain ⟨_, _, _, _, hmem⟩ := newCompany_true hr hcall
      rcases (hmem c).1 hc with rfl | hc
      · exact Or.inr ⟨rfl, rfl⟩
      · exact keep hc
  | cancelCompanyByName n a =>
    simp only [call] at hcall
    by_cases hx : ∃ d ∈ r.sortedById, sameNameAddr d n a
    · obtain ⟨d, hd, hdn⟩ := hx
      rw [cancelCompanyByName_found hr hd hdn] at hcall
      simp only [Option.some.injEq, Prod.mk.injEq] at hcall
      rw [← hcall.2] at hc
      exact keep (List.mem_of_mem_erase hc)
    · rw [cancelCompanyByName_absent hr hx] at hcall
      simp only [Option.some.injEq, Prod.mk.injEq] at hcall
      rw [← hcall.2] at hc
      exact keep hc
  | cancelCompanyById k =>
    simp only [call] at hcall
    by_cases hx : ∃ d ∈ r.sortedById, d.id = k
    · obtain ⟨d, hd, rfl⟩ := hx
      rw [cancelCompanyById_found hr hd] at hcall
      simp only [Option.some.injEq, Prod.mk.injEq] at hcall
      rw [← hcall.2] at hc
      exact keep (List.mem_of_mem_erase hc)
    · rw [cancelCompanyById_absent hr hx] at hcall
      simp only [Option.some.injEq, Prod.mk.injEq] at hcall
      rw [← hcall.2] at hc
      exact keep hc
  | invoiceById k amount =>
    simp only [call] at hcall
    by_cases hx : ∃ d ∈ r.sortedById, d.id = k
    · obtain ⟨d, hd, rfl⟩ := hx
      rw [invoiceById_found hr hd amount] at hcall
      simp only [Option.some.injEq, Prod.mk.injEq] at hcall
      rw [← hcall.2] at hc
      exact credit d amount hc
    · rw [invoiceById_absent hr amount hx] at hcall
      simp only [Option.some.injEq, Prod.mk.injEq] at hcall
      rw [← hcall.2] at hc
      exact keep hc
  | invoiceByName n a amount =>
    simp only [call] at hcall
    by_cases hx : ∃ d ∈ r.sortedById, sameNameAddr d n a
    · obtain ⟨d, hd, hdn⟩ := hx
      rw [invoiceByName_found hr hd hdn amount] at hcall
      simp only [Option.some.injEq, Prod.mk.injEq] at hcall
      rw [← hcall.2] at hc
      exact credit d amount hc
    · rw [invoiceByName_absent hr amount hx] at hcall
      simp only [Option.some.injEq, Prod.mk.injEq] at hcall
      rw [← hcall.2] at hc
      exact keep hc

/-- Every record of the registry at the end of a trace was there at its start,
up to its income, or was inserted by a successful `newCompany` of the trace
with exactly its name, address and id. -/
theorem run_origin (calls : List Call) :
    ∀ {r0 : CVATRegister}, Inv r0 → ∀ {flags : List Bool} {r : CVATRegister},
      run r0 calls = some (flags, r) → ∀ c ∈ r.sortedById,
      (∃ c0 ∈ r0.sortedById, c0.name = c.name ∧ c0.address = c.address ∧ c0.id = c.id) ∨
      (Call.newCompany c.name c.address c.id, true) ∈ calls.zip flags := by
  induction calls with
  | nil =>
    intro r0 _ flags r hrun c hc
    simp only [run, Option.some.injEq, Prod.mk.injEq] at hrun
    rw [← hrun.2] at hc
    exact Or.inl ⟨c, hc, rfl, rfl, rfl⟩
  | cons cl cls ih =>
    intro r0 hr0 flags r hrun c hc
    obtain ⟨flag, r1, flags1, hcall, hrest, hflags⟩ := run_cons hrun
    obtain ⟨_, _, he, hr1⟩ := call_inv hr0 cl
    rw [hcall] at he
    cases he
    rw [hflags, List.zip_cons_cons]
    rcases ih hr1 hrest c hc with ⟨c1, hc1, hn, ha, hk⟩ | hz
    · rcases call_origin hr0 cl hcall c1 hc1 with ⟨c0, hc0, hn0, ha0, hk0⟩ | ⟨hcl, hflag⟩
      · exact Or.inl ⟨c0, hc0, hn0.trans hn, ha0.trans ha, hk0.trans hk⟩
      · right
        rw [hcl, hflag, hn, ha, hk]
        exact List.mem_cons_self _ _
    · exact Or.inr (List.mem_cons_of_mem _ hz)

theorem run_snoc (cs : List Call) :
    ∀ {r0 r r1 : CVATRegister} {flags : List Bool} {c : Call} {flag : Bool},
      run r0 cs = some (flags, r) → call r c = some (flag, r1) →
      run r0 (cs ++ [c]) = some (flags ++ [flag], r1) := by
  induction cs with
  | nil =>
    intro r0 r r1 flags c flag hrun hcall
    simp only [run, Option.some.injEq, Prod.mk.injEq] at hrun
    rw [← hrun.1, hrun.2]
    simp [run, hcall]
  | cons d cs ih =>
    intro r0 r r1 flags c flag hrun hcall
    obtain ⟨flag0, r2, flags1, hcall0, hrest, hflags⟩ := run_cons hrun
    have hsnoc := ih hrest hcall
    rw [hflags]
    show run r0 (d :: (cs ++ [c])) = some (flag0 :: flags1 ++ [flag], r1)
    simp only [run, hcall0, hsnoc, Option.bind_eq_bind, Option.some_bind, List.cons_append]

/-- A reachable registry is the end of a trace of valid calls from the empty
registry. -/
theorem reachable_run {r : CVATRegister} (h : Reachable r) :
    ∃ calls flags, (∀ c ∈ calls, c.valid = true) ∧ run empty calls = some (flags, r) := by
  induction h with
  | empty => exact ⟨[], [], by simp, rfl⟩
  | step c _ hv hcall ih =>
    obtain ⟨calls, flags, hvalid, hrun⟩ := ih
    refine ⟨calls ++ [c], flags ++ [_], ?_, run_snoc calls hrun hcall⟩
    intro d hd
    rcases List.mem_append.1 hd with hd | hd
    · exact hvalid d hd
    · rw [List.mem_singleton.1 hd]
      exact hv

/-- C13: on a reachable registry, for every pair `(name, addr)`, live or not,
`nextCompany` returns true with the stored name and address of the least live
company above the pair in the order by lowered name, then lowered address, if
there is a live company above the pair; otherwise it returns false and leaves
`name` and `addr` as they were.  What it returns with true is above the pair,
so for the pair of a live company it is never that company again. -/
theorem nextCompany_least_above (r : CVATRegister) (h : Reachable r) (name addr : Str) :
    ((∃ c ∈ r.sortedById, pairLess name addr c.name c.address) →
      ∃ c ∈ r.sortedById, pairLess name addr c.name c.address ∧
        (∀ d ∈ r.sortedById, pairLess name addr d.name d.address →
          d = c ∨ pairLess c.name c.address d.name d.address) ∧
        r.nextCompany name addr = (true, c.name, c.address)) ∧
    ((¬ ∃ c ∈ r.sortedById, pairLess name addr c.name c.address) →
      r.nextCompany name addr = (false, name, addr)) ∧
    (∀ name1 addr1, r.nextCompany name addr = (true, name1, addr1) →
      pairLess name addr name1 addr1 ∧ (name1, addr1) ≠ (name, addr)) ∧
    (∀ c ∈ r.sortedById, r.nextCompany c.name c.address ≠ (true, c.name, c.address)) := by
  have hr := reachable_inv h
  have key : ∀ n a n1 a1, r.nextCompany n a = (true, n1, a1) →
      pairLess n a n1 a1 ∧ (n1, a1) ≠ (n, a) := by
    intro n a n1 a1 he
    rcases nextCompany_cases hr n a with ⟨hf, _⟩ | ⟨c, _, hlt, _, ht⟩
    · rw [hf] at he
      exact absurd (Prod.mk.inj he).1 (by simp)
    · rw [ht] at he
      have hn : c.name = n1 := (Prod.mk.inj (Prod.mk.inj he).2).1
      have ha : c.address = a1 := (Prod.mk.inj (Prod.mk.inj he).2).2
      rw [hn, ha] at hlt
      refine ⟨hlt, ?_⟩
      intro hp
      rw [(Prod.mk.inj hp).1, (Prod.mk.inj hp).2] at hlt
      exact pairLess_irrefl n a hlt
  refine ⟨?_, ?_, key name addr, ?_⟩
  · rintro ⟨c, hc, hlt⟩
    rcases nextCompany_cases hr name addr with ⟨_, hno⟩ | hyes
    · exact absurd hlt (hno c hc)
    · exact hyes
  · intro hno
    rcases nextCompany_cases hr name addr with ⟨hf, _⟩ | ⟨c, hc, hlt, _⟩
    · exact hf
    · exact absurd ⟨c, hc, hlt⟩ hno
  · intro c _ he
    exact (key c.name c.address c.name c.address he).2 rfl

/-- The first two steps of `main` after `firstCompany`: from ACME, Kolejni to
ACME, Thakurova. -/
theorem nextCompany_least_above_witness :
    Reachable b1Register ∧
    b1Register.nextCompany "ACME".toList "Kolejni".toList ≠
      (true, "ACME".toList, "Kolejni".toList) ∧
    b1Register.nextCompany "ACME".toList "Kolejni".toList =
      (true, "ACME".toList, "Thakurova".toList) :=
  ⟨b1_reachable,
    (nextCompany_least_above b1Register b1_reachable "ACME".toList "Kolejni".toList).2.2.2
      acmeKolejni (by decide),
    by decide⟩

/-- C14: on a reachable registry `firstCompany` returns false, leaving `name`
and `addr` as they were, exactly when there is no live company; otherwise it
returns true with the name and address of the live company that is least in
the order by lowered name, then lowered address, and these are the name and
address a successful `newCompany` call was given, in every trace that leads
from the empty registry to this one. -/
theorem firstCompany_least (r : CVATRegister) (h : Reachable r) (name addr : Str) :
    ((r.firstCompany name addr).1 = false ↔ r.sortedById = []) ∧
    ((r.firstCompany name addr).1 = false → r.firstCompany name addr = (false, name, addr)) ∧
    (r.sortedById ≠ [] → ∃ c ∈ r.sortedById,
      (∀ d ∈ r.sortedById, d = c ∨ pairLess c.name c.address d.name d.address) ∧
      r.firstCompany name addr = (true, c.name, c.address) ∧
      ∀ calls flags, run empty calls = some (flags, r) →
        (Call.newCompany c.name c.address c.id, true) ∈ calls.zip flags) := by
  have hr := reachable_inv h
  cases hv : r.sortedByName with
  | nil =>
    have hid : r.sortedById = [] := by
      have := hr.perm
      rw [hv] at this
      exact this.eq_nil
    simp [firstCompany, hv, hid]
  | cons c l2 =>
    have hcid : c ∈ r.sortedById := by
      rw [← mem_sortedByName hr, hv]
      exact List.mem_cons_self _ _
    have hne : r.sortedById ≠ [] := List.ne_nil_of_mem hcid
    have hs := hr.byName
    rw [hv, List.pairwise_cons] at hs
    refine ⟨by simp [firstCompany, hv, hne], by simp [firstCompany, hv], ?_⟩
    intro _
    refine ⟨c, hcid, ?_, by simp [firstCompany, hv], ?_⟩
    · intro d hd
      rw [← mem_sortedByName hr, hv] at hd
      rcases List.mem_cons.1 hd with rfl | hd
      · exact Or.inl rfl
      · exact Or.inr ((compareFunction_iff_pairLess c d).1 (hs.1 d hd))
    · intro calls flags hrun
      rcases run_origin calls inv_empty hrun c hcid with ⟨c0, hc0, _⟩ | hz
      · exact absurd hc0 (by simp [empty])
      · exact hz

/-- The first company of `b1` is ACME, Kolejni, as `main` asserts. -/
theorem firstCompany_least_witness :
    Reachable b1Register ∧ b1Register.sortedById ≠ [] ∧
    ∃ c ∈ b1Register.sortedById,
      b1Register.firstCompany [] [] = (true, c.name, c.address) ∧
      (Call.newCompany c.name c.address c.id, true) ∈
        b1Calls.zip [true, true, true, true, true, true, true] := by
  obtain ⟨c, hc, _, h1, h2⟩ :=
    (firstCompany_least b1Register b1_reachable [] []).2.2 (by decide)
  exact ⟨b1_reachable, by decide, c, hc, h1, h2 _ _ b1_run⟩

/-- C15: on a reachable registry with `m` live companies a traversal,
`firstCompany` and then `nextCompany` fed with the pair returned last for as
long as it returns true, collects exactly `m` pairs: the stored name and
address of every live company, each once, strictly ascending in the order by
lowered name, then lowered address; and `nextCompany` called with the last
pair collected returns false. -/
theorem traverse_lists_all (r : CVATRegister) (h : Reachable r) (fuel : Nat)
    (hf : r.sortedById.length ≤ fuel) :
    (traverse r fuel).length = r.sortedById.length ∧
    (r.sortedById.map (fun c => (c.name, c.address))).Perm (traverse r fuel) ∧
    (traverse r fuel).Nodup ∧
    (traverse r fuel).Pairwise (fun p q => pairLess p.1 p.2 q.1 q.2) ∧
    (∀ init p, traverse r fuel = init ++ [p] →
      r.nextCompany p.1 p.2 = (false, p.1, p.2)) ∧
    (r.sortedById = [] → r.firstCompany [] [] = (false, [], [])) := by
  have hr := reachable_inv h
  have ht := traverse_eq hr fuel hf
  have hsorted : (r.sortedByName.map (fun c => (c.name, c.address))).Pairwise
      (fun p q => pairLess p.1 p.2 q.1 q.2) := by
    rw [List.pairwise_map]
    exact hr.byName.imp (fun hab => (compareFunction_iff_pairLess _ _).1 hab)
  refine ⟨?_, ?_, ?_, ?_, ?_, ?_⟩
  · rw [ht, List.length_map, hr.perm.length_eq]
  · rw [ht]
    exact hr.perm.map _
  · rw [ht]
    refine hsorted.imp ?_
    intro p q hlt he
    rw [he] at hlt
    exact pairLess_irrefl _ _ hlt
  · rw [ht]
    exact hsorted
  · intro init p hp
    rw [ht] at hp
    obtain ⟨l1, l2, hv, _, h2⟩ := List.map_eq_append_iff.1 hp
    obtain ⟨c, hl2, hc⟩ : ∃ c, l2 = [c] ∧ (c.name, c.address) = p := by
      cases l2 with
      | nil => simp at h2
      | cons c l2 =>
        cases l2 with
        | nil => exact ⟨c, rfl, by simpa using h2⟩
        | cons d l2 => simp at h2
    rw [hl2] at hv
    rw [← hc]
    exact nextCompany_at hr hv
  · intro hnil
    have : r.sortedByName = [] := by
      have := hr.perm
      rw [hnil] at this
      exact this.symm.eq_nil
    simp [firstCompany, this]

/-- The traversal of `b1` in `main`: three companies, then not found. -/
theorem traverse_lists_all_witness :
    Reachable b1Register ∧ b1Register.sortedById.length ≤ 3 ∧
    traverse b1Register 3 =
      [("ACME".toList, "Kolejni".toList), ("ACME".toList, "Thakurova".toList),
        ("Dummy".toList, "Thakurova".toList)] ∧
    b1Register.nextCompany "Dummy".toList "Thakurova".toList =
      (false, "Dummy".toList, "Thakurova".toList) :=
  ⟨b1_reachable, by decide, by decide,
    (traverse_lists_all b1Register b1_reachable 3 (by decide)).2.2.2.2.1
      [("ACME".toList, "Kolejni".toList), ("ACME".toList, "Thakurova".toList)]
      ("Dummy".toList, "Thakurova".toList) (by decide)⟩

/-! ## The median as an order statistic, and the income modulo `2 ^ 32` -/

/-- The sorted copy of a non-empty history splits at the median: `size / 2`
amounts not above it before it, the amounts not below it after it. -/
theorem median_split (r : CVATRegister) (hne : r.invoices ≠ []) :
    ∃ l1 l2, sort r.invoices = l1 ++ r.medianInvoice :: l2 ∧
      l1.length = r.invoices.length / 2 ∧ (∀ a ∈ l1, a ≤ r.medianInvoice) ∧
      (∀ b ∈ l2, r.medianInvoice ≤ b) := by
  have hs : (sort r.invoices).Sorted (· ≤ ·) := List.sorted_insertionSort _ _
  have hp : (sort r.invoices).Perm r.invoices := List.perm_insertionSort _ _
  have hlen : (sort r.invoices).length = r.invoices.length := hp.length_eq
  have hpos : 0 < r.invoices.length := List.length_pos.2 hne
  have hmid : r.invoices.length / 2 < (sort r.invoices).length := by omega
  have hmed : r.medianInvoice = (sort r.invoices)[r.invoices.length / 2] := by
    have hemp : r.invoices.isEmpty = false := by
      cases hi : r.invoices with
      | nil => exact absurd hi hne
      | cons _ _ => rfl
    simp only [medianInvoice, hemp, ite_self, Bool.false_eq_true, if_false]
    exact List.getD_eq_getElem _ _ hmid
  have hsplit : sort r.invoices =
      (sort r.invoices).take (r.invoices.length / 2) ++
        r.medianInvoice :: (sort r.invoices).drop (r.invoices.length / 2 + 1) := by
    rw [hmed, ← List.drop_eq_getElem_cons hmid, List.take_append_drop]
  have hsorted := hs
  rw [List.Sorted, hsplit, List.pairwise_append, List.pairwise_cons] at hsorted
  exact ⟨_, _, hsplit, List.length_take_of_le (Nat.le_of_lt hmid),
    fun a ha => hsorted.2.2 a ha _ (List.mem_cons_self _ _), hsorted.2.1.1⟩

/-- C24: for every non-empty history of `n` amounts the value `m` of
`medianInvoice` occurs in the history, at most `n / 2` recorded amounts are
below `m`, and more than `n / 2` recorded amounts are at most `m`; `m` is the
only number with these two counts, so it is determined by the multiset of the
amounts: registries whose histories are permutations of each other have the
same median. -/
theorem medianInvoice_by_counts (r : CVATRegister) (hne : r.invoices ≠ []) :
    r.medianInvoice ∈ r.invoices ∧
    r.invoices.countP (fun a => decide (a < r.medianInvoice)) ≤ r.invoices.length / 2 ∧
    r.invoices.length / 2 < r.invoices.countP (fun a => decide (a ≤ r.medianInvoice)) ∧
    (∀ m : Nat, r.invoices.countP (fun a => decide (a < m)) ≤ r.invoices.length / 2 →
      r.invoices.length / 2 < r.invoices.countP (fun a => decide (a ≤ m)) →
      m = r.medianInvoice) ∧
    (∀ r2 : CVATRegister, r.invoices.Perm r2.invoices →
      r2.medianInvoice = r.medianInvoice) := by
  obtain ⟨l1, l2, hsplit, hl1, hlow, hhigh⟩ := median_split r hne
  have hp : (sort r.invoices).Perm r.invoices := List.perm_insertionSort _ _
  have hcount : ∀ p : Nat → Bool, r.invoices.countP p =
      l1.countP p + (r.medianInvoice :: l2).countP p := by
    intro p
    rw [← hp.countP_eq p, hsplit, List.countP_append]
  have hall : ∀ p : Nat → Bool, (∀ a ∈ l1, p a = true) → l1.countP p = r.invoices.length / 2 :=
    fun p hpa => (List.countP_eq_length.2 hpa).trans hl1
  have hle1 : ∀ p : Nat → Bool, l1.countP p ≤ r.invoices.length / 2 := by
    intro p
    rw [← hl1]
    exact List.countP_le_length p
  have hrest : ∀ b ∈ r.medianInvoice :: l2, r.medianInvoice ≤ b := by
    intro b hb
    rcases List.mem_cons.1 hb with rfl | hb
    · exact le_refl _
    · exact hhigh b hb
  refine ⟨?_, ?_, ?_, ?_, ?_⟩
  · rw [← hp.mem_iff, hsplit]
    exact List.mem_append_right _ (List.mem_cons_self _ _)
  · have hc := hcount (fun a => decide (a < r.medianInvoice))
    have h2 : (r.medianInvoice :: l2).countP (fun a => decide (a < r.medianInvoice)) = 0 :=
      List.countP_eq_zero.2 (fun b hb => by
        have := hrest b hb
        simp only [decide_eq_true_eq, not_lt]
        exact this)
    have h1 := hle1 (fun a => decide (a < r.medianInvoice))
    omega
  · have hc := hcount (fun a => decide (a ≤ r.medianInvoice))
    have h1 := hall (fun a => decide (a ≤ r.medianInvoice))
      (fun a ha => decide_eq_true (hlow a ha))
    have h2 : 0 < (r.medianInvoice :: l2).countP (fun a => decide (a ≤ r.medianInvoice)) :=
      List.countP_pos_iff.2 ⟨_, List.mem_cons_self _ _, decide_eq_true (le_refl _)⟩
    omega
  · intro m hm1 hm2
    rcases lt_trichotomy m r.medianInvoice with hlt | heq | hgt
    · exfalso
      have hc := hcount (fun a => decide (a ≤ m))
      have h2 : (r.medianInvoice :: l2).countP (fun a => decide (a ≤ m)) = 0 :=
        List.countP_eq_zero.2 (fun b hb => by
          have := hrest b hb
          simp only [decide_eq_true_eq, not_le]
          omega)
      have h1 := hle1 (fun a => decide (a ≤ m))
      omega
    · exact heq
    · exfalso
      have hc := hcount (fun a => decide (a < m))
      have h1 := hall (fun a => decide (a < m))
        (fun a ha => decide_eq_true (lt_of_le_of_lt (hlow a ha) hgt))
      have h2 : 0 < (r.medianInvoice :: l2).countP (fun a => decide (a < m)) :=
        List.countP_pos_iff.2 ⟨_, List.mem_cons_self _ _, decide_eq_true hgt⟩
      omega
  · intro r2 hperm
    have hsort : sort r2.invoices = sort r.invoices :=
      List.eq_of_perm_of_sorted
        (((List.perm_insertionSort _ _).trans hperm.symm).trans (List.perm_insertionSort _ _).symm)
        (List.sorted_insertionSort _ _) (List.sorted_insertionSort _ _)
    have hne2 : r2.invoices ≠ [] := fun h => hne (by
      rw [h] at hperm
      exact hperm.eq_nil)
    have he1 : r.invoices.isEmpty = false := by
      cases hi : r.invoices with
      | nil => exact absurd hi hne
      | cons _ _ => rfl
    have he2 : r2.invoices.isEmpty = false := by
      cases hi : r2.invoices with
      | nil => exact absurd hi hne2
      | cons _ _ => rfl
    simp only [medianInvoice, he1, he2, hsort, hperm.length_eq]

/-- The history of `b1` in `main` when the median is asserted to be 830, and
the same amounts in ascending order. -/
theorem medianInvoice_by_counts_witness :
    ({ sortedById := [], sortedByName := [],
       invoices := [2000, 3000, 4000, 5000, 100, 300, 200, 230, 830] } :
      CVATRegister).medianInvoice = 830 ∧
    ({ sortedById := [], sortedByName := [],
       invoices := [100, 200, 230, 300, 830, 2000, 3000, 4000, 5000] } :
      CVATRegister).medianInvoice =
    ({ sortedById := [], sortedByName := [],
       invoices := [2000, 3000, 4000, 5000, 100, 300, 200, 230, 830] } :
      CVATRegister).medianInvoice :=
  ⟨by decide,
    (medianInvoice_by_counts
      { sortedById := [], sortedByName := [],
        invoices := [2000, 3000, 4000, 5000, 100, 300, 200, 230, 830] } (by decide)).2.2.2.2
      { sortedById := [], sortedByName := [],
        invoices := [100, 200, 230, 300, 830, 2000, 3000, 4000, 5000] } (by decide)⟩

/-- C25: let a company be inserted by a successful `newCompany` on a reachable
registry, and let any calls follow that do not cancel it.  Then `audit`, by id
and by name and address, returns true with `(a1 + ... + aN) mod 2 ^ 32`, where
`a1 .. aN` are the amounts of the successful `invoice` calls that named it, and
the record of the company in `sortedById` and the one in `sortedByName` both
carry this value as income. -/
theorem income_mod_in_both_vectors (r0 : CVATRegister) (h : Reachable r0)
    (name addr taxID : Str) (r1 : CVATRegister)
    (hnew : r0.newCompany name addr taxID = (true, r1))
    (calls : List Call) (flags : List Bool) (r2 : CVATRegister)
    (hrun : run r1 calls = some (flags, r2))
    (hlive : ∀ cl ∈ calls, cl.isCancel = true → cl.addresses name addr taxID = false)
    (sumIncome : Nat) :
    r2.auditById taxID sumIncome =
      some (true, (creditsOf name addr taxID calls flags).sum % UINT_RANGE) ∧
    r2.auditByName name addr sumIncome =
      some (true, (creditsOf name addr taxID calls flags).sum % UINT_RANGE) ∧
    (∃ c ∈ r2.sortedById, c.id = taxID) ∧ (∃ c ∈ r2.sortedByName, c.id = taxID) ∧
    (∀ c ∈ r2.sortedById, c.id = taxID →
      c.income = (creditsOf name addr taxID calls flags).sum % UINT_RANGE) ∧
    (∀ c ∈ r2.sortedByName, c.id = taxID →
      c.income = (creditsOf name addr taxID calls flags).sum % UINT_RANGE) := by
  obtain ⟨hr1, hx, _, _, _⟩ := newCompany_true (reachable_inv h) hnew
  obtain ⟨c2, hc2, hn2, ha2, hk2, hi2, hr2⟩ :=
    run_credit calls hr1 hx (show 0 < UINT_RANGE by decide) hlive hrun
  simp only [Nat.zero_add] at hi2
  have hid := auditById_found hr2 hc2 sumIncome
  have hna := auditByName_found hr2 hc2
    (⟨by rw [hn2], by rw [ha2]⟩ : sameNameAddr c2 name addr) sumIncome
  rw [hk2, hi2] at hid
  rw [hi2] at hna
  have hone : ∀ c ∈ r2.sortedById, c.id = taxID →
      c.income = (creditsOf name addr taxID calls flags).sum % UINT_RANGE := by
    intro c hc hk
    rw [key_inj idLess_keyOrder _ hr2.byId hc hc2 (hk.trans hk2.symm), hi2]
  exact ⟨hid, hna, ⟨c2, hc2, hk2⟩, ⟨c2, (mem_sortedByName hr2).2 hc2, hk2⟩, hone,
    fun c hc hk => hone c ((mem_sortedByName hr2).1 hc) hk⟩

/-- The company of `wrappedRegister` after invoices of `2 ^ 32 - 1` and 1: both
records carry the income 0. -/
theorem income_mod_in_both_vectors_witness :
    Reachable empty ∧
    (∀ c ∈ wrappedRegister.sortedById, c.id = "1".toList → c.income = 0) ∧
    (∀ c ∈ wrappedRegister.sortedByName, c.id = "1".toList → c.income = 0) := by
  have hw := income_mod_in_both_vectors empty Reachable.empty "ACME".toList "Kolejni".toList
    "1".toList freshRegister (by decide) wrapCalls [true, true] wrappedRegister (by decide)
    (by decide) 0
  have hsum : (creditsOf "ACME".toList "Kolejni".toList "1".toList wrapCalls
      [true, true]).sum % UINT_RANGE = 0 := by decide
  rw [hsum] at hw
  exact ⟨Reachable.empty, hw.2.2.2.2.1, hw.2.2.2.2.2⟩

end CVATRegister

namespace CDate

/-! ## The calendar -/

theorem tmod_eq_zero_iff (a b : Int) : a.tmod b = 0 ↔ a % b = 0 := by
  rw [← Int.dvd_iff_tmod_eq_zero, Int.dvd_iff_emod_eq_zero]

theorem isLeapYear_iff (year : Int) :
    isLeapYear year = true ↔ year % 4 = 0 ∧ (year % 100 ≠ 0 ∨ year % 400 = 0) := by
  simp only [isLeapYear, ne_eq, tmod_eq_zero_iff]
  split_ifs <;> simp_all

theorem isLeapYear_iff_dvd (year : Int) :
    isLeapYear year = true ↔ (4 ∣ year ∧ ¬ 100 ∣ year) ∨ 400 ∣ year := by
  rw [isLeapYear_iff]
  simp only [Int.dvd_iff_emod_eq_zero]
  omega

theorem daysInMonth_eq_calendarDays (month year : Int) (h1 : 1 ≤ month) (h2 : month ≤ 12) :
    daysInMonth month year = calendarDays month year := by
  have hleap := isLeapYear_iff_dvd year
  simp only [daysInMonth, calendarDays]
  by_cases hl : isLeapYear year = true
  · have := hleap.1 hl
    split_ifs <;> first | rfl | omega
  · have := fun h => hl (hleap.2 h)
    split_ifs <;> first | rfl | omega

theorem daysInMonth_bounds (month year : Int) (h1 : 1 ≤ month) (h2 : month ≤ 12) :
    28 ≤ daysInMonth month year ∧ daysInMonth month year ≤ 31 := by
  simp only [daysInMonth]
  split_ifs <;> omega

theorem validDate_iff (date : CDate) :
    validDate date = true ↔
      1 ≤ date.month ∧ date.month ≤ 12 ∧ 1 ≤ date.day ∧
        date.day ≤ daysInMonth date.month date.year := by
  simp [validDate, and_assoc]

theorem new_eq_some {year month day : Int} {d : CDate} (h : CDate.new year month day = some d) :
    d = { year := year, month := month, day := day } ∧ validDate d = true ∧
      2000 ≤ year ∧ year ≤ 2030 := by
  simp only [CDate.new] at h
  split_ifs at h with hc
  simp only [Option.some.injEq] at h
  subst h
  simp only [Bool.not_eq_true', Bool.and_eq_false_imp, Bool.and_eq_true, decide_eq_true_eq,
    decide_eq_false_iff_not, not_le, ge_iff_le] at hc
  refine ⟨rfl, ?_, ?_, ?_⟩
  · rw [validDate_iff]
    simp only
    by_contra hcon
    simp only [not_and_or, not_le] at hcon
    omega
  · by_contra hcon
    omega
  · by_contra hcon
    omega


/-! ## The line of days -/

theorem yearStart_succ (year : Int) :
    yearStart (year + 1) = yearStart year + (if isLeapYear year then 366 else 365) := by
  have hleap := isLeapYear_iff year
  have h4 : year / 4 = (year - 1) / 4 + (if year % 4 = 0 then 1 else 0) := by
    split_ifs <;> omega
  have h100 : year / 100 = (year - 1) / 100 + (if year % 100 = 0 then 1 else 0) := by
    split_ifs <;> omega
  have h400 : year / 400 = (year - 1) / 400 + (if year % 400 = 0 then 1 else 0) := by
    split_ifs <;> omega
  have i100 : year % 100 = 0 → year % 4 = 0 := by omega
  have i400 : year % 400 = 0 → year % 100 = 0 := by omega
  simp only [yearStart, Int.add_sub_cancel, h4, h100, h400]
  by_cases hl : isLeapYear year = true
  · have := hleap.1 hl
    rw [if_pos hl]
    split_ifs <;> omega
  · have hn : ¬ (year % 4 = 0 ∧ (year % 100 ≠ 0 ∨ year % 400 = 0)) := fun h => hl (hleap.2 h)
    rw [if_neg hl]
    split_ifs <;> omega

theorem yearStart_mono {a b : Int} (h : a ≤ b) : yearStart a ≤ yearStart b := by
  simp only [yearStart]
  omega

theorem monthStart_one (year : Int) : monthStart 1 year = 0 := by
  simp [monthStart]

theorem monthStart_thirteen (year : Int) :
    monthStart 13 year = if isLeapYear year then 366 else 365 := by
  simp only [monthStart]
  norm_num
  split_ifs <;> rfl

theorem monthStart_succ (month year : Int) (h1 : 1 ≤ month) (h2 : month ≤ 12) :
    monthStart (month + 1) year = monthStart month year + daysInMonth month year := by
  have hcases : month = 1 ∨ month = 2 ∨ month = 3 ∨ month = 4 ∨ month = 5 ∨ month = 6 ∨
      month = 7 ∨ month = 8 ∨ month = 9 ∨ month = 10 ∨ month = 11 ∨ month = 12 := by omega
  rcases hcases with h | h | h | h | h | h | h | h | h | h | h | h <;> subst h <;>
    norm_num [monthStart, daysInMonth] <;> split_ifs <;> omega

theorem monthStart_le_add (year : Int) (k : Nat) :
    ∀ a : Int, 1 ≤ a → a + k ≤ 13 → monthStart a year ≤ monthStart (a + k) year := by
  induction k with
  | zero => intro a _ _; simp
  | succ k ih =>
    intro a h1 h2
    have hstep := monthStart_succ (a + k) year (by omega) (by omega)
    have hdim := daysInMonth_bounds (a + k) year (by omega) (by omega)
    have := ih a h1 (by omega)
    rw [show a + ((k + 1 : Nat) : Int) = a + k + 1 by push_cast; ring, hstep]
    omega

theorem monthStart_mono (year : Int) {a b : Int} (h1 : 1 ≤ a) (h2 : a ≤ b) (h3 : b ≤ 13) :
    monthStart a year ≤ monthStart b year := by
  have := monthStart_le_add year (b - a).toNat a h1 (by omega)
  rwa [show a + ((b - a).toNat : Int) = b by omega] at this

/-- A valid date lies in its month: after the last day of the month before, not
after the last day of the month. -/
theorem dayNumber_in_month {date : CDate} (h : validDate date = true) :
    yearStart date.year + monthStart date.month date.year < dayNumber date ∧
      dayNumber date ≤ yearStart date.year + monthStart (date.month + 1) date.year := by
  rw [validDate_iff] at h
  rw [monthStart_succ _ _ h.1 h.2.1]
  simp only [dayNumber]
  omega

theorem year_not_lt {x y : CDate} (hx : validDate x = true) (hy : validDate y = true)
    (h : dayNumber x = dayNumber y) : ¬ x.year < y.year := by
  intro hlt
  have ix := dayNumber_in_month hx
  have iy := dayNumber_in_month hy
  rw [validDate_iff] at hx hy
  have h13 := monthStart_mono x.year (by omega : (1 : Int) ≤ x.month + 1)
    (by omega : x.month + 1 ≤ 13) (le_refl _)
  have hs := yearStart_succ x.year
  rw [← monthStart_thirteen] at hs
  have hm := yearStart_mono (by omega : x.year + 1 ≤ y.year)
  have h0 := monthStart_mono y.year (le_refl (1 : Int)) hy.1 (by omega : y.month ≤ 13)
  rw [monthStart_one] at h0
  omega

theorem month_not_lt {x y : CDate} (hx : validDate x = true) (hy : validDate y = true)
    (hyear : x.year = y.year) (h : dayNumber x = dayNumber y) : ¬ x.month < y.month := by
  intro hlt
  have ix := dayNumber_in_month hx
  have iy := dayNumber_in_month hy
  rw [validDate_iff] at hx hy
  have hm := monthStart_mono x.year (by omega : (1 : Int) ≤ x.month + 1)
    (by omega : x.month + 1 ≤ y.month) (by omega : y.month ≤ 13)
  rw [hyear] at ix hm
  omega

/-- Two valid dates at the same position on the line of days are equal. -/
theorem dayNumber_injective {a b : CDate} (ha : validDate a = true) (hb : validDate b = true)
    (h : dayNumber a = dayNumber b) : a = b := by
  have hyear : a.year = b.year :=
    le_antisymm (not_lt.1 (year_not_lt hb ha h.symm)) (not_lt.1 (year_not_lt ha hb h))
  have hmonth : a.month = b.month :=
    le_antisymm (not_lt.1 (month_not_lt hb ha hyear.symm h.symm))
      (not_lt.1 (month_not_lt ha hb hyear h))
  have hday : a.day = b.day := by
    simp only [dayNumber, hyear, hmonth] at h
    omega
  cases a
  cases b
  simp only at hyear hmonth hday
  rw [hyear, hmonth, hday]


/-! ## The loop of `operator +` -/

theorem loopBody_of_lt (x : CDate) (hd : x.day < 1) :
    loopBody x =
      if x.month - 1 = 0 then
        { year := x.year - 1, month := 12, day := x.day + daysInMonth 12 (x.year - 1) }
      else { year := x.year, month := x.month - 1,
             day := x.day + daysInMonth (x.month - 1) x.year } := by
  simp only [loopBody, hd, if_true]
  by_cases hm : x.month - 1 = 0
  · simp only [hm, if_true]
    rw [if_neg (by omega)]
  · simp only [hm, if_false]
    rw [if_neg (by omega)]

theorem loopBody_of_ge (x : CDate) (hd : ¬ x.day < 1)
    (hv : x.day > daysInMonth x.month x.year) :
    loopBody x =
      if x.month + 1 = 13 then
        { year := x.year + 1, month := 1, day := x.day - daysInMonth x.month x.year }
      else { year := x.year, month := x.month + 1,
             day := x.day - daysInMonth x.month x.year } := by
  simp only [loopBody, hd, if_false, hv, if_true]

/-- One pass from a position before the month: the month before is entered,
the position on the line of days stays, the day grows by at least 28 and does
not pass the end of the month entered. -/
theorem loopBody_back (x : CDate) (h1 : 1 ≤ x.month) (h2 : x.month ≤ 12) (hd : x.day < 1) :
    1 ≤ (loopBody x).month ∧ (loopBody x).month ≤ 12 ∧
      dayNumber (loopBody x) = dayNumber x ∧ x.day + 28 ≤ (loopBody x).day ∧
      (loopBody x).day ≤ daysInMonth (loopBody x).month (loopBody x).year := by
  rw [loopBody_of_lt x hd]
  by_cases hm : x.month - 1 = 0
  · rw [if_pos hm]
    have hmonth : x.month = 1 := by omega
    have hs := yearStart_succ (x.year - 1)
    rw [← monthStart_thirteen, show x.year - 1 + 1 = x.year by omega] at hs
    have hstep := monthStart_succ 12 (x.year - 1) (by omega) (by omega)
    have hdim := daysInMonth_bounds 12 (x.year - 1) (by omega) (by omega)
    norm_num at hstep
    simp only [dayNumber, hmonth, monthStart_one]
    omega
  · rw [if_neg hm]
    have hstep := monthStart_succ (x.month - 1) x.year (by omega) (by omega)
    have hdim := daysInMonth_bounds (x.month - 1) x.year (by omega) (by omega)
    rw [show x.month - 1 + 1 = x.month by omega] at hstep
    simp only [dayNumber]
    omega

/-- One pass from a position after the month: the month after is entered, the
position on the line of days stays, the day shrinks by at least 28 and stays
positive. -/
theorem loopBody_forth (x : CDate) (h1 : 1 ≤ x.month) (h2 : x.month ≤ 12) (hd : ¬ x.day < 1)
    (hv : x.day > daysInMonth x.month x.year) :
    1 ≤ (loopBody x).month ∧ (loopBody x).month ≤ 12 ∧
      dayNumber (loopBody x) = dayNumber x ∧ (loopBody x).day + 28 ≤ x.day ∧
      1 ≤ (loopBody x).day := by
  rw [loopBody_of_ge x hd hv]
  have hstep := monthStart_succ x.month x.year h1 h2
  have hdim := daysInMonth_bounds x.month x.year h1 h2
  by_cases hm : x.month + 1 = 13
  · rw [if_pos hm]
    have hs := yearStart_succ x.year
    rw [← monthStart_thirteen] at hs
    rw [hm] at hstep
    simp only [dayNumber, monthStart_one]
    omega
  · rw [if_neg hm]
    simp only [dayNumber]
    omega

/-- A valid date is a fixed point of the loop, whatever the bound. -/
theorem whileLoop_valid (fuel : Nat) (x : CDate) (h : validDate x = true) :
    whileLoop fuel x = x := by
  cases fuel with
  | zero => rfl
  | succ fuel => simp [whileLoop, h]

/-- With a bound of at least `|day| + 1` passes the loop ends because the date
is valid, at the same position on the line of days. -/
theorem whileLoop_spec (fuel : Nat) :
    ∀ x : CDate, 1 ≤ x.month → x.month ≤ 12 → x.day.natAbs + 1 ≤ fuel →
      validDate (whileLoop fuel x) = true ∧ dayNumber (whileLoop fuel x) = dayNumber x := by
  induction fuel with
  | zero => intro x _ _ h; omega
  | succ fuel ih =>
    intro x h1 h2 hf
    simp only [whileLoop]
    by_cases hv : validDate x = true
    · rw [if_pos hv]
      exact ⟨hv, rfl⟩
    · rw [if_neg hv]
      have hnv : ¬ (1 ≤ x.month ∧ x.month ≤ 12 ∧ 1 ≤ x.day ∧
          x.day ≤ daysInMonth x.month x.year) := fun h => hv ((validDate_iff x).2 h)
      by_cases hd : x.day < 1
      · obtain ⟨m1, m2, hnum, hgrow, hend⟩ := loopBody_back x h1 h2 hd
        by_cases hpos : 1 ≤ (loopBody x).day
        · have hval : validDate (loopBody x) = true :=
            (validDate_iff _).2 ⟨m1, m2, hpos, hend⟩
          rw [whileLoop_valid fuel _ hval]
          exact ⟨hval, hnum⟩
        · obtain ⟨hval, hsame⟩ := ih (loopBody x) m1 m2 (by omega)
          exact ⟨hval, hsame.trans hnum⟩
      · have hgt : x.day > daysInMonth x.month x.year := by
          by_contra hle
          exact hnv ⟨h1, h2, by omega, by omega⟩
        obtain ⟨m1, m2, hnum, hshrink, hpos⟩ := loopBody_forth x h1 h2 hd hgt
        obtain ⟨hval, hsame⟩ := ih (loopBody x) m1 m2 (by omega)
        exact ⟨hval, hsame.trans hnum⟩

/-- The bound on the passes is never reached: every bound from `|day| + 1` on
gives the same date. -/
theorem whileLoop_fuel (fuel1 : Nat) :
    ∀ (fuel2 : Nat) (x : CDate), 1 ≤ x.month → x.month ≤ 12 → x.day.natAbs + 1 ≤ fuel1 →
      x.day.natAbs + 1 ≤ fuel2 → whileLoop fuel1 x = whileLoop fuel2 x := by
  intro fuel2 x h1 h2 hf1 hf2
  exact dayNumber_injective (whileLoop_spec fuel1 x h1 h2 hf1).1
    (whileLoop_spec fuel2 x h1 h2 hf2).1
    ((whileLoop_spec fuel1 x h1 h2 hf1).2.trans (whileLoop_spec fuel2 x h1 h2 hf2).2.symm)

/-- Adding days to a date the constructor accepts: the constructor inside
`operator +` does not throw, the loop ends, and the result is the valid date
`rhs` days further on the line of days. -/
theorem plus_spec {d : CDate} (hv : validDate d = true) (hy1 : 2000 ≤ d.year)
    (hy2 : d.year ≤ 2030) (rhs : Int) :
    ∃ e, d.plus rhs = some e ∧ validDate e = true ∧ dayNumber e = dayNumber d + rhs := by
  have hvi := (validDate_iff d).1 hv
  have hnew : CDate.new d.year d.month d.day = some d := by
    simp only [CDate.new]
    rw [if_neg]
    simp only [Bool.not_eq_true', Bool.and_eq_false_imp, Bool.and_eq_true, decide_eq_true_eq,
      decide_eq_false_iff_not, not_le, ge_iff_le, not_forall, not_lt, exists_prop]
    omega
  obtain ⟨hval, hnum⟩ := whileLoop_spec ((d.day + rhs).natAbs + 1)
    { d with day := d.day + rhs } hvi.1 hvi.2.1 (le_refl _)
  refine ⟨_, by simp only [plus, hnew, Option.bind_eq_bind, Option.some_bind], hval, ?_⟩
  rw [hnum]
  simp only [dayNumber]
  omega

/-- Adding days to a date of a year outside 2000 to 2030 throws. -/
theorem plus_throws {d : CDate} (hy : d.year < 2000 ∨ 2030 < d.year) (rhs : Int) :
    d.plus rhs = none := by
  have hnew : CDate.new d.year d.month d.day = none := by
    simp only [CDate.new]
    rw [if_pos]
    simp only [Bool.not_eq_true', Bool.and_eq_false_imp, Bool.and_eq_true, decide_eq_true_eq,
      decide_eq_false_iff_not, not_le, ge_iff_le]
    omega
  simp [plus, hnew]


/-! ## Construction -/

/-- C18: `CDate (year, month, day)` constructs the date holding exactly these
three values if and only if `2000 ≤ year ≤ 2030`, `1 ≤ month ≤ 12` and
`1 ≤ day ≤` the number of days of the month in the year, February having 29
days exactly when the year is divisible by 4 and not by 100, or divisible by
400; for every other triple it throws `InvalidDateException`. -/
theorem new_iff_calendar (year month day : Int) :
    (CDate.new year month day = some { year := year, month := month, day := day } ↔
      2000 ≤ year ∧ year ≤ 2030 ∧ 1 ≤ month ∧ month ≤ 12 ∧ 1 ≤ day ∧
        day ≤ calendarDays month year) ∧
    (¬ (2000 ≤ year ∧ year ≤ 2030 ∧ 1 ≤ month ∧ month ≤ 12 ∧ 1 ≤ day ∧
        day ≤ calendarDays month year) → CDate.new year month day = none) ∧
    (∀ d, CDate.new year month day = some d →
      d = { year := year, month := month, day := day }) := by
  have key : CDate.new year month day =
      if 2000 ≤ year ∧ year ≤ 2030 ∧ 1 ≤ month ∧ month ≤ 12 ∧ 1 ≤ day ∧
        day ≤ calendarDays month year
      then some { year := year, month := month, day := day } else none := by
    by_cases hm : 1 ≤ month ∧ month ≤ 12
    · rw [← daysInMonth_eq_calendarDays month year hm.1 hm.2]
      simp only [CDate.new]
      by_cases hc : 2000 ≤ year ∧ year ≤ 2030 ∧ 1 ≤ month ∧ month ≤ 12 ∧ 1 ≤ day ∧
          day ≤ daysInMonth month year
      · rw [if_pos hc, if_neg]
        simp only [Bool.not_eq_true', Bool.and_eq_false_imp, Bool.and_eq_true,
          decide_eq_true_eq, decide_eq_false_iff_not, not_le, ge_iff_le, not_forall, not_lt,
          exists_prop]
        omega
      · rw [if_neg hc, if_pos]
        simp only [Bool.not_eq_true', Bool.and_eq_false_imp, Bool.and_eq_true,
          decide_eq_true_eq, decide_eq_false_iff_not, not_le, ge_iff_le]
        omega
    · rw [if_neg (fun h => hm ⟨h.2.2.1, h.2.2.2.1⟩)]
      simp only [CDate.new]
      rw [if_pos]
      simp only [Bool.not_eq_true', Bool.and_eq_false_imp, Bool.and_eq_true,
        decide_eq_true_eq, decide_eq_false_iff_not, not_le, ge_iff_le]
      omega
  rw [key]
  refine ⟨?_, ?_, ?_⟩
  · split_ifs with hc
    · exact ⟨fun _ => hc, fun _ => rfl⟩
    · exact ⟨fun h => absurd h (by simp), fun h => absurd h hc⟩
  · intro hc
    rw [if_neg hc]
  · intro d hd
    split_ifs at hd
    exact (Option.some.inj hd).symm

/-- The constructor calls of `main` and the February cases: month 32 throws,
2000-02-29 is constructed, 2001-02-29 throws. -/
theorem new_iff_calendar_witness :
    CDate.new 2000 32 1 = none ∧
    CDate.new 2000 2 29 = some { year := 2000, month := 2, day := 29 } ∧
    CDate.new 2001 2 29 = none :=
  ⟨(new_iff_calendar 2000 32 1).2.1 (by decide),
    (new_iff_calendar 2000 2 29).1.2 (by decide),
    (new_iff_calendar 2001 2 29).2.1 (by decide)⟩

/-! ## Day arithmetic -/

theorem forLoop_years (passes : Nat) :
    ∀ i result : Int, forLoop (fun i => if isLeapYear i then 366 else 365) passes i result =
      result + yearStart (i + passes) - yearStart i := by
  induction passes with
  | zero => intro i result; simp [forLoop]
  | succ passes ih =>
    intro i result
    have hs := yearStart_succ i
    simp only [forLoop, ih]
    rw [show i + ((passes + 1 : Nat) : Int) = i + 1 + passes by push_cast; ring]
    omega

theorem forLoop_months (year : Int) (passes : Nat) :
    ∀ i result : Int, 1 ≤ i → i + passes ≤ 13 →
      forLoop (fun i => daysInMonth i year) passes i result =
        result + monthStart (i + passes) year - monthStart i year := by
  induction passes with
  | zero => intro i result _ _; simp [forLoop]
  | succ passes ih =>
    intro i result h1 h2
    have hs := monthStart_succ i year h1 (by omega)
    simp only [forLoop]
    rw [ih (i + 1) _ (by omega) (by omega),
      show i + ((passes + 1 : Nat) : Int) = i + 1 + passes by push_cast; ring]
    omega

/-- From the year 2000 on `daysFromStart` is the position on the line of days,
counted from the day before 2000-01-01. -/
theorem daysFromStart_eq {date : CDate} (hv : validDate date = true) (hy : 2000 ≤ date.year) :
    daysFromStart date = dayNumber date - yearStart 2000 := by
  rw [validDate_iff] at hv
  simp only [daysFromStart, forLoop_years,
    forLoop_months date.year _ 1 _ (le_refl _) (by omega : (1 : Int) + ((date.month - 1).toNat : Nat) ≤ 13),
    dayNumber, monthStart_one]
  rw [show (2000 : Int) + ((date.year - 2000).toNat : Nat) = date.year by omega,
    show (1 : Int) + ((date.month - 1).toNat : Nat) = date.month by omega]
  omega

/-- Where the result of `operator +` is not before the year 2000 the
difference to the date added to is the number of days added, sign apart. -/
theorem minusDate_plus_from_2000 {d e : CDate} (hv : validDate d = true) (hy1 : 2000 ≤ d.year)
    (hy2 : d.year ≤ 2030) (n : Int) (he : d.plus n = some e) (hey : 2000 ≤ e.year) :
    minusDate e d = if n < 0 then -n else n := by
  obtain ⟨e1, he1, hev, hen⟩ := plus_spec hv hy1 hy2 n
  rw [he] at he1
  cases he1
  simp only [minusDate, daysFromStart_eq hev hey, daysFromStart_eq hv hy1, hen]
  split_ifs <;> omega

/-- C19 fails on the code for a date before the year 2000: the constructor
accepts 2000-01-01, `operator +` with -1 (and `operator -` with 1) returns
1999-12-31, and the difference of the two dates is computed as 364, not 1,
because `daysFromStart` runs no pass of its loop over the years. -/
theorem minusDate_before_2000 :
    CDate.new 2000 1 1 = some { year := 2000, month := 1, day := 1 } ∧
    (CDate.mk 2000 1 1).plus (-1) = some { year := 1999, month := 12, day := 31 } ∧
    (CDate.mk 2000 1 1).minus 1 = some { year := 1999, month := 12, day := 31 } ∧
    daysFromStart { year := 1999, month := 12, day := 31 } = 365 ∧
    daysFromStart { year := 2000, month := 1, day := 1 } = 1 ∧
    minusDate { year := 1999, month := 12, day := 31 } { year := 2000, month := 1, day := 1 } =
      364 := by
  decide

theorem eq_self (d : CDate) : d.eq d = true := by
  simp [eq]

/-- C20, as amended: for every date `d` the constructor accepts and every
integer `n`, `d + n` and `d - n` are returned; when the date returned lies in
the years 2000 to 2030, subtracting, respectively adding, `n` again gives a
date equal to `d`, and when it lies outside them that second operation throws
`InvalidDateException`.  In particular `--(++d)` and `++(--d)` leave `d` at its
value when the date in between lies in the years 2000 to 2030. -/
theorem minus_plus_cancel (year month day : Int) (d : CDate)
    (hd : CDate.new year month day = some d) (n : Int) :
    (∃ e, d.plus n = some e ∧
      (2000 ≤ e.year ∧ e.year ≤ 2030 → ∃ d1, e.minus n = some d1 ∧ d1.eq d = true) ∧
      (e.year < 2000 ∨ 2030 < e.year → e.minus n = none)) ∧
    (∃ e, d.minus n = some e ∧
      (2000 ≤ e.year ∧ e.year ≤ 2030 → ∃ d1, e.plus n = some d1 ∧ d1.eq d = true) ∧
      (e.year < 2000 ∨ 2030 < e.year → e.plus n = none)) ∧
    (∃ e, d.preIncrement = some (e, e) ∧
      (2000 ≤ e.year ∧ e.year ≤ 2030 → e.preDecrement = some (d, d))) ∧
    (∃ e, d.preDecrement = some (e, e) ∧
      (2000 ≤ e.year ∧ e.year ≤ 2030 → e.preIncrement = some (d, d))) := by
  obtain ⟨_, hv, hy1, hy2⟩ := new_eq_some hd
  have hd1 : d.year = year := by rw [(new_eq_some hd).1]
  rw [← hd1] at hy1 hy2
  have back : ∀ m : Int, ∃ e, d.plus m = some e ∧
      (2000 ≤ e.year ∧ e.year ≤ 2030 → e.plus (-m) = some d) ∧
      (e.year < 2000 ∨ 2030 < e.year → e.plus (-m) = none) := by
    intro m
    obtain ⟨e, he, hev, hen⟩ := plus_spec hv hy1 hy2 m
    refine ⟨e, he, ?_, fun hout => plus_throws hout _⟩
    intro hin
    obtain ⟨d1, hd1e, hd1v, hd1n⟩ := plus_spec hev hin.1 hin.2 (-m)
    rw [hd1e, dayNumber_injective hd1v hv (by rw [hd1n, hen]; omega)]
  refine ⟨?_, ?_, ?_, ?_⟩
  · obtain ⟨e, he, hin, hout⟩ := back n
    exact ⟨e, he, fun h => ⟨d, hin h, eq_self d⟩, hout⟩
  · obtain ⟨e, he, hin, hout⟩ := back (-n)
    rw [neg_neg] at hin hout
    exact ⟨e, he, fun h => ⟨d, hin h, eq_self d⟩, hout⟩
  · obtain ⟨e, he, hin, _⟩ := back 1
    refine ⟨e, by simp [preIncrement, he], ?_⟩
    intro h
    simp [preDecrement, minus, hin h]
  · obtain ⟨e, he, hin, _⟩ := back (-1)
    rw [neg_neg] at hin
    refine ⟨e, by simp [preDecrement, minus, he], ?_⟩
    intro h
    simp [preIncrement, hin h]

/-- The steps `++c` and `--c` of `main` on 2004-02-10. -/
theorem minus_plus_cancel_witness :
    CDate.new 2004 2 10 = some { year := 2004, month := 2, day := 10 } ∧
    (CDate.mk 2004 2 10).preIncrement =
      some ({ year := 2004, month := 2, day := 11 }, { year := 2004, month := 2, day := 11 }) ∧
    (CDate.mk 2004 2 11).preDecrement =
      some ({ year := 2004, month := 2, day := 10 }, { year := 2004, month := 2, day := 10 }) := by
  obtain ⟨e, he, hin⟩ := (minus_plus_cancel 2004 2 10 { year := 2004, month := 2, day := 10 }
    (by decide) 0).2.2.1
  have hpre : (CDate.mk 2004 2 10).preIncrement =
      some ({ year := 2004, month := 2, day := 11 }, { year := 2004, month := 2, day := 11 }) := by
    decide
  have hee : e = { year := 2004, month := 2, day := 11 } := by
    rw [he] at hpre
    exact (Prod.mk.inj (Option.some.inj hpre)).1
  subst hee
  exact ⟨by decide, hpre, hin (by decide)⟩

/-- The claim C20 as it is written fails: the constructor accepts 2030-12-31
and 2000-01-01; adding 1 to the first gives 2031-01-01, from which subtracting
1 throws, and subtracting 1 from the second gives 1999-12-31, to which adding
1 throws; so do `--(++d)` and `++(--d)` on these dates. -/
theorem minus_after_plus_throws :
    CDate.new 2030 12 31 = some { year := 2030, month := 12, day := 31 } ∧
    (CDate.mk 2030 12 31).plus 1 = some { year := 2031, month := 1, day := 1 } ∧
    (CDate.mk 2031 1 1).minus 1 = none ∧
    CDate.new 2000 1 1 = some { year := 2000, month := 1, day := 1 } ∧
    (CDate.mk 2000 1 1).minus 1 = some { year := 1999, month := 12, day := 31 } ∧
    (CDate.mk 1999 12 31).plus 1 = none ∧
    (CDate.mk 2030 12 31).preIncrement =
      some ({ year := 2031, month := 1, day := 1 }, { year := 2031, month := 1, day := 1 }) ∧
    (CDate.mk 2031 1 1).preDecrement = none ∧
    (CDate.mk 2000 1 1).preDecrement =
      some ({ year := 1999, month := 12, day := 31 }, { year := 1999, month := 12, day := 31 }) ∧
    (CDate.mk 1999 12 31).preIncrement = none := by
  decide

/-! ## Comparison -/

theorem eq_iff (a b : CDate) : a.eq b = true ↔ a = b := by
  cases a
  cases b
  simp [eq, and_assoc]

theorem gt_iff (a b : CDate) :
    a.gt b = true ↔
      a.year > b.year ∨ (a.year = b.year ∧ (a.month > b.month ∨
        (a.month = b.month ∧ a.day > b.day))) := by
  simp only [gt, Bool.or_eq_true, Bool.and_eq_true, decide_eq_true_eq]
  tauto

/-- C21: the six comparison operators describe one total order by calendar
position.  `a > b` holds exactly when (year, month, day) of `a` is greater than
that of `b` in the lexicographic order; `a < b` is `b > a`, `a == b` is
equality of the three members, `>` is transitive; exactly one of `a < b`,
`a == b`, `a > b` holds; `a <= b` is `a < b` or `a == b`, `a >= b` is `a > b`
or `a == b`, and `a != b` is the negation of `a == b`. -/
theorem comparison_total_order (a b c : CDate) :
    (a.gt b = true ↔
      a.year > b.year ∨ (a.year = b.year ∧ (a.month > b.month ∨
        (a.month = b.month ∧ a.day > b.day)))) ∧
    ((a.lt b = true ∧ a.eq b = false ∧ a.gt b = false) ∨
      (a.lt b = false ∧ a.eq b = true ∧ a.gt b = false) ∨
      (a.lt b = false ∧ a.eq b = false ∧ a.gt b = true)) ∧
    (a.le b = true ↔ a.lt b = true ∨ a.eq b = true) ∧
    (a.ge b = true ↔ a.gt b = true ∨ a.eq b = true) ∧
    (a.ne b = true ↔ ¬ a.eq b = true) ∧
    (a.lt b = true ↔ b.gt a = true) ∧
    (a.eq b = true ↔ a.year = b.year ∧ a.month = b.month ∧ a.day = b.day) ∧
    (a.gt b = true → b.gt c = true → a.gt c = true) := by
  have hgt := gt_iff a b
  have hgt2 := gt_iff b a
  have heq : a.eq b = true ↔ a.year = b.year ∧ a.month = b.month ∧ a.day = b.day := by
    simp [eq, and_assoc]
  refine ⟨hgt, ?_, ?_, ?_, ?_, ?_, heq, ?_⟩
  · by_cases h1 : a.gt b = true
    · have h2 : a.eq b = false := by
        cases he : a.eq b with
        | false => rfl
        | true =>
          have := heq.1 he
          have := hgt.1 h1
          omega
      exact Or.inr (Or.inr ⟨by simp [lt, h1], h2, h1⟩)
    · have h1f : a.gt b = false := by simpa using h1
      cases he : a.eq b with
      | false => exact Or.inl ⟨by simp [lt, h1f, he], rfl, h1f⟩
      | true => exact Or.inr (Or.inl ⟨by simp [lt, he], rfl, h1f⟩)
  · simp only [le, lt, Bool.not_eq_true', Bool.and_eq_true]
    constructor
    · intro h
      cases he : a.eq b with
      | false => exact Or.inl ⟨h, rfl⟩
      | true => exact Or.inr rfl
    · rintro (h | h)
      · exact h.1
      · cases hg : a.gt b with
        | false => rfl
        | true =>
          have := heq.1 h
          have := hgt.1 hg
          omega
  · simp only [ge, lt, Bool.not_eq_true', Bool.and_eq_false_imp, Bool.not_eq_false]
    constructor
    · intro h
      cases hg : a.gt b with
      | true => exact Or.inl rfl
      | false => exact Or.inr (by simpa using h hg)
    · rintro (h | h)
      · intro hg
        rw [h] at hg
        exact absurd hg (by simp)
      · exact fun _ => by simpa using h
  · simp [ne]
  · simp only [lt, Bool.and_eq_true, Bool.not_eq_true']
    constructor
    · rintro ⟨h1, h2⟩
      have h1n : ¬ a.gt b = true := by simp [h1]
      have h2n : ¬ a.eq b = true := by simp [h2]
      rw [hgt] at h1n
      rw [heq] at h2n
      rw [hgt2]
      omega
    · intro h
      rw [hgt2] at h
      constructor
      · cases hg : a.gt b with
        | false => rfl
        | true =>
          have := hgt.1 hg
          omega
      · cases he : a.eq b with
        | false => rfl
        | true =>
          have := heq.1 he
          omega
  · intro h1 h2
    rw [gt_iff] at h1 h2 ⊢
    omega

/-- The comparisons `main` asserts on 2004-08-13 and 2004-02-10. -/
theorem comparison_total_order_witness :
    (CDate.mk 2004 8 13).gt (CDate.mk 2004 2 10) = true ∧
    ((CDate.mk 2004 8 13).gt (CDate.mk 2004 2 10) = true →
      (CDate.mk 2004 2 10).gt (CDate.mk 2000 1 2) = true →
      (CDate.mk 2004 8 13).gt (CDate.mk 2000 1 2) = true) ∧
    (CDate.mk 2004 8 13).gt (CDate.mk 2000 1 2) = true :=
  ⟨by decide,
    (comparison_total_order (CDate.mk 2004 8 13) (CDate.mk 2004 2 10) (CDate.mk 2000 1 2)).2.2.2.2.2.2.2,
    (comparison_total_order (CDate.mk 2004 8 13) (CDate.mk 2004 2 10) (CDate.mk 2000 1 2)).2.2.2.2.2.2.2
      (by decide) (by decide)⟩

/-! ## Increment, decrement and extraction -/

/-- C22: for every date `d` the constructor accepts, `d + 1` and `d - 1` are
returned, they are the valid dates one day after and one day before `d`, and:
prefix `++` changes the date to `d + 1` and returns the updated date, postfix
`++` changes the date to `d + 1` and returns the original `d`; prefix `--`
changes the date to `d - 1` and returns the updated date, postfix `--` changes
the date to `d - 1` and returns the original `d`. -/
theorem increment_decrement (year month day : Int) (d : CDate)
    (hd : CDate.new year month day = some d) :
    ∃ after before, d.plus 1 = some after ∧ d.minus 1 = some before ∧
      d.preIncrement = some (after, after) ∧ d.postIncrement = some (after, d) ∧
      d.preDecrement = some (before, before) ∧ d.postDecrement = some (before, d) ∧
      validDate after = true ∧ dayNumber after = dayNumber d + 1 ∧
      validDate before = true ∧ dayNumber before = dayNumber d - 1 := by
  obtain ⟨_, hv, hy1, hy2⟩ := new_eq_some hd
  have hd1 : d.year = year := by rw [(new_eq_some hd).1]
  rw [← hd1] at hy1 hy2
  obtain ⟨after, ha, hav, han⟩ := plus_spec hv hy1 hy2 1
  obtain ⟨before, hb, hbv, hbn⟩ := plus_spec hv hy1 hy2 (-1)
  refine ⟨after, before, ha, hb, ?_, ?_, ?_, ?_, hav, han, hbv, by omega⟩
  · simp [preIncrement, ha]
  · simp [postIncrement, ha]
  · simp [preDecrement, minus, hb]
  · simp [postDecrement, minus, hb]

/-- The steps `a = ++c`, `a = --c`, `a = c++`, `a = c--` of `main`. -/
theorem increment_decrement_witness :
    CDate.new 2004 2 10 = some { year := 2004, month := 2, day := 10 } ∧
    ∃ after before,
      (CDate.mk 2004 2 10).preIncrement = some (after, after) ∧
      (CDate.mk 2004 2 10).postIncrement = some (after, { year := 2004, month := 2, day := 10 }) ∧
      (CDate.mk 2004 2 10).preDecrement = some (before, before) ∧
      (CDate.mk 2004 2 10).postDecrement =
        some (before, { year := 2004, month := 2, day := 10 }) := by
  obtain ⟨after, before, _, _, h1, h2, h3, h4, _⟩ :=
    increment_decrement 2004 2 10 { year := 2004, month := 2, day := 10 } (by decide)
  exact ⟨by decide, after, before, h1, h2, h3, h4⟩

/-- C23: an extraction that has read `year delim1 month delim2 day` is
rejected (`failbit` is set) whenever a separator is not `-`, the month is
outside 1 to 12, or the day is outside 1 to the number of days of the month in
the year, and it is accepted in every other case, whatever the year; every
rejected extraction, also one on which the stream failed to read, leaves the
target date at its value; an accepted extraction sets the target to exactly
the year, month and day read. -/
theorem extract_accepts_iff (year : Int) (delim1 : Char) (month : Int) (delim2 : Char)
    (day : Int) (self : CDate) :
    ((delim1 ≠ '-' ∨ delim2 ≠ '-' ∨ month < 1 ∨ 12 < month ∨ day < 1 ∨
        calendarDays month year < day) →
      extract (some (year, delim1, month, delim2, day)) self = (false, self)) ∧
    (¬ (delim1 ≠ '-' ∨ delim2 ≠ '-' ∨ month < 1 ∨ 12 < month ∨ day < 1 ∨
        calendarDays month year < day) →
      extract (some (year, delim1, month, delim2, day)) self =
        (true, { year := year, month := month, day := day })) ∧
    extract none self = (false, self) ∧
    (∀ read, (extract read self).1 = false → (extract read self).2 = self) := by
  have hvalid : validDate { year := year, month := month, day := day } = true ↔
      ¬ (month < 1 ∨ 12 < month ∨ day < 1 ∨ calendarDays month year < day) := by
    rw [validDate_iff]
    simp only
    by_cases hm : 1 ≤ month ∧ month ≤ 12
    · rw [daysInMonth_eq_calendarDays month year hm.1 hm.2]
      omega
    · omega
  refine ⟨?_, ?_, rfl, ?_⟩
  · intro h
    simp only [extract]
    rw [if_pos]
    simp only [Bool.or_eq_true, bne_iff_ne, ne_eq, Bool.not_eq_true']
    by_cases h1 : delim1 = '-'
    · by_cases h2 : delim2 = '-'
      · right
        cases hv : validDate { year := year, month := month, day := day } with
        | false => rfl
        | true =>
          have := hvalid.1 hv
          tauto
      · exact Or.inl (Or.inr h2)
    · exact Or.inl (Or.inl h1)
  · intro h
    simp only [not_or, not_not] at h
    have hv : validDate { year := year, month := month, day := day } = true :=
      hvalid.2 (by
        simp only [not_or]
        exact h.2.2)
    simp [extract, h.1, h.2.1, hv]
  · intro read hf
    cases read with
    | none => rfl
    | some t =>
      obtain ⟨y, d1, m, d2, d⟩ := t
      simp only [extract] at hf ⊢
      split_ifs at hf ⊢ with hc
      rfl

/-- The four extractions of `main` into 2000-01-01: 2000-12-33, 2000-11-31
and 2001-02-29 are rejected and leave the date, 2000-02-29 is accepted. -/
theorem extract_accepts_iff_witness :
    extract (some (2000, '-', 12, '-', 33)) { year := 2000, month := 1, day := 1 } =
      (false, { year := 2000, month := 1, day := 1 }) ∧
    extract (some (2000, '-', 11, '-', 31)) { year := 2000, month := 1, day := 1 } =
      (false, { year := 2000, month := 1, day := 1 }) ∧
    extract (some (2000, '-', 2, '-', 29)) { year := 2000, month := 1, day := 1 } =
      (true, { year := 2000, month := 2, day := 29 }) ∧
    extract (some (2001, '-', 2, '-', 29)) { year := 2000, month := 2, day := 29 } =
      (false, { year := 2000, month := 2, day := 29 }) :=
  ⟨(extract_accepts_iff 2000 '-' 12 '-' 33 _).1 (by decide),
    (extract_accepts_iff 2000 '-' 11 '-' 31 _).1 (by decide),
    (extract_accepts_iff 2000 '-' 2 '-' 29 _).2.1 (by decide),
    (extract_accepts_iff 2001 '-' 2 '-' 29 _).1 (by decide)⟩

/-! ## Termination of the loop of `operator +` -/

/-- Whatever the bound, the loop returns a date reached by passes through its
body on which the date was not valid before; the bound is left over exactly
when the date reached is valid. -/
theorem whileLoop_iterate (fuel : Nat) :
    ∀ x : CDate, ∃ passes, passes ≤ fuel ∧ whileLoop fuel x = Nat.iterate loopBody passes x ∧
      (∀ j, j < passes → validDate (Nat.iterate loopBody j x) = false) ∧
      (passes < fuel → validDate (Nat.iterate loopBody passes x) = true) := by
  induction fuel with
  | zero =>
    intro x
    exact ⟨0, le_refl _, rfl, fun j hj => absurd hj (Nat.not_lt_zero j),
      fun h => absurd h (Nat.lt_irrefl 0)⟩
  | succ fuel ih =>
    intro x
    by_cases hv : validDate x = true
    · exact ⟨0, Nat.zero_le _, by simp [whileLoop, hv], fun j hj => absurd hj (Nat.not_lt_zero j),
        fun _ => hv⟩
    · obtain ⟨k, hk, hloop, hbefore, hleft⟩ := ih (loopBody x)
      refine ⟨k + 1, Nat.succ_le_succ hk, ?_, ?_, ?_⟩
      · simp only [whileLoop, hv, Bool.false_eq_true, if_false]
        exact hloop
      · intro j hj
        cases j with
        | zero => simpa using hv
        | succ j => exact hbefore j (Nat.lt_of_succ_lt_succ hj)
      · intro h
        exact hleft (Nat.lt_of_succ_lt_succ h)

/-- When the date is valid after `passes` passes and not before, the loop
returns the date reached then, for every bound from `passes` on. -/
theorem whileLoop_of_first_valid (passes : Nat) :
    ∀ x : CDate, (∀ j, j < passes → validDate (Nat.iterate loopBody j x) = false) →
      validDate (Nat.iterate loopBody passes x) = true →
      ∀ fuel, passes ≤ fuel → whileLoop fuel x = Nat.iterate loopBody passes x := by
  induction passes with
  | zero =>
    intro x _ hv fuel _
    exact whileLoop_valid fuel x hv
  | succ passes ih =>
    intro x hbefore hv fuel hf
    cases fuel with
    | zero => omega
    | succ fuel =>
      have h0 : validDate x = false := hbefore 0 (Nat.succ_pos _)
      simp only [whileLoop, h0, Bool.false_eq_true, if_false]
      exact ih (loopBody x) (fun j hj => hbefore (j + 1) (Nat.succ_lt_succ hj)) hv fuel
        (Nat.le_of_succ_le_succ hf)

theorem plus_eq_whileLoop {d : CDate} (hv : validDate d = true) (hy1 : 2000 ≤ d.year)
    (hy2 : d.year ≤ 2030) (rhs : Int) :
    d.plus rhs = some (whileLoop ((d.day + rhs).natAbs + 1) { d with day := d.day + rhs }) := by
  have hvi := (validDate_iff d).1 hv
  have hnew : CDate.new d.year d.month d.day = some d := by
    simp only [CDate.new]
    rw [if_neg]
    simp only [Bool.not_eq_true', Bool.and_eq_false_imp, Bool.and_eq_true, decide_eq_true_eq,
      decide_eq_false_iff_not, not_le, ge_iff_le, not_forall, not_lt, exists_prop]
    omega
  simp only [plus, hnew, Option.bind_eq_bind, Option.some_bind]

/-- C26: for every date `d` the constructor accepts and every integer `n`, the
loop of `d + n` terminates: after a number of passes of at most `|day + n| + 1`
the date is valid for the first time, the loop returns that date for every
bound from this number of passes on, and `d + n` returns it.  The date
returned has `1 ≤ month ≤ 12` and `1 ≤ day ≤` the number of days of that month
in that year (`validDate` holds), whichever month, year or leap-year boundary
the way to it crosses, and in either direction. -/
theorem plus_terminates_valid (year month day : Int) (d : CDate)
    (hd : CDate.new year month day = some d) (n : Int) :
    ∃ passes : Nat, passes ≤ (d.day + n).natAbs + 1 ∧
      (∀ j, j < passes →
        validDate (Nat.iterate loopBody j { d with day := d.day + n }) = false) ∧
      validDate (Nat.iterate loopBody passes { d with day := d.day + n }) = true ∧
      (∀ fuel, passes ≤ fuel →
        whileLoop fuel { d with day := d.day + n } =
          Nat.iterate loopBody passes { d with day := d.day + n }) ∧
      d.plus n = some (Nat.iterate loopBody passes { d with day := d.day + n }) ∧
      ∃ e, d.plus n = some e ∧ validDate e = true ∧ 1 ≤ e.month ∧ e.month ≤ 12 ∧ 1 ≤ e.day ∧
        e.day ≤ calendarDays e.month e.year := by
  obtain ⟨_, hv, hy1, hy2⟩ := new_eq_some hd
  have hd1 : d.year = year := by rw [(new_eq_some hd).1]
  rw [← hd1] at hy1 hy2
  have hvi := (validDate_iff d).1 hv
  obtain ⟨hval, _⟩ := whileLoop_spec ((d.day + n).natAbs + 1)
    { d with day := d.day + n } hvi.1 hvi.2.1 (le_refl _)
  obtain ⟨passes, hle, hloop, hbefore, _⟩ :=
    whileLoop_iterate ((d.day + n).natAbs + 1) { d with day := d.day + n }
  have hplus := plus_eq_whileLoop hv hy1 hy2 n
  rw [hloop] at hval hplus
  have hres := (validDate_iff _).1 hval
  refine ⟨passes, hle, hbefore, hval,
    whileLoop_of_first_valid passes _ hbefore hval, hplus, _, hplus, hval, hres.1, hres.2.1,
    hres.2.2.1, ?_⟩
  rw [← daysInMonth_eq_calendarDays _ _ hres.1 hres.2.1]
  exact hres.2.2.2

/-- Crossing the end of February of a leap year forwards and the turn of the
year backwards; `a + 1500` of `main`. -/
theorem plus_terminates_valid_witness :
    CDate.new 2000 2 28 = some { year := 2000, month := 2, day := 28 } ∧
    (CDate.mk 2000 2 28).plus 2 = some { year := 2000, month := 3, day := 1 } ∧
    (CDate.mk 2000 1 1).plus (-1) = some { year := 1999, month := 12, day := 31 } ∧
    (CDate.mk 2000 1 2).plus 1500 = some { year := 2004, month := 2, day := 10 } ∧
    ∃ e, (CDate.mk 2000 2 28).plus 2 = some e ∧ validDate e = true := by
  obtain ⟨_, _, _, _, _, _, e, he, hv, _⟩ :=
    plus_terminates_valid 2000 2 28 { year := 2000, month := 2, day := 28 } (by decide) 2
  exact ⟨by decide, by decide, by decide, by decide, e, he, hv⟩

end CDate
